import Mathlib

/-!
# Verification of the iff2gif animation transcoder

Shallow embedding, in Lean 4, of the core data manipulation of the
iff2gif IFF/ANIM to GIF converter, together with proofs about it:

* clip-range canonicalization (`sortclips` in iff2gif.cpp);
* the delay accumulators (`GIFWriter::AddDelay` in gifwrite.cpp);
* the ANIM vertical-delta decoders (`Delta5`, `Do8short`, `Delta8Long`
  and friends in iffread.cpp);
* the frame write queue (`GIFFrameQueue` in gifwrite.cpp);
* the minimum-changed-area scan (`MinArea` in gifwrite.cpp);
* the GIF LZW compressor (`CodeStream` / `LZWCompress` in gifwrite.cpp)
  and a conformant reference decompressor.

C machine integers are modelled as `Nat` with explicit reductions
`% 2 ^ w` at the points where the C code can overflow; byte buffers are
modelled as total maps `Nat → Nat` or as `List Nat` with all values
below 256.  Multi-byte loads and stores of the delta decoders are
modelled byte-wise, little-endian, matching the x86 hosts the program
targets.
-/

set_option autoImplicit false
set_option maxRecDepth 8000
set_option maxHeartbeats 1000000

namespace Iff2Gif

/-! # Part 1: Definitions (the shallow embedding)

Everything translated from the C++ source comes first; all theorems
follow in Part 2. -/

/-! ## Clip ranges (iff2gif.cpp: sortclips)

A clip range is a closed interval of 1-based frame numbers, stored as a
`std::pair<unsigned, unsigned>`; we model `unsigned` values as `Nat`
(all C arithmetic on them is reduced mod `2 ^ 32` where it can wrap). -/

/-- `n - 1` in C `unsigned` arithmetic (wraps to `2^32 - 1` at `n = 0`),
as evaluated in the merge test `clips[i-1].second >= clips[i].first - 1`. -/
def usub1 (n : Nat) : Nat := (n + 4294967295) % 4294967296

/-- The order `std::sort` uses on `std::pair<unsigned, unsigned>`:
lexicographic comparison. -/
def clipLE (a b : Nat × Nat) : Prop := a.1 < b.1 ∨ (a.1 = b.1 ∧ a.2 ≤ b.2)

instance : DecidableRel clipLE := fun a b => by unfold clipLE; infer_instance

instance : IsTotal (Nat × Nat) clipLE := ⟨by intro a b; unfold clipLE; omega⟩

instance : IsTrans (Nat × Nat) clipLE := ⟨by intro a b c; unfold clipLE; omega⟩

/-- The combining loop of `sortclips`: the first argument is the range at
index `i - 1` (into which later ranges are merged); whenever
`clips[i-1].second >= clips[i].first - 1` (unsigned), the two ranges are
replaced by one ending at the larger endpoint and the same position is
rechecked; otherwise the walk moves on. -/
def mergeClipsFrom : (Nat × Nat) → List (Nat × Nat) → List (Nat × Nat)
  | cur, [] => [cur]
  | cur, b :: rest =>
    if usub1 b.1 ≤ cur.2 then mergeClipsFrom (cur.1, max cur.2 b.2) rest
    else cur :: mergeClipsFrom b rest

/-- `sortclips` (iff2gif.cpp): sort the clip list by start frame, then
combine overlapping or abutting ranges. -/
def sortclips (clips : List (Nat × Nat)) : List (Nat × Nat) :=
  match clips.insertionSort clipLE with
  | [] => []
  | x :: xs => mergeClipsFrom x xs

/-- A clip range as produced by `parseclip` under the claim's hypothesis:
1-based, start at most end, within `unsigned` range. -/
def ClipValid (p : Nat × Nat) : Prop :=
  1 ≤ p.1 ∧ p.1 ≤ p.2 ∧ p.2 < 4294967296

instance : DecidablePred ClipValid := fun p => by unfold ClipValid; infer_instance

/-- Two ranges neither overlap nor abut: the first ends strictly more than
one frame before the second starts. -/
def ClipGap (a b : Nat × Nat) : Prop := a.2 + 1 < b.1

/-! ## Delay conversion (gifwrite.cpp: GIFWriter::AddDelay)

`TotalTicks`, `GIFTime` and `FrameRate` are `uint32_t` members of
`GIFWriter`; a GIF frame's stored delay (`GCE.DelayTime`) is a
`uint16_t`.  `AddDelay` moves the incoming ANIM delay (ticks before
showing *this* frame) onto the preceding GIF frame (delay before showing
the *next* frame), rescaled from ticks at `FrameRate` per second into
centiseconds through the two running accumulators. -/

/-- The delay-conversion state of `GIFWriter`. -/
structure DelayState where
  TotalTicks : Nat
  GIFTime : Nat
  FrameRate : Nat
deriving DecidableEq, Repr

/-- `GIFWriter::AddDelay(oldframe, delay)` (gifwrite.cpp).  Returns the
updated accumulators together with the centisecond value stored into the
preceding frame's `GCE.DelayTime`; when `delay` is zero nothing happens
and the frame keeps its current stored delay `oldframeDelay`. -/
def AddDelay (st : DelayState) (oldframeDelay : Nat) (delay : Nat) :
    DelayState × Nat :=
  if delay ≠ 0 then
    let tick := (st.TotalTicks + delay) % 4294967296
    let lasttime := st.GIFTime
    let nowtime := tick * 100 % 4294967296 / st.FrameRate
    let d := (nowtime + 4294967296 - lasttime) % 4294967296
    ({ st with TotalTicks := tick, GIFTime := (st.GIFTime + d) % 4294967296 },
     d % 65536)
  else (st, oldframeDelay)

/-! ## ANIM vertical deltas (iffread.cpp)

A plane buffer is modelled as a total byte map `Buf = Nat → Nat`
indexed from the start of the plane.  Each delta variant fixes an XOR
mask at entry (from `head->bits & ANIM_XOR`) and then, per column, runs
an op list of literal runs, fill runs and row skips down the column.
Every store performs `*pixel = (*pixel & xormask) ^ data`.

The 16- and 32-bit variants read counts through `BigShort`/`BigLong`
(byte-swapped on the little-endian hosts the program targets) but use
data words raw; `Delta8Long` walks a `uint32_t *` cursor in byte-sized
`pitch` steps, so it is modelled on the byte map with explicit 4-byte
little-endian loads and stores. -/

/-- A plane (or delta stream) buffer: a total map from byte index to
byte value. -/
def Buf : Type := Nat → Nat

/-- Update one byte of a buffer. -/
def bufWrite (buf : Buf) (i v : Nat) : Buf := fun j => if j = i then v else buf j

/-- `*pixel = (*pixel & xormask) ^ data`, the store every delta variant
performs, at value level. -/
def deltaCombine (xormask old data : Nat) : Nat := Nat.xor (Nat.land old xormask) data

/-- `Delta5` (iffread.cpp): `const uint8_t xormask = (head->bits & ANIM_XOR) ? 0xFF : 0x00;`
(8-bit elements). -/
def delta5Mask (xorflag : Bool) : Nat := if xorflag then 0xFF else 0x00

/-- `Delta7Short` (iffread.cpp): `const uint16_t xormask = (head->bits & ANIM_XOR) ? 0xFFFF : 0x00;`
(16-bit elements). -/
def delta7ShortMask (xorflag : Bool) : Nat := if xorflag then 0xFFFF else 0x00

/-- `Delta7Long` (iffread.cpp): `const uint32_t xormask = (head->bits & ANIM_XOR) ? 0xFFFF : 0x00;`
(32-bit elements, but a 16-bit mask constant). -/
def delta7LongMask (xorflag : Bool) : Nat := if xorflag then 0xFFFF else 0x00

/-- `Delta8Short`/`Delta8Long` (iffread.cpp): `const uint16_t xormask = (head->bits & ANIM_XOR) ? 0xFF : 0x00;`
(16- respectively 32-bit elements, but an 8-bit mask constant). -/
def delta8Mask (xorflag : Bool) : Nat := if xorflag then 0xFF else 0x00

/-- The value stored by a `Delta5` literal or fill write. -/
def delta5Write (xorflag : Bool) (old data : Nat) : Nat :=
  deltaCombine (delta5Mask xorflag) old data

/-- The value stored by a `Delta7Short` literal or fill write. -/
def delta7ShortWrite (xorflag : Bool) (old data : Nat) : Nat :=
  deltaCombine (delta7ShortMask xorflag) old data

/-- The value stored by a `Delta7Long` literal or fill write
(32-bit `old` and `data`). -/
def delta7LongWrite (xorflag : Bool) (old data : Nat) : Nat :=
  deltaCombine (delta7LongMask xorflag) old data

/-- The value stored by a `Do8short` (`Delta8Short`) literal or fill
write (16-bit `old` and `data`). -/
def delta8ShortWrite (xorflag : Bool) (old data : Nat) : Nat :=
  deltaCombine (delta8Mask xorflag) old data

/-- The value stored by a `Delta8Long` literal or fill write (32-bit
`old` and `data`). -/
def delta8LongWrite (xorflag : Bool) (old data : Nat) : Nat :=
  deltaCombine (delta8Mask xorflag) old data

/-! ### Delta5: byte vertical delta (merged op and data list) -/

/-- One `Delta5` literal run (`op & 0x80`): copy `cnt` bytes from the op
stream into successive rows; the guard `pixel < stop` suppresses the
store and the cursor step, but `ops++` still consumes the data byte. -/
def delta5Lit (mask pitch stop : Nat) :
    Nat → List Nat → Nat → Buf → Buf × List Nat × Nat
  | 0, ops, pos, buf => (buf, ops, pos)
  | cnt + 1, ops, pos, buf =>
    if pos < stop then
      delta5Lit mask pitch stop cnt ops.tail (pos + pitch)
        (bufWrite buf pos (deltaCombine mask (buf pos) (ops.headD 0)))
    else
      delta5Lit mask pitch stop cnt ops.tail pos buf

/-- One `Delta5` fill run (`op == 0`): write the single byte `fill` into
`cnt` successive rows, with the same `pixel < stop` guard. -/
def delta5Fill (mask pitch stop fill : Nat) : Nat → Nat → Buf → Buf × Nat
  | 0, pos, buf => (buf, pos)
  | cnt + 1, pos, buf =>
    if pos < stop then
      delta5Fill mask pitch stop fill cnt (pos + pitch)
        (bufWrite buf pos (deltaCombine mask (buf pos) fill))
    else
      delta5Fill mask pitch stop fill cnt pos buf

/-- The `Delta5` op loop for one column: `opcount` iterations consuming
literal (`op & 0x80`), fill (`op == 0`) and skip ops. -/
def delta5Ops (mask pitch stop : Nat) :
    Nat → List Nat → Nat → Buf → Buf × List Nat
  | 0, ops, _, buf => (buf, ops)
  | opcount + 1, ops, pos, buf =>
    let op := ops.headD 0
    let rest := ops.tail
    if Nat.land op 0x80 ≠ 0 then
      let r := delta5Lit mask pitch stop (Nat.land op 0x7F) rest pos buf
      delta5Ops mask pitch stop opcount r.2.1 r.2.2 r.1
    else if op = 0 then
      let cnt := rest.headD 0
      let fill := rest.tail.headD 0
      let r := delta5Fill mask pitch stop fill cnt pos buf
      delta5Ops mask pitch stop opcount rest.tail.tail r.2 r.1
    else
      delta5Ops mask pitch stop opcount rest (pos + op * pitch) buf

/-- One `Delta5` column: `pixel = Planes[p] + x`,
`stop = pixel + Height * pitch`, `opcount = *ops++`, then the op loop. -/
def delta5Col (mask pitch height x : Nat) (ops : List Nat) (buf : Buf) :
    Buf × List Nat :=
  delta5Ops mask pitch (x + height * pitch) (ops.headD 0) ops.tail x buf

/-! ### Do8short: 16-bit vertical delta (merged op and data list)

Element-granular model: the buffer maps 16-bit element indices to
16-bit values, `pitch` is in elements (`bitmap->Pitch / 2`), and the op
stream is the list of `uint16_t` words as loaded raw by the host;
`BigShort` byte-swaps a word when the code asks for a count. -/

/-- `BigShort` on a raw little-endian-loaded 16-bit word: swap the two
bytes. -/
def bigShort (v : Nat) : Nat := v % 256 * 256 + v / 256 % 256

/-- A `Do8short` literal run (`op & 0x8000`). -/
def do8shortLit (mask pitch stop : Nat) :
    Nat → List Nat → Nat → Buf → Buf × List Nat × Nat
  | 0, ops, pos, buf => (buf, ops, pos)
  | cnt + 1, ops, pos, buf =>
    if pos < stop then
      do8shortLit mask pitch stop cnt ops.tail (pos + pitch)
        (bufWrite buf pos (deltaCombine mask (buf pos) (ops.headD 0)))
    else
      do8shortLit mask pitch stop cnt ops.tail pos buf

/-- A `Do8short` fill run (`op == 0`): `cnt = BigShort(*ops++)`,
`fill = *ops++` (raw), then `cnt` guarded stores. -/
def do8shortFill (mask pitch stop fill : Nat) : Nat → Nat → Buf → Buf × Nat
  | 0, pos, buf => (buf, pos)
  | cnt + 1, pos, buf =>
    if pos < stop then
      do8shortFill mask pitch stop fill cnt (pos + pitch)
        (bufWrite buf pos (deltaCombine mask (buf pos) fill))
    else
      do8shortFill mask pitch stop fill cnt pos buf

/-- The `Do8short` op loop: `opcount = BigShort(*ops++)` iterations. -/
def do8shortOps (mask pitch stop : Nat) :
    Nat → List Nat → Nat → Buf → Buf × List Nat
  | 0, ops, _, buf => (buf, ops)
  | opcount + 1, ops, pos, buf =>
    let op := bigShort (ops.headD 0)
    let rest := ops.tail
    if Nat.land op 0x8000 ≠ 0 then
      let r := do8shortLit mask pitch stop (Nat.land op 0x7FFF) rest pos buf
      do8shortOps mask pitch stop opcount r.2.1 r.2.2 r.1
    else if op = 0 then
      let cnt := bigShort (rest.headD 0)
      let fill := rest.tail.headD 0
      let r := do8shortFill mask pitch stop fill cnt pos buf
      do8shortOps mask pitch stop opcount rest.tail.tail r.2 r.1
    else
      do8shortOps mask pitch stop opcount rest (pos + op * pitch) buf

/-- `Do8short` for one column (called by `Delta8Short` with
`pixel = (uint16_t *)Planes[p] + x`, `stop = pixel + Height * pitch`,
`pitch = Pitch / 2`, all in 16-bit elements). -/
def do8short (mask pitch height x : Nat) (ops : List Nat) (buf : Buf) :
    Buf × List Nat :=
  do8shortOps mask pitch (x + height * pitch) (bigShort (ops.headD 0)) ops.tail x buf

/-! ### Delta8Long: 32-bit vertical delta (merged op and data list)

Byte-granular model: `Delta8Long` walks a `uint32_t *` cursor that is
advanced by `pitch` *bytes* (`(uint32_t *)((uint8_t *)pixel + pitch)`),
so its 4-byte accesses need not be aligned to the element size.  The op
stream is a byte list; `BigLong(*ops++)` reads 4 bytes big-endian, a raw
`*ops++` data load reads them little-endian (x86 host), and a store puts
the 4 little-endian bytes of the value at `pos .. pos + 3`. -/

/-- Big-endian read of the first four bytes of the op stream
(`BigLong` of the raw host load). -/
def bigLongAt (ops : List Nat) : Nat :=
  ops.headD 0 * 16777216 + ops.tail.headD 0 * 65536 +
    ops.tail.tail.headD 0 * 256 + ops.tail.tail.tail.headD 0

/-- Raw little-endian host read of the first four bytes of the op
stream (a data/fill longword, used without `BigLong`). -/
def rawLongAt (ops : List Nat) : Nat :=
  ops.headD 0 + ops.tail.headD 0 * 256 + ops.tail.tail.headD 0 * 65536 +
    ops.tail.tail.tail.headD 0 * 16777216

/-- Drop one `uint32_t` (four bytes) from the op stream. -/
def dropLong (ops : List Nat) : List Nat := ops.tail.tail.tail.tail

/-- Little-endian 32-bit load from the byte buffer. -/
def load32 (buf : Buf) (pos : Nat) : Nat :=
  buf pos + buf (pos + 1) * 256 + buf (pos + 2) * 65536 + buf (pos + 3) * 16777216

/-- Little-endian 32-bit store to the byte buffer: writes the four
bytes at `pos .. pos + 3`. -/
def store32 (buf : Buf) (pos v : Nat) : Buf :=
  bufWrite (bufWrite (bufWrite (bufWrite buf pos (v % 256))
    (pos + 1) (v / 256 % 256)) (pos + 2) (v / 65536 % 256))
    (pos + 3) (v / 16777216 % 256)

/-- A `Delta8Long` literal run (`op & 0x80000000`): the guard compares
only the *start* address of the 4-byte store against `stop`. -/
def delta8LongLit (mask pitch stop : Nat) :
    Nat → List Nat → Nat → Buf → Buf × List Nat × Nat
  | 0, ops, pos, buf => (buf, ops, pos)
  | cnt + 1, ops, pos, buf =>
    if pos < stop then
      delta8LongLit mask pitch stop cnt (dropLong ops) (pos + pitch)
        (store32 buf pos (deltaCombine mask (load32 buf pos) (rawLongAt ops)))
    else
      delta8LongLit mask pitch stop cnt (dropLong ops) pos buf

/-- A `Delta8Long` fill run (`op == 0`): `cnt = BigLong(*ops++)`,
`fill = *ops++` (raw), then `cnt` guarded 4-byte stores. -/
def delta8LongFill (mask pitch stop fill : Nat) : Nat → Nat → Buf → Buf × Nat
  | 0, pos, buf => (buf, pos)
  | cnt + 1, pos, buf =>
    if pos < stop then
      delta8LongFill mask pitch stop fill cnt (pos + pitch)
        (store32 buf pos (deltaCombine mask (load32 buf pos) fill))
    else
      delta8LongFill mask pitch stop fill cnt pos buf

/-- The `Delta8Long` op loop: `opcount = BigLong(*ops++)` iterations. -/
def delta8LongOps (mask pitch stop : Nat) :
    Nat → List Nat → Nat → Buf → Buf × List Nat
  | 0, ops, _, buf => (buf, ops)
  | opcount + 1, ops, pos, buf =>
    let op := bigLongAt ops
    let rest := dropLong ops
    if Nat.land op 0x80000000 ≠ 0 then
      let r := delta8LongLit mask pitch stop (Nat.land op 0x7FFFFFFF) rest pos buf
      delta8LongOps mask pitch stop opcount r.2.1 r.2.2 r.1
    else if op = 0 then
      let cnt := bigLongAt rest
      let fill := rawLongAt (dropLong rest)
      let r := delta8LongFill mask pitch stop fill cnt pos buf
      delta8LongOps mask pitch stop opcount (dropLong (dropLong rest)) r.2 r.1
    else
      delta8LongOps mask pitch stop opcount rest (pos + op * pitch) buf

/-- One `Delta8Long` column in long mode:
`pixel = (uint32_t *)Planes[p] + x` (byte offset `4 * x`),
`stop = (uint32_t *)((uint8_t *)pixel + Height * pitch)`,
`opcount = BigLong(*ops++)`, then the op loop. -/
def delta8LongCol (mask pitch height x : Nat) (ops : List Nat) (buf : Buf) :
    Buf × List Nat :=
  delta8LongOps mask pitch (4 * x + height * pitch) (bigLongAt ops) (dropLong ops)
    (4 * x) buf

/-! ## The frame write queue (gifwrite.cpp: GIFFrameQueue)

`γ` stands for the `GIFFrame` payload and `π` for the `PlanarBitmap`
source frames kept for the end-of-stream duplicate comparison
(`PlanarBitmap::operator==` is a deep content comparison; we only need
that it is a decidable equality).  The `written` field records, in
order, every frame written to the file by `Shift`. -/

/-- `enum { MAX_QUEUE_SIZE = 8 };` (iff2gif.h). -/
def MAX_QUEUE_SIZE : Nat := 8

/-- The state of a `GIFFrameQueue`. -/
structure GIFFrameQueue (γ π : Type) where
  Queue : List (γ × π)
  FirstFrames : List π
  FinalFramesToDrop : Nat
  TotalQueued : Nat
  written : List γ

/-- A fresh `GIFFrameQueue`. -/
def GIFFrameQueue.new {γ π : Type} : GIFFrameQueue γ π := ⟨[], [], 0, 0, []⟩

/-- `GIFFrameQueue::SetDropFrames`. -/
def GIFFrameQueue.SetDropFrames {γ π : Type} (st : GIFFrameQueue γ π) (count : Nat) :
    GIFFrameQueue γ π :=
  { st with FinalFramesToDrop := count }

/-- `GIFFrameQueue::Shift`: write out one frame and shift the others
left. -/
def GIFFrameQueue.Shift {γ π : Type} (st : GIFFrameQueue γ π) : GIFFrameQueue γ π :=
  match st.Queue with
  | [] => st
  | f :: rest => { st with Queue := rest, written := st.written ++ [f.1] }

/-- `Queue.push_back(std::make_pair(std::move(frame), *source_bitmap))`. -/
def GIFFrameQueue.pushPair {γ π : Type} (st : GIFFrameQueue γ π) (frame : γ)
    (src : π) : GIFFrameQueue γ π :=
  { st with Queue := st.Queue ++ [(frame, src)] }

/-- `if (FirstFrames.size() < MAX_QUEUE_SIZE) FirstFrames.push_back(*source_bitmap);`. -/
def GIFFrameQueue.retainFirst {γ π : Type} (st : GIFFrameQueue γ π) (src : π) :
    GIFFrameQueue γ π :=
  if st.FirstFrames.length < MAX_QUEUE_SIZE then
    { st with FirstFrames := st.FirstFrames ++ [src] }
  else st

/-- `TotalQueued++`. -/
def GIFFrameQueue.bumpTotal {γ π : Type} (st : GIFFrameQueue γ π) :
    GIFFrameQueue γ π :=
  { st with TotalQueued := st.TotalQueued + 1 }

/-- `GIFFrameQueue::Enqueue(frame, source_bitmap)`: if the queue is at
capacity, the oldest frame is written first (`Shift`); the new pair is
appended; the source bitmap is also retained in `FirstFrames` until
that holds `MAX_QUEUE_SIZE` entries. -/
def GIFFrameQueue.Enqueue {γ π : Type} (st : GIFFrameQueue γ π) (frame : γ)
    (src : π) : GIFFrameQueue γ π :=
  (((if MAX_QUEUE_SIZE ≤ st.Queue.length then st.Shift else st).pushPair
      frame src).retainFirst src).bumpTotal

/-- `GIFFrameQueue::Flush`: when `FinalFramesToDrop` is non-zero, the
last `FinalFramesToDrop` queued source frames are compared against the
first retained frames, and on any mismatch the drop count is zeroed;
then every frame except the last `FinalFramesToDrop` is written and the
queue is cleared. -/
def GIFFrameQueue.Flush {γ π : Type} [DecidableEq π] [Inhabited γ] [Inhabited π]
    (st : GIFFrameQueue γ π) : GIFFrameQueue γ π :=
  if st.Queue.length = 0 then st
  else
    let drop := if st.FinalFramesToDrop ≠ 0 ∧
        (List.range st.FinalFramesToDrop).any (fun i =>
          decide (st.FirstFrames.getD i default ≠
            (st.Queue.getD (st.Queue.length - st.FinalFramesToDrop + i) default).2))
      then 0 else st.FinalFramesToDrop
    { st with
      Queue := [],
      FinalFramesToDrop := drop,
      written := st.written ++
        (st.Queue.take (st.Queue.length - drop)).map Prod.fst }

/-- Enqueue a whole stream of frames in order (as `GIFWriter::MakeFrame`
does once per accepted source frame). -/
def enqueueAll {γ π : Type} (st : GIFFrameQueue γ π) (frames : List (γ × π)) :
    GIFFrameQueue γ π :=
  frames.foldl (fun st fp => st.Enqueue fp.1 fp.2) st

/-- A whole run of the queue: enqueue `frames`, set the configured drop
count (from the source interleave, as `MakeFrame` does), and flush at
end of stream. -/
def runQueue {γ π : Type} [DecidableEq π] [Inhabited γ] [Inhabited π]
    (frames : List (γ × π)) (drop : Nat) : GIFFrameQueue γ π :=
  ((enqueueAll GIFFrameQueue.new frames).SetDropFrames drop).Flush

/-! ## Delay back-filling and finalization
(gifwrite.cpp: GIFWriter::AddFrame / MakeFrame / FinishFile)

Only the delay bookkeeping of the writer is relevant here: each
`GIFFrame`'s pixel payload is irrelevant to where the first frame's
delay ends up, so a queued frame is represented by its
`GCE.DelayTime`. -/

/-- The delay field of a queued GIF frame (`GCE.DelayTime`; the
`GIFFrame()` constructor zeroes it). -/
structure GIFFrame where
  DelayTime : Nat
deriving DecidableEq, Repr

instance : Inhabited GIFFrame := ⟨⟨0⟩⟩

/-- `GIFFrameQueue::MostRecent()`: the newest queued frame, if any. -/
def GIFFrameQueue.MostRecent {γ π : Type} (st : GIFFrameQueue γ π) : Option γ :=
  (st.Queue.getLast?).map Prod.fst

/-- Mutation of the newest queued frame through the pointer
`MostRecent()` returns (`&Queue.back().first`). -/
def GIFFrameQueue.updateLast {γ π : Type} (st : GIFFrameQueue γ π) (f : γ → γ) :
    GIFFrameQueue γ π :=
  match st.Queue.getLast? with
  | none => st
  | some last => { st with Queue := st.Queue.dropLast ++ [(f last.1, last.2)] }

/-- The writer state threaded through delay conversion: the frame queue
plus the accumulators and the remembered first-frame delay. -/
structure WriterSt (π : Type) where
  queue : GIFFrameQueue GIFFrame π
  TotalTicks : Nat
  GIFTime : Nat
  FrameRate : Nat
  FirstDelay : Nat
  FrameCount : Nat

/-- A fresh writer at the given frame rate. -/
def WriterSt.new {π : Type} (rate : Nat) : WriterSt π :=
  ⟨GIFFrameQueue.new, 0, 0, rate, 0, 0⟩

/-- `AddDelay(oldframe, delay)` applied to the writer state: updates the
accumulators and stores the converted delay on the most recently queued
frame (the `oldframe` pointer obtained from `MostRecent()`). -/
def WriterSt.addDelayToLast {π : Type} (w : WriterSt π) (delay : Nat) : WriterSt π :=
  match w.queue.MostRecent with
  | none => w
  | some fr =>
    let r := AddDelay ⟨w.TotalTicks, w.GIFTime, w.FrameRate⟩ fr.DelayTime delay
    { w with
      TotalTicks := r.1.TotalTicks,
      GIFTime := r.1.GIFTime,
      queue := w.queue.updateLast (fun _ => ⟨r.2⟩) }

/-- The delay bookkeeping of one `AddFrame`/`MakeFrame` step for an
accepted source frame with ANIM delay `delay` and source bitmap `src`:
remember the first frame's delay, configure the drop count from the
source interleave, back-fill the preceding frame's delay, and enqueue
the new frame (whose own `DelayTime` starts at 0). -/
def WriterSt.addFrame {π : Type} (w : WriterSt π) (delay : Nat) (src : π)
    (drop : Nat) : WriterSt π :=
  let w := if w.FrameCount = 0 then { w with FirstDelay := delay } else w
  let w := { w with FrameCount := w.FrameCount + 1 }
  let w := { w with queue := w.queue.SetDropFrames drop }
  let w := w.addDelayToLast delay
  { w with queue := w.queue.Enqueue ⟨0⟩ src }

/-- `GIFWriter::FinishFile` (delay part): reapply the first frame's
delay to the most recently queued frame, then flush the queue. -/
def WriterSt.FinishFile {π : Type} [DecidableEq π] [Inhabited π]
    (w : WriterSt π) : WriterSt π :=
  let w := w.addDelayToLast w.FirstDelay
  { w with queue := w.queue.Flush }

/-- Run the writer's delay bookkeeping over a whole animation: one
`(delay, source)` pair per accepted frame, a fixed interleave-derived
drop count, and a fixed frame rate; finish the file at end of input. -/
def runWriterDelays {π : Type} [DecidableEq π] [Inhabited π]
    (frames : List (Nat × π)) (drop rate : Nat) : WriterSt π :=
  (frames.foldl (fun w fs => w.addFrame fs.1 fs.2 drop) (WriterSt.new rate)).FinishFile

/-! ## ILBM / ANIM chunk processing and its error handling
(iffread.cpp: LoadILBM, ApplyDelta, LoadANIM)

Only the control flow and validation of `LoadILBM` are modelled here:
the pixel payloads of BODY and DLTA chunks are verified separately (the
delta run interpreters above), so a bitmap is represented by its plane
count, the interleave/delay fields `ApplyDelta` sets, and the trace of
unpack/delta operations applied to it.  A `.error` result models
`LoadILBM` printing a diagnostic and returning `NULL` immediately; an
`.ok` result carrying no bitmap models it reaching the end of the FORM
with no frame.  Either `NULL` return ends only the inner `while` of
`LoadANIM`: the driver's outer loop continues with the next chunk of
the ANIM FORM, so later ILBM FORMs of the same file are still loaded.

`LoadILBM` mutates the caller's frames through pointers: a DLTA is
applied in place to the preferred history bitmap (`planes =
history[anheader.interleave & 1]`), so that slot's contents change with
it — also when `ApplyDelta` then fails on an unknown operation, whose
interleave/delay stores have already happened.  The model makes this
explicit by tagging the bitmap under construction with the index of the
history slot it aliases, if any, and writing every mutation through to
that slot.  Deallocation (`delete planes`) changes no value the model
carries and is not represented. -/

/-- The fields of `BitmapHeader` that drive validation. -/
structure BitmapHeaderM where
  nPlanes : Nat
  compression : Nat
deriving DecidableEq, Repr

/-- The fields of `AnimHeader` that drive `ApplyDelta`. -/
structure AnimHeaderM where
  operation : Nat
  interleave : Nat
  bits : Nat
  reltime : Nat
deriving DecidableEq, Repr

/-- A `PlanarBitmap`, abstracted to the fields the loader's control
flow reads and a trace of the operations applied to its plane data:
`(0, 0)` for a BODY unpack, `(op, bits &&& ANIM_LONG_DATA)` for a
delta. -/
structure PBitmap where
  nPlanes : Nat
  Interleave : Nat
  Delay : Nat
  trace : List (Nat × Nat)
deriving DecidableEq, Repr

/-- A chunk of an ILBM FORM, reduced to the kinds `LoadILBM` reacts
to; `other` stands for every ignored chunk id. -/
inductive Chunk where
  | bmhd (nPlanes compression : Nat)
  | anhd (operation interleave bits reltime : Nat)
  | body
  | dlta
  | other
deriving DecidableEq, Repr

/-- Read `history[i]` (the index is `anheader.interleave & 1`); a
`NULL` history array holds no frames.  `history[0]` is the first
component of the pair, a `none` slot a `NULL` pointer. -/
def histGet (hist : Option (Option PBitmap × Option PBitmap)) (i : Nat) :
    Option PBitmap :=
  match hist with
  | none => none
  | some h => if i = 1 then h.2 else h.1

/-- Store through `history[i]` (a mutation of the bitmap a slot points
to; the slot is occupied whenever the loader writes through it). -/
def histSet (hist : Option (Option PBitmap × Option PBitmap)) (i : Nat)
    (pb : PBitmap) : Option (Option PBitmap × Option PBitmap) :=
  match hist with
  | none => none
  | some h => some (if i = 1 then (h.1, some pb) else (some pb, h.2))

/-- The loop state of `LoadILBM`: the bitmap under construction paired
with the index of the history slot the `planes` pointer aliases (`none`
for a freshly allocated bitmap), the parsed `BitmapHeader` and
`AnimHeader` (absent until their chunks are seen; `anhdread` is
`anheader.isSome`), and the caller's two-slot history (`none` when
`LoadILBM` is called with `history == NULL`). -/
structure ILBMState where
  planes : Option (PBitmap × Option Nat)
  header : Option BitmapHeaderM
  anheader : Option AnimHeaderM
  history : Option (Option PBitmap × Option PBitmap)
deriving DecidableEq, Repr

/-- Mutate the bitmap `planes` points to: when the pointer aliases a
history slot, the slot's contents change with it. -/
def ILBMState.putPlanes (st : ILBMState) (pb : PBitmap) (tag : Option Nat) :
    ILBMState :=
  match tag with
  | none => { st with planes := some (pb, none) }
  | some i =>
    { st with planes := some (pb, some i), history := histSet st.history i pb }

/-- The stores `ApplyDelta` performs before dispatching on the
operation: the interleave and delay are set from the animation header
even when the operation then turns out to be unhandled. -/
def deltaHeaderFields (bitmap : PBitmap) (head : AnimHeaderM) : PBitmap :=
  { bitmap with
    Interleave := 2 - Nat.land head.interleave 1,
    Delay := head.reltime }

/-- `ApplyDelta` (iffread.cpp): set the interleave and delay from the
animation header, then dispatch on the operation; operations other than
5, 7 and 8 are unhandled and yield `NULL` (the header stores above have
already happened on the bitmap passed in). -/
def ApplyDelta (bitmap : PBitmap) (head : AnimHeaderM) : Option PBitmap :=
  let bitmap := deltaHeaderFields bitmap head
  match head.operation with
  | 5 => some { bitmap with trace := bitmap.trace ++ [(5, Nat.land head.bits 1)] }
  | 7 => some { bitmap with trace := bitmap.trace ++ [(7, Nat.land head.bits 1)] }
  | 8 => some { bitmap with trace := bitmap.trace ++ [(8, Nat.land head.bits 1)] }
  | _ => none

/-- The DLTA case's base-frame selection: prefer the history slot
addressed by the interleave parity — the delta is then applied in place
to that slot, so the result carries its index — else the bitmap from a
BMHD in this same FORM (the fresh bitmap is deleted first when a
history frame is preferred). -/
def dltaSelect (st : ILBMState) (ah : AnimHeaderM) :
    Option (PBitmap × Option Nat) :=
  match histGet st.history (Nat.land ah.interleave 1) with
  | some hb => some (hb, some (Nat.land ah.interleave 1))
  | none => st.planes

/-- The chunk loop of `LoadILBM` over the chunks of one ILBM FORM,
yielding the final state — whose history carries the in-place delta
mutations, which persist in the caller even on an error return — and
the outcome: a diagnostic, or the `planes` pointer at the end of the
FORM.  A BODY with `planes` aliased from a DLTA but no BMHD seen reads
an uninitialized `header.compression` in the source; the model folds
that case into the `planes == NULL` rejection. -/
def loadChunks : ILBMState → List Chunk →
    ILBMState × Except String (Option (PBitmap × Option Nat))
  | st, [] => (st, .ok st.planes)
  | st, c :: rest =>
    match c with
    | .bmhd np compression =>
      if np = 0 ∨ (8 < np ∧ np ≠ 24 ∧ np ≠ 32) then
        (st, .error "Invalid number of bitplanes")
      else
        loadChunks { st with
          planes := some (⟨np, 0, 0, []⟩, none),
          header := some ⟨np, compression⟩ } rest
    | .anhd op interleave bits reltime =>
      if 2 < interleave then
        (st, .error "Frame interleave is more than 2")
      else
        loadChunks { st with anheader := some ⟨op, interleave, bits, reltime⟩ } rest
    | .body =>
      match st.planes, st.header with
      | none, _ => (st, .error "BODY encountered before BMHD")
      | some _, none => (st, .error "BODY encountered before BMHD")
      | some (pb, tag), some h =>
        if 1 < h.compression then
          (st, .error "Unknown ILBM compression method")
        else
          loadChunks (st.putPlanes { pb with trace := pb.trace ++ [(0, 0)] } tag) rest
    | .dlta =>
      match st.anheader with
      | none => (st, .error "Delta chunk encountered before header")
      | some ah =>
        match dltaSelect st ah with
        | none => (st, .error "Delta chunk encountered without any history")
        | some (pb, tag) =>
          match ApplyDelta pb ah with
          | some pb2 => loadChunks (st.putPlanes pb2 tag) rest
          | none =>
            loadChunks
              { st.putPlanes (deltaHeaderFields pb ah) tag with planes := none } rest
    | .other => loadChunks st rest

/-- The state `LoadILBM` starts from for the first ILBM of an ANIM
(empty double-buffer history). -/
def initILBMState : ILBMState := ⟨none, none, none, some (none, none)⟩

/-- `LoadANIM`'s history upkeep after a frame was emitted: the first
frame is duplicated into both slots for double buffering; afterwards
the slots are swapped when the frame's interleave is not 1.  (A delta
frame already sits in its history slot — the chunk loop wrote it
through the aliasing pointer — while a fresh full frame is not entered
into the history; the palette sync on the other buffer touches only the
palette, which the bitmap model does not carry.) -/
def histUpdate (hist : Option PBitmap × Option PBitmap) (planar : PBitmap) :
    Option PBitmap × Option PBitmap :=
  match hist.1 with
  | none => (some planar, some planar)
  | some _ => if planar.Interleave ≠ 1 then (hist.2, hist.1) else hist

/-- `LoadANIM` (iffread.cpp): the outer loop over the chunks of the
ANIM FORM, given as the chunk lists of its ILBM FORMs (non-ILBM chunks
are skipped by the source and left out of the model).  Each FORM is
loaded by the chunk loop with the current history; the history
mutations persist either way, and a `NULL` return — a diagnostic or a
frame-less FORM — ends only that FORM: the driver continues with the
next one.  (The inner `while` re-invokes `LoadILBM` on the
then-exhausted FORM, which returns `NULL` at once, so each FORM
contributes at most one frame.)  Emitted frames are collected in order;
`AddFrame`'s pixel conversion is outside the model.  The chunk loop
never clears the history field, so the `getD` fallback is for totality
only. -/
def LoadANIM : (Option PBitmap × Option PBitmap) → List (List Chunk) →
    List PBitmap
  | _, [] => []
  | hist, f :: rest =>
    match loadChunks ⟨none, none, none, some hist⟩ f with
    | (st, .error _) => LoadANIM (st.history.getD hist) rest
    | (st, .ok none) => LoadANIM (st.history.getD hist) rest
    | (st, .ok (some (planar, _))) =>
      planar :: LoadANIM (histUpdate (st.history.getD hist) planar) rest

/-! ## Minimum changed area (gifwrite.cpp: MinArea, GIFWriter::MinimumArea)

`MinArea<T>` is a template over the pixel type (`uint8_t` or
`uint32_t`, chosen by `MinimumArea` from `BytesPerPixel`); pixel values
are modelled as `Nat`, covering both instantiations.  The buffers are
lists in row-major order. -/

/-- A GIF image descriptor (the fields `MinArea` reads and writes). -/
structure ImageDescriptor where
  Left : Nat
  Top : Nat
  Width : Nat
  Height : Nat
deriving DecidableEq, Repr

/-- `prev[i] != cur[i]`. -/
def pixDiff (prev cur : List Nat) (i : Nat) : Bool :=
  decide (prev.getD i 0 ≠ cur.getD i 0)

/-- The forward scan for the first changed pixel: try indices
`s, s + 1, ...` (`n` of them); `none` means nothing changed. -/
def scanF (prev cur : List Nat) : Nat → Nat → Option Nat
  | _, 0 => none
  | s, n + 1 => if pixDiff prev cur s then some s else scanF prev cur (s + 1) n

/-- The backward scan for the last changed pixel
(`while (--end > start) if (prev[end] != cur[end]) break;`): walk `e`
down towards `floor` (= the first changed index), stopping at the first
changed pixel. -/
def scanB (prev cur : List Nat) (floor : Nat) : Nat → Nat
  | 0 => 0
  | e + 1 =>
    if e + 1 ≤ floor then e + 1
    else if pixDiff prev cur (e + 1) then e + 1
    else scanB prev cur floor e

/-- Does column `x` change in any of the `n` rows starting at `y`
(the inner loops of the left/right edge scans)? -/
def colDiff (prev cur : List Nat) (w x : Nat) : Nat → Nat → Bool
  | _, 0 => false
  | y, n + 1 => pixDiff prev cur (y * w + x) || colDiff prev cur w x (y + 1) n

/-- The left-edge scan: try columns `x, x + 1, ...` (`n` of them,
`0 .. Width - 2` in the code); on fallthrough the loop variable has
reached `Width - 1`. -/
def findLeft (prev cur : List Nat) (w top rows : Nat) : Nat → Nat → Nat
  | x, 0 => x
  | x, n + 1 =>
    if colDiff prev cur w x top rows then x
    else findLeft prev cur w top rows (x + 1) n

/-- The right-edge scan: try columns `x, x - 1, ..., 1`; on fallthrough
the loop variable has reached 0. -/
def findRight (prev cur : List Nat) (w top rows : Nat) : Nat → Nat
  | 0 => 0
  | x + 1 =>
    if colDiff prev cur w (x + 1) top rows then x + 1
    else findRight prev cur w top rows x

/-- `MinArea<T>` (gifwrite.cpp): find the bounding rows of the changed
region by the two-ended linear scan, then the bounding columns by
scanning columns from both edges over those rows; when nothing changed,
report a 1x1 rectangle (leaving `Left`/`Top` as they were). -/
def MinArea (prev cur : List Nat) (imd : ImageDescriptor) : ImageDescriptor :=
  match scanF prev cur 0 (imd.Width * imd.Height) with
  | none => { imd with Width := 1, Height := 1 }
  | some start =>
    let e := scanB prev cur start (imd.Width * imd.Height - 1)
    let top := start / imd.Width
    let bot := e / imd.Width
    let rows := bot + 1 - top
    let left := findLeft prev cur imd.Width top rows 0 (imd.Width - 1)
    let right := findRight prev cur imd.Width top rows (imd.Width - 1)
    { Left := left, Top := top, Width := right - left + 1, Height := bot - top + 1 }

/-- Modelled from the spec: a changed position of the frame pair — an
in-range index whose pixels differ (the claim's "positions where prev
and cur differ"). -/
def ChangedAt (prev cur : List Nat) (w h i : Nat) : Prop :=
  i < w * h ∧ prev.getD i 0 ≠ cur.getD i 0

instance (prev cur : List Nat) (w h i : Nat) :
    Decidable (ChangedAt prev cur w h i) := by
  unfold ChangedAt
  infer_instance

/-! ## The GIF LZW compressor (gifwrite.cpp: CodeStream, LZWCompress)

The compressor state is translated field by field from the `CodeStream`
class; `Codes` is the output byte vector (the caller pushes the minimum
code size byte before constructing the stream), `Chunk` holds the bytes
of the pending 255-byte sub-block (the C array's leading length byte is
`Chunk.length` here), and the dictionary is the association list of
`(key, code)` pairs, newest first, with the same 25-bit key encoding
`Match | (p << 16) | (1 << 24)` as the source.  `Accum`/`BitPos` never
exceed 19 bits, so plain `Nat` is exact for the `uint32_t` Accum.  The
`while (BitPos > stop)` loop of `DumpAccum` runs at most `BitPos`
times, so it is given `BitPos` as structural fuel. -/

/-- `#define CODE_LIMIT (1 << 12)`. -/
def CODE_LIMIT : Nat := 4096

/-- The `CodeStream` compressor state. -/
structure CodeStream where
  Codes : List Nat
  Accum : Nat
  ClearCode : Nat
  EOICode : Nat
  NextCode : Nat
  Match : Int
  CodeSize : Nat
  MinCodeSize : Nat
  BitPos : Nat
  Chunk : List Nat
  Dict : List (Nat × Nat)
deriving Repr

/-- `CodeStream::Dump`: move the pending sub-block (preceded by its
length byte) into the output. -/
def CodeStream.Dump (s : CodeStream) : CodeStream :=
  if 0 < s.Chunk.length then
    { s with Codes := s.Codes ++ s.Chunk.length :: s.Chunk, Chunk := [] }
  else s

/-- One iteration batch of `CodeStream::DumpAccum`'s
`while (BitPos > stop)` loop, with fuel bounding the iteration count. -/
def dumpAccumGo (stop : Nat) : Nat → CodeStream → CodeStream
  | 0, s => s
  | fuel + 1, s =>
    if stop < s.BitPos then
      let s := { s with
        Chunk := s.Chunk ++ [s.Accum % 256],
        Accum := s.Accum / 256,
        BitPos := s.BitPos - 8 }
      let s := if s.Chunk.length = 255 then s.Dump else s
      dumpAccumGo stop fuel s
    else s

/-- `CodeStream::DumpAccum`: flush complete bytes (`full = false`,
`stop = 7`) or every accumulated bit (`full = true`, `stop = 0`) from
the accumulator into the pending sub-block. -/
def CodeStream.DumpAccum (s : CodeStream) (full : Bool) : CodeStream :=
  dumpAccumGo (if full then 0 else 7) s.BitPos s

/-- `CodeStream::ResetDict`: reset the code width and next assignable
code, cancel the match in progress, and re-seed the dictionary with the
raw pixel values. -/
def CodeStream.ResetDict (s : CodeStream) : CodeStream :=
  { s with
    CodeSize := s.MinCodeSize + 1,
    NextCode := s.EOICode + 1,
    Match := -1,
    Dict := (List.range (1 <<< s.MinCodeSize)).map (fun i => (i, i)) }

/-- `CodeStream::WriteCode`: pack `code` into the accumulator at the
current bit position and width, flush complete bytes, and reset the
dictionary after a clear code. -/
def CodeStream.WriteCode (s : CodeStream) (code : Nat) : CodeStream :=
  let s := { s with
    Accum := s.Accum ||| (code <<< s.BitPos),
    BitPos := s.BitPos + s.CodeSize }
  let s := s.DumpAccum false
  if code = s.ClearCode then s.ResetDict else s

/-- The 25-bit dictionary key for the code string `Match .. p`:
`Match | (p << 16) | (1 << 24)`. -/
def strKey (m p : Nat) : Nat := m ||| (p <<< 16) ||| (1 <<< 24)

/-- `CodeStream::AddByte`: extend the matched string by `p` if the
extension is in the dictionary; otherwise emit the matched code, insert
the extension, handle the 4096-code ceiling or a code-width growth
boundary, and restart matching from `p`. -/
def CodeStream.AddByte (s : CodeStream) (p : Nat) : CodeStream :=
  if s.Match < 0 then { s with Match := (p : Int) }
  else
    let str := strKey s.Match.toNat p
    match s.Dict.lookup str with
    | some code => { s with Match := (code : Int) }
    | none =>
      let s := s.WriteCode s.Match.toNat
      let s := { s with Dict := (str, s.NextCode) :: s.Dict,
                        NextCode := s.NextCode + 1 }
      let s :=
        if s.NextCode = CODE_LIMIT then s.WriteCode s.ClearCode
        else if s.NextCode = (1 <<< s.CodeSize) + 1 then
          { s with CodeSize := s.CodeSize + 1 }
        else s
      { s with Match := (p : Int) }

/-- The `CodeStream` constructor: initialize the fixed codes and bit
state, then write the initial clear code (which seeds the dictionary
via `ResetDict`). -/
def CodeStream.init (mincodesize : Nat) : CodeStream :=
  let s : CodeStream := {
    Codes := [], Accum := 0,
    ClearCode := 1 <<< mincodesize,
    EOICode := (1 <<< mincodesize) + 1,
    NextCode := 0, Match := 0,
    CodeSize := mincodesize + 1, MinCodeSize := mincodesize,
    BitPos := 0, Chunk := [], Dict := [] }
  s.WriteCode s.ClearCode

/-- The `CodeStream` destructor: flush the pending match, write the
end-of-information code, flush every remaining bit and the last
sub-block, and append the zero-length terminator block. -/
def CodeStream.finish (s : CodeStream) : CodeStream :=
  let s := if 0 ≤ s.Match then s.WriteCode s.Match.toNat else s
  let s := s.WriteCode s.EOICode
  let s := s.DumpAccum true
  let s := s.Dump
  { s with Codes := s.Codes ++ [0] }

/-- The byte-level core of `LZWCompress`: clamp the minimum code size
at 2, emit it, and run every input byte through `CodeStream::AddByte`
before finishing the stream. -/
def lzwCompress (mincodesize : Nat) (bytes : List Nat) : List Nat :=
  let mcs := if mincodesize < 2 then 2 else mincodesize
  mcs :: ((bytes.foldl CodeStream.AddByte (CodeStream.init mcs)).finish).Codes

/-- The rectangle traversal of `LZWCompress` without transparent
substitution: the bytes of `chunky` inside the image descriptor's
rectangle, row-major (`in = Pixels + Left + Top * Pitch`, stepping by
`Pitch` per row). -/
def rectBytes (cur : List Nat) (imd : ImageDescriptor) (pitch : Nat) : List Nat :=
  (List.range imd.Height).flatMap fun y =>
    (List.range imd.Width).map fun x =>
      cur.getD (imd.Left + imd.Top * pitch + y * pitch + x) 0

/-- The rectangle traversal of `LZWCompress` with transparent
substitution: unchanged pixels are replaced by the substitute color. -/
def rectBytesSubst (prev cur : List Nat) (imd : ImageDescriptor)
    (pitchPrev pitchCur transcolor : Nat) : List Nat :=
  (List.range imd.Height).flatMap fun y =>
    (List.range imd.Width).map fun x =>
      if prev.getD (imd.Left + imd.Top * pitchPrev + y * pitchPrev + x) 0 ≠
          cur.getD (imd.Left + imd.Top * pitchCur + y * pitchCur + x) 0 then
        cur.getD (imd.Left + imd.Top * pitchCur + y * pitchCur + x) 0
      else transcolor

/-- `LZWCompress` (gifwrite.cpp): compress the rectangle's pixels,
substituting unchanged pixels with the transparent color when one was
selected (`trans >= 0`). -/
def LZWCompress (prev cur : List Nat) (imd : ImageDescriptor)
    (pitchPrev pitchCur mincodesize : Nat) (trans : Option Nat) : List Nat :=
  match trans with
  | none => lzwCompress mincodesize (rectBytes cur imd pitchCur)
  | some tc =>
    lzwCompress mincodesize (rectBytesSubst prev cur imd pitchPrev pitchCur tc)

/-- The used-color test of `SelectTransparentColor`: color `c` has its
bit set in the `used` bitmap when some pixel of the rectangle differs
from the preceding frame and holds `c` in the current frame. -/
def usedColor (prev cur : List Nat) (imd : ImageDescriptor)
    (pitchPrev pitchCur c : Nat) : Bool :=
  (List.range imd.Height).any fun y =>
    (List.range imd.Width).any fun x =>
      decide (prev.getD (imd.Left + imd.Top * pitchPrev + y * pitchPrev + x) 0 ≠
        cur.getD (imd.Left + imd.Top * pitchCur + y * pitchCur + x) 0) &&
      decide (cur.getD (imd.Left + imd.Top * pitchCur + y * pitchCur + x) 0 = c)

/-- `GIFWriter::SelectTransparentColor`: mark every color a changed
pixel takes in the rectangle, then return the first unmarked color if
it lies inside the global palette, and `none` (`-1`) otherwise.  The
source's byte-then-bit scan of the 256-bit `used` array (first byte
below 255, then its first clear bit, giving color `(i << 3) + j`)
returns the least unmarked index, written here as a linear search. -/
def SelectTransparentColor (prev cur : List Nat) (imd : ImageDescriptor)
    (pitchPrev pitchCur palSize : Nat) : Option Nat :=
  match (List.range 256).find?
      (fun c => !usedColor prev cur imd pitchPrev pitchCur c) with
  | none => none
  | some c => if c < palSize then some c else none

/-- The frame data produced by the compression portion of `MakeFrame`:
the kept LZW encoding, the GCE flags, and the GCE transparent color. -/
structure FrameLZWResult where
  LZW : List Nat
  Flags : Nat
  TransparentColor : Nat
deriving DecidableEq, Repr

/-- The transparent-color selection of `MakeFrame` (the `trans` /
`temptrans` block): returns the `trans` argument later passed to
`LZWCompress` (`none` for `-1`), the updated GCE flags and transparent
color, and the `temptrans` marker. -/
def makeFrameTransSelect (queueTotal : Nat) (prevEmpty palchanged : Bool)
    (gceFlags gceTransColor : Nat) (prev cur : List Nat) (imd : ImageDescriptor)
    (pitchPrev pitchCur palSize : Nat) : Option Nat × Nat × Nat × Bool :=
  if queueTotal = 0 ∨ prevEmpty = true ∨ palchanged = true ∨
      Nat.land gceFlags 0x1C0 = 0x80 then
    (none, gceFlags, gceTransColor, false)
  else if Nat.land gceFlags 1 ≠ 0 then
    (some gceTransColor, gceFlags, gceTransColor, false)
  else
    match SelectTransparentColor prev cur imd pitchPrev pitchCur palSize with
    | some t => (some t, Nat.lor gceFlags 1, t, true)
    | none => (none, gceFlags, gceTransColor, false)

/-- The compression portion of `MakeFrame`: compress the rectangle with
the selected substitution; when a substitution was used, compress a
second time without it and keep the second encoding when it is no
larger, undoing a temporary transparent color (`Flags &= 0xFE`,
`TransparentColor = 0`). -/
def makeFrameLZW (queueTotal : Nat) (prevEmpty palchanged : Bool)
    (gceFlags gceTransColor : Nat) (prev cur : List Nat) (imd : ImageDescriptor)
    (pitchPrev pitchCur palSize mincodesize : Nat) : FrameLZWResult :=
  match makeFrameTransSelect queueTotal prevEmpty palchanged gceFlags
      gceTransColor prev cur imd pitchPrev pitchCur palSize with
  | (tr, flags, tcolor, temptrans) =>
    let lzw1 := LZWCompress prev cur imd pitchPrev pitchCur mincodesize tr
    match tr with
    | none => ⟨lzw1, flags, tcolor⟩
    | some _ =>
      let try2 := LZWCompress prev cur imd pitchPrev pitchCur mincodesize none
      if try2.length ≤ lzw1.length then
        if temptrans then ⟨try2, Nat.land flags 0xFE, 0⟩
        else ⟨try2, flags, tcolor⟩
      else ⟨lzw1, flags, tcolor⟩

/-! ## A conformant GIF-LZW reference decompressor

Modelled from the spec (the GIF89a LZW scheme), not from this repository's
code: the data sub-blocks are concatenated up to the zero-length
terminator; codes are read least-significant-bit first, starting at
`mincodesize + 1` bits; a clear code resets the string table and code
size; the end-of-information code stops decoding; a received code at the
next free table slot is the deferred-string (KwKwK) case; the code size
grows when the next free slot reaches the current width's capacity, up
to 12 bits.  Reading past the end of the stream zero-extends, which is
how a conformant decoder consumes the zero padding of the final partial
byte.  Loop fuel bounds the number of sub-blocks / codes processed. -/

def deframeGo : Nat → List Nat → List Nat
  | 0, _ => []
  | _, [] => []
  | fuel + 1, n :: rest =>
    if n = 0 then [] else rest.take n ++ deframeGo fuel (rest.drop n)

def deframe (l : List Nat) : List Nat := deframeGo l.length l

def natBitsLE : Nat → Nat → List Bool
  | 0, _ => []
  | n + 1, v => decide (v % 2 = 1) :: natBitsLE n (v / 2)

def bytesBits (l : List Nat) : List Bool := l.flatMap (natBitsLE 8)

def readBits : Nat → List Bool → Nat × List Bool
  | 0, bits => (0, bits)
  | n + 1, bits =>
    let r := readBits n bits.tail
    ((if bits.headD false then 1 else 0) + 2 * r.1, r.2)

def codeStr (mcs : Nat) (table : List (List Nat)) (c : Nat) : Option (List Nat) :=
  if c < 2 ^ mcs then some [c]
  else table.get? (c - (2 ^ mcs + 2))

def lzwDecodeGo (mcs : Nat) :
    Nat → List Bool → Nat → Nat → Option (List Nat) → List (List Nat) →
    List Nat → Option (List Nat)
  | 0, _, _, _, _, _, _ => none
  | fuel + 1, bits, codesize, next, prev, table, acc =>
    let r := readBits codesize bits
    if r.1 = 2 ^ mcs then
      lzwDecodeGo mcs fuel r.2 (mcs + 1) (2 ^ mcs + 2) none [] acc
    else if r.1 = 2 ^ mcs + 1 then
      some acc
    else if r.1 < 2 ^ mcs then
      match prev with
      | none =>
        lzwDecodeGo mcs fuel r.2 codesize next (some [r.1]) table (acc ++ [r.1])
      | some pstr =>
        lzwDecodeGo mcs fuel r.2
          (if next + 1 = 2 ^ codesize ∧ codesize < 12 then codesize + 1
            else codesize)
          (next + 1) (some [r.1]) (table ++ [pstr ++ [r.1]]) (acc ++ [r.1])
    else
      match prev with
      | none => none
      | some pstr =>
        if r.1 < next then
          match codeStr mcs table r.1 with
          | none => none
          | some s =>
            lzwDecodeGo mcs fuel r.2
              (if next + 1 = 2 ^ codesize ∧ codesize < 12 then codesize + 1
                else codesize)
              (next + 1) (some s) (table ++ [pstr ++ [s.headD 0]]) (acc ++ s)
        else if r.1 = next then
          lzwDecodeGo mcs fuel r.2
            (if next + 1 = 2 ^ codesize ∧ codesize < 12 then codesize + 1
              else codesize)
            (next + 1) (some (pstr ++ [pstr.headD 0]))
            (table ++ [pstr ++ [pstr.headD 0]])
            (acc ++ (pstr ++ [pstr.headD 0]))
        else none

def lzwDecode (mcs : Nat) (bytes : List Nat) : Option (List Nat) :=
  let bits := bytesBits (deframe bytes)
  lzwDecodeGo mcs (bits.length + 1) bits (mcs + 1) (2 ^ mcs + 2) none [] []

def blockJoin (blocks : List (List Nat)) : List Nat :=
  blocks.flatMap (fun b => b.length :: b)

def EmitInv (s : CodeStream) (bits : List Bool) : Prop :=
  s.Accum < 2 ^ s.BitPos ∧
  ∃ blocks : List (List Nat), (∀ b ∈ blocks, b ≠ []) ∧
    s.Codes = blockJoin blocks ∧
    bits = bytesBits (blocks.flatten ++ s.Chunk) ++ natBitsLE s.BitPos s.Accum

def pendStr (prev : Option (List Nat)) (mstr : List Nat) : Option (List Nat) :=
  prev.map (fun q => q ++ [mstr.headD 0])

def strOfE (mcs : Nat) (table : List (List Nat)) (pend : Option (List Nat))
    (c : Nat) : Option (List Nat) :=
  if c < 2 ^ mcs then some [c]
  else if c < 2 ^ mcs + 2 then none
  else if c = 2 ^ mcs + 2 + table.length then pend
  else table.get? (c - (2 ^ mcs + 2))

structure Sim (mcs : Nat) (s : CodeStream) (cs next : Nat)
    (prev : Option (List Nat)) (table : List (List Nat)) (mstr : List Nat) :
    Prop where
  hclear : s.ClearCode = 2 ^ mcs
  heoi : s.EOICode = 2 ^ mcs + 1
  hmincs : s.MinCodeSize = mcs
  hcs : s.CodeSize = cs
  hcslo : mcs + 1 ≤ cs
  hlag : s.NextCode = next + (if prev.isSome then 1 else 0)
  hbase : next = 2 ^ mcs + 2 + table.length
  hmax : s.NextCode < 4096
  hfit : s.NextCode ≤ 2 ^ cs
  hfresh : prev = none → table = []
  hpne : ∀ q, prev = some q → q ≠ []
  htne : ∀ t ∈ table, t ≠ []
  hmatch : (s.Match = -1 ∧ mstr = [] ∧ prev = none) ∨
    (0 ≤ s.Match ∧
      strOfE mcs table (pendStr prev mstr) s.Match.toNat = some mstr)
  hdict : ∀ m p c, m < 4096 → p < 2 ^ mcs →
    (List.lookup (strKey m p) s.Dict = some c ↔
      (∃ sm, strOfE mcs table (pendStr prev mstr) m = some sm ∧
        strOfE mcs table (pendStr prev mstr) c = some (sm ++ [p]) ∧
        2 ^ mcs + 2 ≤ c))
  hinj : ∀ c1 c2 w1 w2, strOfE mcs table (pendStr prev mstr) c1 = some w1 →
    strOfE mcs table (pendStr prev mstr) c2 = some w2 → w1 = w2 → c1 = c2
  hlen2 : ∀ c w, 2 ^ mcs + 2 ≤ c →
    strOfE mcs table (pendStr prev mstr) c = some w → 2 ≤ w.length
  hclosed : ∀ c w, 2 ^ mcs + 2 ≤ c →
    strOfE mcs table (pendStr prev mstr) c = some w →
    ∃ c0 w0 q, strOfE mcs table (pendStr prev mstr) c0 = some w0 ∧
      w = w0 ++ [q]
  hprevcode : ∀ q, prev = some q →
    ∃ cq, strOfE mcs table (pendStr prev mstr) cq = some q

/-! # Part 2: Theorems -/

theorem mergeClipsFrom_cons (cur b : Nat × Nat) (rest : List (Nat × Nat)) :
    mergeClipsFrom cur (b :: rest) =
      if usub1 b.1 ≤ cur.2 then mergeClipsFrom (cur.1, max cur.2 b.2) rest
      else cur :: mergeClipsFrom b rest := rfl

theorem mergeClipsFrom_cons_pos {cur b : Nat × Nat} (rest : List (Nat × Nat))
    (h : usub1 b.1 ≤ cur.2) :
    mergeClipsFrom cur (b :: rest) = mergeClipsFrom (cur.1, max cur.2 b.2) rest := by
  rw [mergeClipsFrom_cons, if_pos h]

theorem mergeClipsFrom_cons_neg {cur b : Nat × Nat} (rest : List (Nat × Nat))
    (h : ¬ usub1 b.1 ≤ cur.2) :
    mergeClipsFrom cur (b :: rest) = cur :: mergeClipsFrom b rest := by
  rw [mergeClipsFrom_cons, if_neg h]

theorem usub1_eq_sub_one {n : Nat} (h1 : 1 ≤ n) (h2 : n < 4294967296) :
    usub1 n = n - 1 := by
  unfold usub1
  omega

theorem mergeClipsFrom_valid {cur : Nat × Nat} {l : List (Nat × Nat)}
    (hc : ClipValid cur) (h : ∀ p ∈ l, ClipValid p) :
    ∀ p ∈ mergeClipsFrom cur l, ClipValid p := by
  induction l generalizing cur with
  | nil =>
    intro p hp
    rw [mergeClipsFrom] at hp
    rcases List.mem_singleton.mp hp with rfl
    exact hc
  | cons b rest ih =>
    intro p hp
    rcases le_or_lt (usub1 b.1) cur.2 with hm | hm
    · rw [mergeClipsFrom_cons_pos rest hm] at hp
      refine ih ?_ (fun q hq => h q (by simp [hq])) p hp
      have hb := h b (by simp)
      obtain ⟨hc1, hc2, hc3⟩ := hc
      obtain ⟨hb1, hb2, hb3⟩ := hb
      exact ⟨hc1, le_max_of_le_left hc2, by simp only [ClipValid]; omega⟩
    · rw [mergeClipsFrom_cons_neg rest (not_le.mpr hm)] at hp
      rcases List.mem_cons.mp hp with rfl | hp
      · exact hc
      · exact ih (h b (by simp)) (fun q hq => h q (by simp [hq])) p hp

theorem mergeClipsFrom_start_le {cur : Nat × Nat} {l : List (Nat × Nat)}
    (hs : ∀ p ∈ l, cur.1 ≤ p.1)
    (hl : l.Pairwise (fun a b => a.1 ≤ b.1)) :
    ∀ p ∈ mergeClipsFrom cur l, cur.1 ≤ p.1 := by
  induction l generalizing cur with
  | nil =>
    intro p hp
    rw [mergeClipsFrom] at hp
    rcases List.mem_singleton.mp hp with rfl
    exact le_refl _
  | cons b rest ih =>
    intro p hp
    rcases le_or_lt (usub1 b.1) cur.2 with hm | hm
    · rw [mergeClipsFrom_cons_pos rest hm] at hp
      exact @ih (cur.1, max cur.2 b.2)
        (fun q hq => le_trans (hs b (by simp))
          ((List.pairwise_cons.mp hl).1 q hq))
        (List.pairwise_cons.mp hl).2 p hp
    · rw [mergeClipsFrom_cons_neg rest (not_le.mpr hm)] at hp
      rcases List.mem_cons.mp hp with rfl | hp
      · exact le_refl _
      · exact le_trans (hs b (by simp))
          (ih (fun q hq => (List.pairwise_cons.mp hl).1 q hq)
            (List.pairwise_cons.mp hl).2 p hp)

theorem mergeClipsFrom_pairwise {cur : Nat × Nat} {l : List (Nat × Nat)}
    (hv : ∀ p ∈ l, ClipValid p)
    (hs : ∀ p ∈ l, cur.1 ≤ p.1)
    (hl : l.Pairwise (fun a b => a.1 ≤ b.1)) :
    (mergeClipsFrom cur l).Pairwise ClipGap := by
  induction l generalizing cur with
  | nil => simp [mergeClipsFrom]
  | cons b rest ih =>
    rcases le_or_lt (usub1 b.1) cur.2 with hm | hm
    · rw [mergeClipsFrom_cons_pos rest hm]
      exact ih (fun q hq => hv q (by simp [hq]))
        (fun q hq => le_trans (hs b (by simp))
          ((List.pairwise_cons.mp hl).1 q hq))
        (List.pairwise_cons.mp hl).2
    · rw [mergeClipsFrom_cons_neg rest (not_le.mpr hm)]
      have hvb : ClipValid b := hv b (by simp)
      have hgap : cur.2 + 1 < b.1 := by
        obtain ⟨hb1, hb2, hb3⟩ := hvb
        have := usub1_eq_sub_one hb1 (lt_of_le_of_lt hb2 hb3)
        omega
      refine List.pairwise_cons.mpr ⟨?_, ?_⟩
      · intro p hp
        have hple := mergeClipsFrom_start_le
          (fun q hq => (List.pairwise_cons.mp hl).1 q hq)
          (List.pairwise_cons.mp hl).2 p hp
        unfold ClipGap
        omega
      · exact ih (fun q hq => hv q (by simp [hq]))
          (fun q hq => (List.pairwise_cons.mp hl).1 q hq)
          (List.pairwise_cons.mp hl).2

/-- **C9.** For every clip list whose entries are 1-based with start ≤ end,
`sortclips` sorts by start and merges overlapping or abutting ranges, so
that no two ranges of the result overlap or abut; and it maps
`[(1,5), (6,10), (20,25)]` to `[(1,10), (20,25)]` while leaving
`[(1,3), (10,12)]` unchanged. -/
theorem sortclips_spec (clips : List (Nat × Nat))
    (hv : ∀ p ∈ clips, ClipValid p) :
    (sortclips clips).Pairwise ClipGap ∧
    (sortclips clips).Pairwise (fun a b => a.1 ≤ b.1) ∧
    sortclips [(1, 5), (6, 10), (20, 25)] = [(1, 10), (20, 25)] ∧
    sortclips [(1, 3), (10, 12)] = [(1, 3), (10, 12)] := by
  have hperm := List.perm_insertionSort clipLE clips
  have hvs : ∀ p ∈ clips.insertionSort clipLE, ClipValid p :=
    fun p hp => hv p (hperm.mem_iff.mp hp)
  have hsorted : (clips.insertionSort clipLE).Pairwise clipLE :=
    List.sorted_insertionSort clipLE clips
  have hstarts : (clips.insertionSort clipLE).Pairwise (fun a b => a.1 ≤ b.1) := by
    refine hsorted.imp ?_
    intro a b h
    unfold clipLE at h
    omega
  have hpw : (sortclips clips).Pairwise ClipGap := by
    unfold sortclips
    split
    · simp
    · rename_i x xs heq
      rw [heq] at hvs hstarts
      exact mergeClipsFrom_pairwise (fun q hq => hvs q (by simp [hq]))
        (fun q hq => (List.pairwise_cons.mp hstarts).1 q hq)
        (List.pairwise_cons.mp hstarts).2
  have hvalid : ∀ p ∈ sortclips clips, ClipValid p := by
    unfold sortclips
    split
    · simp
    · rename_i x xs heq
      rw [heq] at hvs
      exact mergeClipsFrom_valid (hvs x (by simp))
        (fun q hq => hvs q (by simp [hq]))
  refine ⟨hpw, ?_, by decide, by decide⟩
  refine List.Pairwise.imp_of_mem ?_ hpw
  intro a b ha hb h
  have := (hvalid a ha).2.1
  unfold ClipGap at h
  omega

/-- **C4.** After every `AddDelay` call with a non-zero delay the
accumulated GIF time equals the floor conversion of the accumulated
source ticks: `GIFTime = TotalTicks * 100 / FrameRate` (computed in
`uint32_t`; the final conjunct gives the exact equation whenever the
tick total stays in range, so the per-frame rounding error never
accumulates). -/
theorem AddDelay_invariant (st : DelayState) (fd delay : Nat)
    (h0 : delay ≠ 0) (hG : st.GIFTime < 4294967296) :
    ((AddDelay st fd delay).1).TotalTicks = (st.TotalTicks + delay) % 4294967296 ∧
    ((AddDelay st fd delay).1).GIFTime =
      ((AddDelay st fd delay).1).TotalTicks * 100 % 4294967296 / st.FrameRate ∧
    ((AddDelay st fd delay).1).FrameRate = st.FrameRate ∧
    ((st.TotalTicks + delay) * 100 < 4294967296 →
      ((AddDelay st fd delay).1).GIFTime =
        (st.TotalTicks + delay) * 100 / st.FrameRate) := by
  have key : ∀ m, m < 4294967296 →
      (st.GIFTime + (m + 4294967296 - st.GIFTime) % 4294967296) % 4294967296 = m := by
    intro m hm
    omega
  unfold AddDelay
  rw [if_pos h0]
  refine ⟨rfl, ?_, rfl, ?_⟩
  · exact key _ (lt_of_le_of_lt (Nat.div_le_self _ _)
      (Nat.mod_lt _ (by norm_num)))
  · intro hsmall
    have hmod : (st.TotalTicks + delay) % 4294967296 = st.TotalTicks + delay := by
      omega
    show (st.GIFTime + _) % 4294967296 = _
    rw [hmod, Nat.mod_eq_of_lt hsmall]
    exact key _ (lt_of_le_of_lt (Nat.div_le_self _ _) hsmall)

/-- Witness for `AddDelay_invariant`: 10 ticks at 10 ticks per second
convert to exactly 100 centiseconds. -/
theorem AddDelay_invariant_witness :
    ((AddDelay ⟨0, 0, 10⟩ 0 10).1).GIFTime =
      ((AddDelay ⟨0, 0, 10⟩ 0 10).1).TotalTicks * 100 % 4294967296 / 10 :=
  (AddDelay_invariant ⟨0, 0, 10⟩ 0 10 (by decide) (by decide)).2.1

/-! ### The delta store semantics (C2) -/

theorem land_zero_self (n : Nat) : Nat.land n 0 = 0 := Nat.and_zero n

theorem xor_zero_left (n : Nat) : Nat.xor 0 n = n := Nat.zero_xor n

theorem land_255_eq_mod (n : Nat) : Nat.land n 255 = n % 256 := by
  have := Nat.and_pow_two_sub_one_eq_mod n 8
  norm_num at this
  exact this

theorem land_65535_eq_mod (n : Nat) : Nat.land n 65535 = n % 65536 := by
  have := Nat.and_pow_two_sub_one_eq_mod n 16
  norm_num at this
  exact this

/-- **C2.** What each delta variant's store actually computes.  With the
XOR flag set, `Delta5` combines over the full 8-bit element and
`Delta7Short` over the full 16-bit element, but `Delta7Long` keeps only
the low 16 bits of a 32-bit element and `Do8short` (`Delta8Short`) /
`Delta8Long` keep only the low 8 bits of a 16- respectively 32-bit
element — the old value's upper bits are cleared, not XORed, as the
closing concrete evaluations show.  With the flag clear every variant
stores the data value unchanged. -/
theorem deltaWrite_flag_semantics :
    (∀ old data, delta5Write true old data = Nat.xor (old % 256) data) ∧
    (∀ old data, delta7ShortWrite true old data = Nat.xor (old % 65536) data) ∧
    (∀ old data, delta7LongWrite true old data = Nat.xor (old % 65536) data) ∧
    (∀ old data, delta8ShortWrite true old data = Nat.xor (old % 256) data) ∧
    (∀ old data, delta8LongWrite true old data = Nat.xor (old % 256) data) ∧
    (∀ old data, delta5Write false old data = data) ∧
    (∀ old data, delta7ShortWrite false old data = data) ∧
    (∀ old data, delta7LongWrite false old data = data) ∧
    (∀ old data, delta8ShortWrite false old data = data) ∧
    (∀ old data, delta8LongWrite false old data = data) ∧
    delta8ShortWrite true 4660 1 = 53 ∧ Nat.xor 4660 1 = 4661 ∧
    delta7LongWrite true 87654 1 = 22119 ∧ Nat.xor 87654 1 = 87655 ∧
    delta8LongWrite true 305419896 1 = 121 ∧ Nat.xor 305419896 1 = 305419897 := by
  unfold delta5Write delta7ShortWrite delta7LongWrite delta8ShortWrite
    delta8LongWrite deltaCombine delta5Mask delta7ShortMask delta7LongMask
    delta8Mask
  refine ⟨?_, ?_, ?_, ?_, ?_, ?_, ?_, ?_, ?_, ?_, by decide, by decide,
    by decide, by decide, by decide, by decide⟩
  · intro old data
    simp [land_255_eq_mod]
  · intro old data
    simp [land_65535_eq_mod]
  · intro old data
    simp [land_65535_eq_mod]
  · intro old data
    simp [land_255_eq_mod]
  · intro old data
    simp [land_255_eq_mod]
  all_goals intro old data
  all_goals simp only [Bool.false_eq_true, if_false]
  all_goals rw [land_zero_self, xor_zero_left]

/-! ### Write bounds of the delta run loops (C10) -/

theorem bufWrite_frame {buf : Buf} {p v i : Nat} (h : i ≠ p) :
    bufWrite buf p v i = buf i := by
  unfold bufWrite
  rw [if_neg h]

theorem store32_frame {buf : Buf} {p v i : Nat} (h : p + 3 < i) :
    store32 buf p v i = buf i := by
  unfold store32
  rw [bufWrite_frame (by omega), bufWrite_frame (by omega),
    bufWrite_frame (by omega), bufWrite_frame (by omega)]

theorem delta5Lit_frame (mask pitch stop : Nat) :
    ∀ cnt ops pos buf i, stop ≤ i →
      (delta5Lit mask pitch stop cnt ops pos buf).1 i = buf i := by
  intro cnt
  induction cnt with
  | zero => intro ops pos buf i _; rfl
  | succ n ih =>
    intro ops pos buf i hi
    rw [delta5Lit]
    split
    · rename_i hlt
      rw [ih _ _ _ _ hi, bufWrite_frame (by omega)]
    · exact ih _ _ _ _ hi

theorem delta5Fill_frame (mask pitch stop fill : Nat) :
    ∀ cnt pos buf i, stop ≤ i →
      (delta5Fill mask pitch stop fill cnt pos buf).1 i = buf i := by
  intro cnt
  induction cnt with
  | zero => intro pos buf i _; rfl
  | succ n ih =>
    intro pos buf i hi
    rw [delta5Fill]
    split
    · rename_i hlt
      rw [ih _ _ _ hi, bufWrite_frame (by omega)]
    · exact ih _ _ _ hi

theorem delta5Ops_frame (mask pitch stop : Nat) :
    ∀ opcount ops pos buf i, stop ≤ i →
      (delta5Ops mask pitch stop opcount ops pos buf).1 i = buf i := by
  intro opcount
  induction opcount with
  | zero => intro ops pos buf i _; rfl
  | succ n ih =>
    intro ops pos buf i hi
    rw [delta5Ops]
    split
    · rw [ih _ _ _ _ hi, delta5Lit_frame _ _ _ _ _ _ _ _ hi]
    · split
      · rw [ih _ _ _ _ hi, delta5Fill_frame _ _ _ _ _ _ _ _ hi]
      · exact ih _ _ _ _ hi

theorem do8shortLit_frame (mask pitch stop : Nat) :
    ∀ cnt ops pos buf i, stop ≤ i →
      (do8shortLit mask pitch stop cnt ops pos buf).1 i = buf i := by
  intro cnt
  induction cnt with
  | zero => intro ops pos buf i _; rfl
  | succ n ih =>
    intro ops pos buf i hi
    rw [do8shortLit]
    split
    · rename_i hlt
      rw [ih _ _ _ _ hi, bufWrite_frame (by omega)]
    · exact ih _ _ _ _ hi

theorem do8shortFill_frame (mask pitch stop fill : Nat) :
    ∀ cnt pos buf i, stop ≤ i →
      (do8shortFill mask pitch stop fill cnt pos buf).1 i = buf i := by
  intro cnt
  induction cnt with
  | zero => intro pos buf i _; rfl
  | succ n ih =>
    intro pos buf i hi
    rw [do8shortFill]
    split
    · rename_i hlt
      rw [ih _ _ _ hi, bufWrite_frame (by omega)]
    · exact ih _ _ _ hi

theorem do8shortOps_frame (mask pitch stop : Nat) :
    ∀ opcount ops pos buf i, stop ≤ i →
      (do8shortOps mask pitch stop opcount ops pos buf).1 i = buf i := by
  intro opcount
  induction opcount with
  | zero => intro ops pos buf i _; rfl
  | succ n ih =>
    intro ops pos buf i hi
    rw [do8shortOps]
    split
    · rw [ih _ _ _ _ hi, do8shortLit_frame _ _ _ _ _ _ _ _ hi]
    · split
      · rw [ih _ _ _ _ hi, do8shortFill_frame _ _ _ _ _ _ _ _ hi]
      · exact ih _ _ _ _ hi

theorem delta8LongLit_frame (mask pitch stop : Nat) :
    ∀ cnt ops pos buf i, stop + 3 ≤ i →
      (delta8LongLit mask pitch stop cnt ops pos buf).1 i = buf i := by
  intro cnt
  induction cnt with
  | zero => intro ops pos buf i _; rfl
  | succ n ih =>
    intro ops pos buf i hi
    rw [delta8LongLit]
    split
    · rename_i hlt
      rw [ih _ _ _ _ hi, store32_frame (by omega)]
    · exact ih _ _ _ _ hi

theorem delta8LongFill_frame (mask pitch stop fill : Nat) :
    ∀ cnt pos buf i, stop + 3 ≤ i →
      (delta8LongFill mask pitch stop fill cnt pos buf).1 i = buf i := by
  intro cnt
  induction cnt with
  | zero => intro pos buf i _; rfl
  | succ n ih =>
    intro pos buf i hi
    rw [delta8LongFill]
    split
    · rename_i hlt
      rw [ih _ _ _ hi, store32_frame (by omega)]
    · exact ih _ _ _ hi

theorem delta8LongOps_frame (mask pitch stop : Nat) :
    ∀ opcount ops pos buf i, stop + 3 ≤ i →
      (delta8LongOps mask pitch stop opcount ops pos buf).1 i = buf i := by
  intro opcount
  induction opcount with
  | zero => intro ops pos buf i _; rfl
  | succ n ih =>
    intro ops pos buf i hi
    rw [delta8LongOps]
    split
    · rw [ih _ _ _ _ hi, delta8LongLit_frame _ _ _ _ _ _ _ _ hi]
    · split
      · rw [ih _ _ _ _ hi, delta8LongFill_frame _ _ _ _ _ _ _ _ hi]
      · exact ih _ _ _ _ hi

/-- **C10 (counterexample).** A `Delta8Long` literal store that begins
before the plane-end bound spills past it: with `pitch = 2` (an image
at most 15 pixels wide), `Height = 1` and column 0, the plane ends at
byte `4*0 + 1*2 = 2`, yet the single guarded store changes byte 2 of
the buffer from 0 to 204. -/
theorem delta8LongCol_overflow :
    (delta8LongCol (delta8Mask false) 2 1 0
        [0, 0, 0, 1, 128, 0, 0, 1, 170, 187, 204, 221] (fun _ => 0)).1 2 = 204 ∧
    (204 : Nat) ≠ 0 := by
  constructor
  · rfl
  · decide

/-- **C10 (amended).** Every literal- or fill-run store begins only
while the cursor is strictly below the plane-end bound
(column start + `Height * pitch`); for the byte-element `Delta5` runs
and the 16-bit-element `Do8short` runs no position at or past that
bound is ever modified, and for the byte-addressed 32-bit `Delta8Long`
runs no byte more than 3 past the bound is ever modified (a store
beginning just below the bound can spill up to 3 bytes, as
`delta8LongCol_overflow` shows).  Excess op counts, run lengths and
skips consume their input without writing. -/
theorem deltaRuns_write_bounds :
    (∀ mask pitch height x ops buf i, x + height * pitch ≤ i →
      (delta5Col mask pitch height x ops buf).1 i = buf i) ∧
    (∀ mask pitch height x ops buf i, x + height * pitch ≤ i →
      (do8short mask pitch height x ops buf).1 i = buf i) ∧
    (∀ mask pitch height x ops buf i, 4 * x + height * pitch + 3 ≤ i →
      (delta8LongCol mask pitch height x ops buf).1 i = buf i) := by
  refine ⟨?_, ?_, ?_⟩
  · intro mask pitch height x ops buf i hi
    exact delta5Ops_frame _ _ _ _ _ _ _ _ hi
  · intro mask pitch height x ops buf i hi
    exact do8shortOps_frame _ _ _ _ _ _ _ _ hi
  · intro mask pitch height x ops buf i hi
    exact delta8LongOps_frame _ _ _ _ _ _ _ _ hi

/-- Witness for `deltaRuns_write_bounds` at a concrete column run. -/
theorem deltaRuns_write_bounds_witness :
    (delta5Col 255 2 2 0 [1, 129, 7] (fun _ => 9)).1 4 = 9 :=
  deltaRuns_write_bounds.1 255 2 2 0 [1, 129, 7] (fun _ => 9) 4 (by decide)

/-! ### The frame queue (C3) -/

theorem Shift_full {γ π : Type} (st : GIFFrameQueue γ π) (f : γ × π)
    (rest : List (γ × π)) (h : st.Queue = f :: rest) :
    st.Shift = { st with Queue := rest, written := st.written ++ [f.1] } := by
  unfold GIFFrameQueue.Shift
  rw [h]

theorem enqueueAll_spec {γ π : Type} (frames : List (γ × π)) :
    (enqueueAll GIFFrameQueue.new frames).Queue =
      frames.drop (frames.length - MAX_QUEUE_SIZE) ∧
    (enqueueAll GIFFrameQueue.new frames).FirstFrames =
      (frames.map Prod.snd).take MAX_QUEUE_SIZE ∧
    (enqueueAll GIFFrameQueue.new frames).written =
      (frames.take (frames.length - MAX_QUEUE_SIZE)).map Prod.fst ∧
    (enqueueAll GIFFrameQueue.new frames).FinalFramesToDrop = 0 := by
  induction frames using List.reverseRecOn with
  | nil => exact ⟨rfl, rfl, rfl, rfl⟩
  | append_singleton l a ih =>
    obtain ⟨hq, hf, hw, hd⟩ := ih
    have hstep : enqueueAll GIFFrameQueue.new (l ++ [a]) =
        (enqueueAll GIFFrameQueue.new l).Enqueue a.1 a.2 := by
      unfold enqueueAll
      rw [List.foldl_append]
      rfl
    rw [hstep]
    unfold GIFFrameQueue.Enqueue
    rcases le_or_lt MAX_QUEUE_SIZE l.length with hlen | hlen
    · -- queue already holds MAX_QUEUE_SIZE frames: Shift happens
      have hql : (enqueueAll GIFFrameQueue.new l).Queue.length = MAX_QUEUE_SIZE := by
        rw [hq, List.length_drop]
        unfold MAX_QUEUE_SIZE at *
        omega
      rw [if_pos (le_of_eq hql.symm)]
      have hlt : l.length - MAX_QUEUE_SIZE < l.length := by
        unfold MAX_QUEUE_SIZE at *
        omega
      have hcons : l.drop (l.length - MAX_QUEUE_SIZE) =
          l[l.length - MAX_QUEUE_SIZE] :: l.drop (l.length - MAX_QUEUE_SIZE + 1) :=
        List.drop_eq_getElem_cons hlt
      rw [Shift_full _ _ _ (hq.trans hcons)]
      unfold GIFFrameQueue.pushPair GIFFrameQueue.retainFirst GIFFrameQueue.bumpTotal
      have hfflen : (enqueueAll GIFFrameQueue.new l).FirstFrames.length =
          MAX_QUEUE_SIZE := by
        rw [hf, List.length_take, List.length_map]
        unfold MAX_QUEUE_SIZE at *
        omega
      rw [if_neg (by simp only [hfflen]; omega)]
      refine ⟨?_, ?_, ?_, hd⟩
      · show l.drop (l.length - MAX_QUEUE_SIZE + 1) ++ [(a.1, a.2)] = _
        have h1 : (l ++ [a]).length - MAX_QUEUE_SIZE =
            l.length - MAX_QUEUE_SIZE + 1 := by
          rw [List.length_append]
          unfold MAX_QUEUE_SIZE at *
          simp
          omega
        rw [h1, List.drop_append_of_le_length (by omega)]
      · show (enqueueAll GIFFrameQueue.new l).FirstFrames = _
        rw [hf, List.map_append]
        rw [List.take_append_of_le_length (by rw [List.length_map]; omega)]
      · show (enqueueAll GIFFrameQueue.new l).written ++
            [l[l.length - MAX_QUEUE_SIZE].1] = _
        rw [hw]
        have h1 : (l ++ [a]).length - MAX_QUEUE_SIZE =
            (l.length - MAX_QUEUE_SIZE) + 1 := by
          rw [List.length_append]
          unfold MAX_QUEUE_SIZE at *
          simp
          omega
        have h2 : List.take (l.length - MAX_QUEUE_SIZE + 1) l =
            List.take (l.length - MAX_QUEUE_SIZE) l ++
              [l[l.length - MAX_QUEUE_SIZE]] := by
          rw [List.take_succ, List.getElem?_eq_getElem hlt]
          simp
        rw [h1, List.take_append_of_le_length (by omega), h2, List.map_append]
        rfl
    · -- queue not yet full: no Shift
      have hdrop0 : l.length - MAX_QUEUE_SIZE = 0 := by omega
      have hql : (enqueueAll GIFFrameQueue.new l).Queue.length = l.length := by
        rw [hq, hdrop0, List.drop_zero]
      rw [if_neg (by rw [hql]; omega)]
      unfold GIFFrameQueue.pushPair GIFFrameQueue.retainFirst GIFFrameQueue.bumpTotal
      have hfflen : (enqueueAll GIFFrameQueue.new l).FirstFrames.length = l.length := by
        rw [hf, List.length_take, List.length_map]
        unfold MAX_QUEUE_SIZE at *
        omega
      rw [if_pos (by rw [hfflen]; omega)]
      refine ⟨?_, ?_, ?_, hd⟩
      · show (enqueueAll GIFFrameQueue.new l).Queue ++ [(a.1, a.2)] = _
        have h1 : (l ++ [a]).length - MAX_QUEUE_SIZE = 0 := by
          rw [List.length_append]
          unfold MAX_QUEUE_SIZE at *
          simp
          omega
        rw [hq, hdrop0, List.drop_zero, h1, List.drop_zero]
      · show (enqueueAll GIFFrameQueue.new l).FirstFrames ++ [a.2] = _
        rw [hf, List.map_append]
        rw [List.take_of_length_le (by rw [List.length_map]; omega),
          List.take_of_length_le (by rw [List.length_append, List.length_map]; simp; omega)]
        rfl
      · show (enqueueAll GIFFrameQueue.new l).written = _
        rw [hw, hdrop0]
        have h1 : (l ++ [a]).length - MAX_QUEUE_SIZE = 0 := by
          rw [List.length_append]
          unfold MAX_QUEUE_SIZE at *
          simp
          omega
        rw [h1]
        rfl

theorem Flush_behavior {γ π : Type} [DecidableEq π] [Inhabited γ] [Inhabited π]
    (st : GIFFrameQueue γ π) (hlen : st.Queue.length ≠ 0) :
    ((st.FinalFramesToDrop ≠ 0 ∧ ∃ i < st.FinalFramesToDrop,
        st.FirstFrames.getD i default ≠
          (st.Queue.getD (st.Queue.length - st.FinalFramesToDrop + i) default).2) →
      st.Flush.written = st.written ++ st.Queue.map Prod.fst ∧
      st.Flush.FinalFramesToDrop = 0) ∧
    ((∀ i < st.FinalFramesToDrop,
        st.FirstFrames.getD i default =
          (st.Queue.getD (st.Queue.length - st.FinalFramesToDrop + i) default).2) →
      st.Flush.written = st.written ++
        (st.Queue.take (st.Queue.length - st.FinalFramesToDrop)).map Prod.fst ∧
      st.Flush.FinalFramesToDrop = st.FinalFramesToDrop) := by
  unfold GIFFrameQueue.Flush
  rw [if_neg hlen]
  constructor
  · intro hmis
    obtain ⟨hne, i, hi, hneq⟩ := hmis
    have hany : ((List.range st.FinalFramesToDrop).any (fun i =>
        decide (st.FirstFrames.getD i default ≠
          (st.Queue.getD (st.Queue.length - st.FinalFramesToDrop + i) default).2))) = true := by
      rw [List.any_eq_true]
      exact ⟨i, List.mem_range.mpr hi, decide_eq_true hneq⟩
    rw [if_pos ⟨hne, hany⟩]
    refine ⟨?_, rfl⟩
    show st.written ++ (st.Queue.take (st.Queue.length - 0)).map Prod.fst =
      st.written ++ st.Queue.map Prod.fst
    rw [Nat.sub_zero, List.take_length]
  · intro hmatch
    have hany : ((List.range st.FinalFramesToDrop).any (fun i =>
        decide (st.FirstFrames.getD i default ≠
          (st.Queue.getD (st.Queue.length - st.FinalFramesToDrop + i) default).2))) = false := by
      rw [List.any_eq_false]
      intro i hi
      have heq := hmatch i (List.mem_range.mp hi)
      rw [List.getD_eq_getElem?_getD, List.getD_eq_getElem?_getD] at heq
      simp [heq]
    rw [if_neg (by rw [hany]; simp)]
    exact ⟨rfl, rfl⟩

/-- **C3.** `Flush` behavior of the frame queue.  First conjunct: on
flushing any non-empty queue with configured drop count `n > 0`, the
last `n` queued source frames are compared pairwise against the first
`n` retained frames; on any mismatch the drop count is reset to 0 and
every queued frame is written, otherwise the trailing `n` frames are
discarded unwritten.  Second conjunct: an `N`-frame stream run through
the queue with drop count 2 writes exactly `N - 2` frames when the last
two enqueued source frames equal the first two retained ones, and all
`N` frames otherwise. -/
theorem GIFFrameQueue_flush_drop {γ π : Type} [DecidableEq π] [Inhabited γ]
    [Inhabited π] (frames : List (γ × π)) (hN : 2 ≤ frames.length) :
    (∀ st : GIFFrameQueue γ π, st.Queue.length ≠ 0 →
      ((st.FinalFramesToDrop ≠ 0 ∧ ∃ i < st.FinalFramesToDrop,
          st.FirstFrames.getD i default ≠
            (st.Queue.getD (st.Queue.length - st.FinalFramesToDrop + i) default).2) →
        st.Flush.written = st.written ++ st.Queue.map Prod.fst ∧
        st.Flush.FinalFramesToDrop = 0) ∧
      ((∀ i < st.FinalFramesToDrop,
          st.FirstFrames.getD i default =
            (st.Queue.getD (st.Queue.length - st.FinalFramesToDrop + i) default).2) →
        st.Flush.written = st.written ++
          (st.Queue.take (st.Queue.length - st.FinalFramesToDrop)).map Prod.fst)) ∧
    ((∀ i < 2, (frames.map Prod.snd).getD i default =
        (frames.map Prod.snd).getD (frames.length - 2 + i) default) →
      (runQueue frames 2).written.length = frames.length - 2) ∧
    ((∃ i < 2, (frames.map Prod.snd).getD i default ≠
        (frames.map Prod.snd).getD (frames.length - 2 + i) default) →
      (runQueue frames 2).written.length = frames.length) := by
  refine ⟨?_, ?_⟩
  · intro st hlen
    exact ⟨(Flush_behavior st hlen).1, fun h => ((Flush_behavior st hlen).2 h).1⟩
  obtain ⟨hq, hf, hw, hd⟩ := enqueueAll_spec frames
  set N := frames.length with hNdef
  set st := (enqueueAll GIFFrameQueue.new frames).SetDropFrames 2 with hst
  have hstq : st.Queue = frames.drop (N - MAX_QUEUE_SIZE) := hq
  have hstf : st.FirstFrames = (frames.map Prod.snd).take MAX_QUEUE_SIZE := hf
  have hstw : st.written = (frames.take (N - MAX_QUEUE_SIZE)).map Prod.fst := hw
  have hstd : st.FinalFramesToDrop = 2 := rfl
  have hql : st.Queue.length = N - (N - MAX_QUEUE_SIZE) := by
    rw [hstq, List.length_drop]
  have hmax : MAX_QUEUE_SIZE = 8 := rfl
  have hlen : st.Queue.length ≠ 0 := by omega
  have hrun : runQueue frames 2 = st.Flush := rfl
  have hlw : st.written.length = min (N - MAX_QUEUE_SIZE) N := by
    rw [hstw, List.length_map, List.length_take]
  have htrans : ∀ i, i < 2 →
      (st.FirstFrames.getD i default =
        (st.Queue.getD (st.Queue.length - st.FinalFramesToDrop + i) default).2) =
      ((frames.map Prod.snd).getD i default =
        (frames.map Prod.snd).getD (N - 2 + i) default) := by
    intro i hi
    have h1 : st.FirstFrames.getD i default =
        (frames.map Prod.snd).getD i default := by
      rw [hstf, List.getD_eq_getElem?_getD, List.getD_eq_getElem?_getD,
        List.getElem?_take, if_pos (by omega)]
    have hidx : N - 2 + i < N := by omega
    have h2 : (st.Queue.getD (st.Queue.length - st.FinalFramesToDrop + i) default).2 =
        (frames.map Prod.snd).getD (N - 2 + i) default := by
      rw [hstd, hstq, List.getD_eq_getElem?_getD, List.getD_eq_getElem?_getD,
        List.getElem?_drop, List.getElem?_map]
      have harith : N - MAX_QUEUE_SIZE +
          ((frames.drop (N - MAX_QUEUE_SIZE)).length - 2 + i) = N - 2 + i := by
        rw [List.length_drop]
        omega
      rw [harith, List.getElem?_eq_getElem hidx]
      rfl
    rw [h1, h2]
  refine ⟨fun hcond => ?_, fun hcond => ?_⟩
  · -- the trailing two frames duplicate the first two: they are dropped
    have hmatch : ∀ i < st.FinalFramesToDrop,
        st.FirstFrames.getD i default =
          (st.Queue.getD (st.Queue.length - st.FinalFramesToDrop + i) default).2 := by
      intro i hi
      rw [hstd] at hi
      rw [htrans i hi]
      exact hcond i hi
    have hfl := ((Flush_behavior st hlen).2 hmatch).1
    rw [hrun, hfl, List.length_append, List.length_map, List.length_take, hstd]
    omega
  · -- some trailing frame differs: nothing is dropped
    obtain ⟨i, hi, hne⟩ := hcond
    have hmis : st.FinalFramesToDrop ≠ 0 ∧ ∃ i < st.FinalFramesToDrop,
        st.FirstFrames.getD i default ≠
          (st.Queue.getD (st.Queue.length - st.FinalFramesToDrop + i) default).2 := by
      refine ⟨by rw [hstd]; omega, i, by rw [hstd]; omega, ?_⟩
      exact fun heq => hne ((htrans i hi) ▸ heq)
    have hfl := ((Flush_behavior st hlen).1 hmis).1
    rw [hrun, hfl, List.length_append, List.length_map]
    omega

/-- Witness for `GIFFrameQueue_flush_drop`: a four-frame stream whose
last two source frames repeat the first two writes exactly two
frames. -/
theorem GIFFrameQueue_flush_drop_witness :
    (runQueue [((10 : Nat), (1 : Nat)), (20, 2), (30, 1), (40, 2)] 2).written.length =
      4 - 2 :=
  (GIFFrameQueue_flush_drop [((10 : Nat), (1 : Nat)), (20, 2), (30, 1), (40, 2)]
    (by decide)).2.1 (by decide)

/-! ### Finalization and the loop-restart delay (C5) -/

theorem Flush_nodrop {γ π : Type} [DecidableEq π] [Inhabited γ] [Inhabited π]
    (st : GIFFrameQueue γ π) (hne : st.Queue ≠ [])
    (hdrop : st.FinalFramesToDrop = 0) :
    st.Flush.written = st.written ++ st.Queue.map Prod.fst := by
  unfold GIFFrameQueue.Flush
  rw [if_neg (by simp [hne])]
  rw [if_neg (by rw [hdrop]; simp)]
  show st.written ++ (st.Queue.take (st.Queue.length - st.FinalFramesToDrop)).map Prod.fst = _
  rw [hdrop, Nat.sub_zero, List.take_length]

theorem updateLast_concat {γ π : Type} (st : GIFFrameQueue γ π) (f : γ → γ)
    (l : List (γ × π)) (last : γ × π) (hq : st.Queue = l ++ [last]) :
    st.updateLast f = { st with Queue := l ++ [(f last.1, last.2)] } := by
  unfold GIFFrameQueue.updateLast
  rw [show st.Queue.getLast? = some last from by rw [hq, List.getLast?_concat]]
  rw [hq, List.dropLast_concat]

theorem addDelayToLast_eq {π : Type} (w : WriterSt π) (d : Nat) (fr : GIFFrame)
    (hmr : w.queue.MostRecent = some fr) :
    w.addDelayToLast d =
      { w with
        TotalTicks := (AddDelay ⟨w.TotalTicks, w.GIFTime, w.FrameRate⟩
          fr.DelayTime d).1.TotalTicks,
        GIFTime := (AddDelay ⟨w.TotalTicks, w.GIFTime, w.FrameRate⟩
          fr.DelayTime d).1.GIFTime,
        queue := w.queue.updateLast (fun _ =>
          ⟨(AddDelay ⟨w.TotalTicks, w.GIFTime, w.FrameRate⟩ fr.DelayTime d).2⟩) } := by
  unfold WriterSt.addDelayToLast
  rw [hmr]

/-- **C5 (amended).** At finalization, `FinishFile` reapplies the first
frame's original delay (converted through the running accumulators) to
the most recently queued frame; whenever the flush drops no trailing
frames, that frame is the last frame written to the file, so the last
written frame carries the loop-restart delay. -/
theorem FinishFile_firstDelay_on_lastWritten {π : Type} [DecidableEq π]
    [Inhabited π] (w : WriterSt π) (hne : w.queue.Queue ≠ [])
    (hdrop : w.queue.FinalFramesToDrop = 0) :
    w.FinishFile.queue.written.getLast? =
      some ⟨(AddDelay ⟨w.TotalTicks, w.GIFTime, w.FrameRate⟩
        ((w.queue.MostRecent.getD default).DelayTime) w.FirstDelay).2⟩ := by
  obtain ⟨l, last, hq⟩ : ∃ l last, w.queue.Queue = l ++ [last] := by
    rcases List.eq_nil_or_concat w.queue.Queue with h | ⟨l, last, h⟩
    · exact absurd h hne
    · exact ⟨l, last, by simpa [List.concat_eq_append] using h⟩
  have hlast : w.queue.Queue.getLast? = some last := by
    rw [hq, List.getLast?_concat]
  have hmr : w.queue.MostRecent = some last.1 := by
    unfold GIFFrameQueue.MostRecent
    rw [hlast]
    rfl
  unfold WriterSt.FinishFile
  rw [addDelayToLast_eq w w.FirstDelay last.1 hmr]
  rw [updateLast_concat _ _ l last hq]
  simp only []
  rw [Flush_nodrop _ (by simp) (by simp only []; exact hdrop)]
  rw [hmr]
  simp

/-- **C5 (counterexample).** A three-frame animation at 3 ticks per
second whose frames all have delay 1 tick and duplicate each other
(interleave 2, so the trailing two frames are dropped at flush): the
finalization step stores the converted first delay (34 centiseconds)
on the most recently queued frame, but that frame is dropped, and the
last (only) written frame keeps the delay 33 it received from its
successor — so the first frame's delay is not the last written frame's
delay. -/
theorem FinishFile_loopDelay_dropped :
    ((runWriterDelays [(1, (7 : Nat)), (1, 7), (1, 7)] 2 3).queue.written.map
      (fun f => f.DelayTime)) = [33] ∧
    (([((1 : Nat), (7 : Nat)), (1, 7), (1, 7)].foldl
        (fun w fs => w.addFrame fs.1 fs.2 2) (WriterSt.new 3)).addDelayToLast
        ([((1 : Nat), (7 : Nat)), (1, 7), (1, 7)].foldl
          (fun w fs => w.addFrame fs.1 fs.2 2)
          (WriterSt.new 3)).FirstDelay).queue.MostRecent = some ⟨34⟩ ∧
    (33 : Nat) ≠ 34 := by
  refine ⟨by decide, by decide, by decide⟩

/-- Witness for `FinishFile_firstDelay_on_lastWritten`: a writer with
one queued frame, no trailing drop, first delay 5 at 10 ticks per
second. -/
theorem FinishFile_firstDelay_on_lastWritten_witness :
    (WriterSt.FinishFile
        (⟨⟨[(⟨0⟩, 7)], [7], 0, 1, []⟩, 0, 0, 10, 5, 1⟩ :
          WriterSt Nat)).queue.written.getLast? =
      some ⟨(AddDelay ⟨0, 0, 10⟩
        (((⟨⟨[(⟨0⟩, 7)], [7], 0, 1, []⟩, 0, 0, 10, 5, 1⟩ :
          WriterSt Nat).queue.MostRecent.getD default).DelayTime) 5).2⟩ :=
  FinishFile_firstDelay_on_lastWritten
    (⟨⟨[(⟨0⟩, 7)], [7], 0, 1, []⟩, 0, 0, 10, 5, 1⟩ : WriterSt Nat)
    (by decide) (by decide)

/-! ### Loader error handling (C8) -/

theorem ApplyDelta_unknown (bitmap : PBitmap) (ah : AnimHeaderM)
    (hop : ah.operation ∉ ([5, 7, 8] : List Nat)) :
    ApplyDelta bitmap ah = none := by
  unfold ApplyDelta
  split <;> simp_all

theorem loadChunks_planes_none {rest : List Chunk} :
    ∀ (st : ILBMState), st.planes = none →
      (∀ c ∈ rest, (match c with
        | .bmhd _ _ => False
        | .dlta => False
        | _ => True)) →
      ∀ out, (loadChunks st rest).2 ≠ .ok (some out) := by
  induction rest with
  | nil =>
    intro st hp _ out
    simp [loadChunks, hp]
  | cons c cs ih =>
    intro st hp hall out
    have hc := hall c (by simp)
    have hcs : ∀ c ∈ cs, (match c with
        | Chunk.bmhd _ _ => False
        | Chunk.dlta => False
        | _ => True) := fun c hc => hall c (by simp [hc])
    cases c with
    | bmhd np comp => exact absurd hc (by simp)
    | dlta => exact absurd hc (by simp)
    | anhd op interleave bits reltime =>
      simp only [loadChunks]
      split
      · simp
      · exact ih { st with anheader := some ⟨op, interleave, bits, reltime⟩ } hp hcs out
    | body =>
      simp only [loadChunks, hp]
      simp
    | other =>
      simp only [loadChunks]
      exact ih _ hp hcs out

/-- **C8 (amended).** Error handling of the loader.  Within one ILBM
FORM, a delta record before any animation header, a delta record with
neither a bitmap header nor a history frame, a compression method
outside the two sanctioned values, and a header record with zero or an
unsupported plane count each abort that FORM immediately with a
diagnostic (the state — and with it the caller's history — is exactly
as it was when the failing record was reached), whatever records follow
in the FORM; no partial frame is emitted for the failing record, and
the plane-count check rejects at the header record itself, before any
delta is attempted.  An unrecognized delta operation code discards the
frame under construction (`ApplyDelta` yields `NULL` after its
interleave/delay stores) and the loader scans on within the FORM,
yielding no frame unless a later record re-establishes one.  None of
this ends the file: when a FORM's chunk loop fails, the `LoadANIM`
driver continues with the remaining ILBM FORMs, which can still produce
frames. -/
theorem loadILBM_error_handling :
    (∀ (st : ILBMState) (rest : List Chunk), st.anheader = none →
      loadChunks st (.dlta :: rest) =
        (st, .error "Delta chunk encountered before header")) ∧
    (∀ (st : ILBMState) (rest : List Chunk) (ah : AnimHeaderM),
      st.anheader = some ah → dltaSelect st ah = none →
      loadChunks st (.dlta :: rest) =
        (st, .error "Delta chunk encountered without any history")) ∧
    (∀ (st : ILBMState) (rest : List Chunk) (pv : PBitmap × Option Nat)
        (h : BitmapHeaderM),
      st.planes = some pv → st.header = some h → 1 < h.compression →
      loadChunks st (.body :: rest) =
        (st, .error "Unknown ILBM compression method")) ∧
    (∀ (st : ILBMState) (rest : List Chunk) (np comp : Nat),
      np = 0 ∨ (8 < np ∧ np ≠ 24 ∧ np ≠ 32) →
      loadChunks st (.bmhd np comp :: rest) =
        (st, .error "Invalid number of bitplanes")) ∧
    (∀ (bitmap : PBitmap) (ah : AnimHeaderM),
      ah.operation ∉ ([5, 7, 8] : List Nat) → ApplyDelta bitmap ah = none) ∧
    (∀ (st : ILBMState) (rest : List Chunk) (ah : AnimHeaderM)
        (pb : PBitmap) (tag : Option Nat),
      st.anheader = some ah → dltaSelect st ah = some (pb, tag) →
      ah.operation ∉ ([5, 7, 8] : List Nat) →
      loadChunks st (.dlta :: rest) =
        loadChunks
          { st.putPlanes (deltaHeaderFields pb ah) tag with planes := none } rest) ∧
    (∀ (st : ILBMState) (rest : List Chunk), st.planes = none →
      (∀ c ∈ rest, (match c with
        | .bmhd _ _ => False
        | .dlta => False
        | _ => True)) →
      ∀ out, (loadChunks st rest).2 ≠ .ok (some out)) ∧
    (∀ (hist : Option PBitmap × Option PBitmap) (f : List Chunk)
        (rest : List (List Chunk)) (msg : String) (st : ILBMState),
      loadChunks ⟨none, none, none, some hist⟩ f = (st, .error msg) →
      LoadANIM hist (f :: rest) = LoadANIM (st.history.getD hist) rest) := by
  refine ⟨?_, ?_, ?_, ?_, ApplyDelta_unknown, ?_,
    fun st rest => loadChunks_planes_none st, ?_⟩
  · intro st rest h
    simp [loadChunks, h]
  · intro st rest ah han hsel
    simp [loadChunks, han, hsel]
  · intro st rest pv h hp hh hc
    simp [loadChunks, hp, hh, hc]
  · intro st rest np comp h
    simp [loadChunks, h]
  · intro st rest ah pb tag han hsel hop
    simp [loadChunks, han, hsel, ApplyDelta_unknown pb ah hop]
  · intro hist f rest msg st h
    simp [LoadANIM, h]

/-- **C8 (counterexample).** The four diagnostics are fatal only to the
current ILBM FORM, not to the file: an ANIM whose first FORM is
rejected for an invalid plane count still yields the frame of the valid
self-contained FORM that follows it.  And within one FORM, an
unrecognized delta operation code does not stop the chunk scan: a later
header and body record still produce a frame. -/
theorem LoadANIM_continues_after_error :
    LoadANIM (none, none) [[.bmhd 0 0], [.bmhd 2 0, .body]] =
      [⟨2, 0, 0, [(0, 0)]⟩] ∧
    (loadChunks initILBMState
      [.bmhd 2 0, .anhd 9 0 0 0, .dlta, .bmhd 2 0, .body]).2 =
      .ok (some (⟨2, 0, 0, [(0, 0)]⟩, none)) ∧
    (9 : Nat) ∉ ([5, 7, 8] : List Nat) := by
  exact ⟨rfl, rfl, by decide⟩

/-- Witness for `loadILBM_error_handling`: a lone delta chunk with no
preceding animation header aborts its FORM immediately and leaves the
state untouched, and the driver then continues with the remaining
FORMs. -/
theorem loadILBM_error_handling_witness :
    loadChunks initILBMState [.dlta] =
      (initILBMState, .error "Delta chunk encountered before header") ∧
    LoadANIM (none, none) [[.dlta], [.bmhd 2 0, .body]] =
      LoadANIM (none, none) [[.bmhd 2 0, .body]] :=
  ⟨loadILBM_error_handling.1 initILBMState [] rfl,
   loadILBM_error_handling.2.2.2.2.2.2.2 (none, none) [.dlta]
     [[.bmhd 2 0, .body]] "Delta chunk encountered before header"
     initILBMState rfl⟩

/-! ### Minimum changed rectangle (C6) -/

theorem scanF_some {prev cur : List Nat} :
    ∀ n s j, scanF prev cur s n = some j →
      s ≤ j ∧ j < s + n ∧ pixDiff prev cur j = true ∧
      ∀ k, s ≤ k → k < j → pixDiff prev cur k = false := by
  intro n
  induction n with
  | zero => intro s j h; cases h
  | succ n ih =>
    intro s j h
    rw [scanF] at h
    split at h
    · rename_i hd
      cases h
      exact ⟨le_refl _, by omega, hd, fun k hk1 hk2 => absurd hk1 (by omega)⟩
    · rename_i hd
      obtain ⟨h1, h2, h3, h4⟩ := ih (s + 1) j h
      refine ⟨by omega, by omega, h3, fun k hk1 hk2 => ?_⟩
      rcases Nat.eq_or_lt_of_le hk1 with rfl | hlt
      · exact Bool.not_eq_true _ ▸ (by simpa using hd)
      · exact h4 k (by omega) hk2

theorem scanF_none {prev cur : List Nat} :
    ∀ n s, scanF prev cur s n = none →
      ∀ k, s ≤ k → k < s + n → pixDiff prev cur k = false := by
  intro n
  induction n with
  | zero => intro s _ k hk1 hk2; omega
  | succ n ih =>
    intro s h k hk1 hk2
    rw [scanF] at h
    split at h
    · cases h
    · rename_i hd
      rcases Nat.eq_or_lt_of_le hk1 with rfl | hlt
      · simpa using hd
      · exact ih (s + 1) h k (by omega) (by omega)

theorem scanB_spec {prev cur : List Nat} (floor : Nat) :
    ∀ e, floor ≤ e →
      floor ≤ scanB prev cur floor e ∧ scanB prev cur floor e ≤ e ∧
      (scanB prev cur floor e = floor ∨
        pixDiff prev cur (scanB prev cur floor e) = true) ∧
      ∀ k, scanB prev cur floor e < k → k ≤ e → pixDiff prev cur k = false := by
  intro e
  induction e with
  | zero =>
    intro hfe
    rw [scanB]
    exact ⟨hfe, le_refl _, Or.inl (by omega), fun k hk1 hk2 => by omega⟩
  | succ e ih =>
    intro hfe
    rw [scanB]
    split
    · rename_i hle
      exact ⟨by omega, le_refl _, Or.inl (by omega), fun k hk1 hk2 => by omega⟩
    · split
      · rename_i hd
        exact ⟨by omega, le_refl _, Or.inr hd, fun k hk1 hk2 => by omega⟩
      · rename_i hle hd
        obtain ⟨h1, h2, h3, h4⟩ := ih (by omega)
        refine ⟨h1, by omega, h3, fun k hk1 hk2 => ?_⟩
        rcases Nat.eq_or_lt_of_le hk2 with rfl | hlt
        · simpa using hd
        · exact h4 k hk1 (by omega)

theorem colDiff_iff {prev cur : List Nat} (w x : Nat) :
    ∀ n y, colDiff prev cur w x y n = true ↔
      ∃ yy, y ≤ yy ∧ yy < y + n ∧ pixDiff prev cur (yy * w + x) = true := by
  intro n
  induction n with
  | zero =>
    intro y
    rw [colDiff]
    simp only [Bool.false_eq_true, false_iff]
    rintro ⟨yy, h1, h2, _⟩
    omega
  | succ n ih =>
    intro y
    rw [colDiff, Bool.or_eq_true, ih (y + 1)]
    constructor
    · rintro (hd | ⟨yy, h1, h2, h3⟩)
      · exact ⟨y, le_refl _, by omega, hd⟩
      · exact ⟨yy, by omega, by omega, h3⟩
    · rintro ⟨yy, h1, h2, h3⟩
      rcases Nat.eq_or_lt_of_le h1 with rfl | hlt
      · exact Or.inl h3
      · exact Or.inr ⟨yy, by omega, by omega, h3⟩

theorem findLeft_spec {prev cur : List Nat} (w top rows : Nat) :
    ∀ n x,
      x ≤ findLeft prev cur w top rows x n ∧
      findLeft prev cur w top rows x n ≤ x + n ∧
      (findLeft prev cur w top rows x n < x + n →
        colDiff prev cur w (findLeft prev cur w top rows x n) top rows = true) ∧
      ∀ k, x ≤ k → k < findLeft prev cur w top rows x n →
        colDiff prev cur w k top rows = false := by
  intro n
  induction n with
  | zero =>
    intro x
    rw [findLeft]
    exact ⟨le_refl _, by omega, fun h => by omega, fun k hk1 hk2 => by omega⟩
  | succ n ih =>
    intro x
    rw [findLeft]
    split
    · rename_i hd
      exact ⟨le_refl _, by omega, fun _ => hd, fun k hk1 hk2 => by omega⟩
    · rename_i hd
      obtain ⟨h1, h2, h3, h4⟩ := ih (x + 1)
      refine ⟨by omega, by omega, fun h => h3 (by omega), fun k hk1 hk2 => ?_⟩
      rcases Nat.eq_or_lt_of_le hk1 with rfl | hlt
      · simpa using hd
      · exact h4 k (by omega) hk2

theorem findRight_spec {prev cur : List Nat} (w top rows : Nat) :
    ∀ x,
      findRight prev cur w top rows x ≤ x ∧
      (findRight prev cur w top rows x = 0 ∨
        colDiff prev cur w (findRight prev cur w top rows x) top rows = true) ∧
      ∀ k, findRight prev cur w top rows x < k → k ≤ x →
        colDiff prev cur w k top rows = false := by
  intro x
  induction x with
  | zero =>
    rw [findRight]
    exact ⟨le_refl _, Or.inl rfl, fun k hk1 hk2 => by omega⟩
  | succ x ih =>
    rw [findRight]
    split
    · rename_i hd
      exact ⟨le_refl _, Or.inr hd, fun k hk1 hk2 => by omega⟩
    · rename_i hd
      obtain ⟨h1, h2, h3⟩ := ih
      refine ⟨by omega, h2, fun k hk1 hk2 => ?_⟩
      rcases Nat.eq_or_lt_of_le hk2 with rfl | hlt
      · simpa using hd
      · exact h3 k hk1 (by omega)

/-- **C6.** For equal-sized buffers scanned with `Left = Top = 0` and
full `Width`/`Height`, `MinArea` returns exactly the bounding rectangle
of the changed positions (least and greatest changed row; least and
greatest changed column), and the degenerate 1x1 rectangle at the
origin when nothing changed. -/
theorem MinArea_bounding (prev cur : List Nat) (W H : Nat) (hW : 0 < W)
    (hH : 0 < H) (hp : prev.length = W * H) (hc : cur.length = W * H) :
    ((∀ i, ¬ ChangedAt prev cur W H i) →
      MinArea prev cur ⟨0, 0, W, H⟩ = ⟨0, 0, 1, 1⟩) ∧
    (∀ i0, ChangedAt prev cur W H i0 →
      (∃ j, ChangedAt prev cur W H j ∧
        j / W = (MinArea prev cur ⟨0, 0, W, H⟩).Top) ∧
      (∀ j, ChangedAt prev cur W H j →
        (MinArea prev cur ⟨0, 0, W, H⟩).Top ≤ j / W) ∧
      (∃ j, ChangedAt prev cur W H j ∧
        j / W = (MinArea prev cur ⟨0, 0, W, H⟩).Top +
          (MinArea prev cur ⟨0, 0, W, H⟩).Height - 1) ∧
      (∀ j, ChangedAt prev cur W H j →
        j / W ≤ (MinArea prev cur ⟨0, 0, W, H⟩).Top +
          (MinArea prev cur ⟨0, 0, W, H⟩).Height - 1) ∧
      (∃ j, ChangedAt prev cur W H j ∧
        j % W = (MinArea prev cur ⟨0, 0, W, H⟩).Left) ∧
      (∀ j, ChangedAt prev cur W H j →
        (MinArea prev cur ⟨0, 0, W, H⟩).Left ≤ j % W) ∧
      (∃ j, ChangedAt prev cur W H j ∧
        j % W = (MinArea prev cur ⟨0, 0, W, H⟩).Left +
          (MinArea prev cur ⟨0, 0, W, H⟩).Width - 1) ∧
      (∀ j, ChangedAt prev cur W H j →
        j % W ≤ (MinArea prev cur ⟨0, 0, W, H⟩).Left +
          (MinArea prev cur ⟨0, 0, W, H⟩).Width - 1)) := by
  have hch : ∀ j, ChangedAt prev cur W H j ↔
      (j < W * H ∧ pixDiff prev cur j = true) := by
    intro j
    unfold ChangedAt pixDiff
    simp
  constructor
  · intro hno
    cases hscan : scanF prev cur 0 (W * H) with
    | none =>
      simp only [MinArea]
      rw [hscan]
    | some j =>
      obtain ⟨_, hlt, hd, _⟩ := scanF_some _ _ _ hscan
      exact absurd ((hch j).mpr ⟨by omega, hd⟩) (hno j)
  · intro i0 hi0
    cases hscan : scanF prev cur 0 (W * H) with
    | none =>
      obtain ⟨hi1, hi2⟩ := (hch i0).mp hi0
      have := scanF_none _ _ hscan i0 (by omega) (by omega)
      rw [this] at hi2
      cases hi2
    | some start =>
      obtain ⟨-, hstartlt0, hstartd, hmin⟩ := scanF_some _ _ _ hscan
      have hstartlt : start < W * H := by omega
      have hWH : 0 < W * H := Nat.mul_pos hW hH
      obtain ⟨he1, he2, he3, he4⟩ :=
        @scanB_spec prev cur start (W * H - 1) (by omega)
      set e := scanB prev cur start (W * H - 1) with hedef
      set top := start / W with htopdef
      set bot := e / W with hbotdef
      set rows := bot + 1 - top with hrowsdef
      set left := findLeft prev cur W top rows 0 (W - 1) with hleftdef
      set right := findRight prev cur W top rows (W - 1) with hrightdef
      have hMA : MinArea prev cur ⟨0, 0, W, H⟩ =
          ⟨left, top, right - left + 1, bot - top + 1⟩ := by
        simp only [MinArea]
        rw [hscan]
      have hrange : ∀ j, ChangedAt prev cur W H j → start ≤ j ∧ j ≤ e := by
        intro j hj
        obtain ⟨hj1, hj2⟩ := (hch j).mp hj
        constructor
        · by_contra h
          push_neg at h
          rw [hmin j (by omega) (by omega)] at hj2
          cases hj2
        · by_contra h
          push_neg at h
          rw [he4 j h (by omega)] at hj2
          cases hj2
      have hstartch : ChangedAt prev cur W H start :=
        (hch start).mpr ⟨hstartlt, hstartd⟩
      have hech : ChangedAt prev cur W H e := by
        refine (hch e).mpr ⟨by omega, ?_⟩
        rcases he3 with h | h
        · rw [h]
          exact hstartd
        · exact h
      have htopbot : top ≤ bot := Nat.div_le_div_right he1
      have hbotH : bot < H := by
        rw [hbotdef]
        rw [Nat.div_lt_iff_lt_mul hW]
        have : W * H = H * W := Nat.mul_comm W H
        omega
      have hrowle : ∀ j, ChangedAt prev cur W H j → top ≤ j / W :=
        fun j hj => Nat.div_le_div_right (hrange j hj).1
      have hrowge : ∀ j, ChangedAt prev cur W H j → j / W ≤ bot :=
        fun j hj => Nat.div_le_div_right (hrange j hj).2
      have hCof : ∀ j, ChangedAt prev cur W H j →
          colDiff prev cur W (j % W) top rows = true := by
        intro j hj
        rw [colDiff_iff]
        refine ⟨j / W, hrowle j hj, ?_, ?_⟩
        · have := hrowge j hj
          omega
        · rw [show j / W * W + j % W = j from by
            rw [Nat.mul_comm]
            exact Nat.div_add_mod j W]
          exact ((hch j).mp hj).2
      have hofC : ∀ x, x < W → colDiff prev cur W x top rows = true →
          ∃ j, ChangedAt prev cur W H j ∧ j % W = x := by
        intro x hx hcd
        rw [colDiff_iff] at hcd
        obtain ⟨yy, hy1, hy2, hy3⟩ := hcd
        have hyH : yy < H := by omega
        have hidx : yy * W + x < W * H := by
          have hexp : (yy + 1) * W = yy * W + W := by ring
          have hle : (yy + 1) * W ≤ H * W := Nat.mul_le_mul_right W (by omega)
          have hcm : W * H = H * W := Nat.mul_comm W H
          omega
        refine ⟨yy * W + x, (hch _).mpr ⟨hidx, hy3⟩, ?_⟩
        rw [Nat.add_comm, Nat.add_mul_mod_self_right]
        exact Nat.mod_eq_of_lt hx
      obtain ⟨hl1, hl2, hl3, hl4⟩ :=
        @findLeft_spec prev cur W top rows (W - 1) 0
      obtain ⟨hr1, hr2, hr3⟩ :=
        @findRight_spec prev cur W top rows (W - 1)
      have hleftle : ∀ j, ChangedAt prev cur W H j → left ≤ j % W := by
        intro j hj
        by_contra hlt
        push_neg at hlt
        have := hl4 (j % W) (by omega) hlt
        rw [hCof j hj] at this
        cases this
      have hrightge : ∀ j, ChangedAt prev cur W H j → j % W ≤ right := by
        intro j hj
        by_contra hlt
        push_neg at hlt
        have hjW : j % W < W := Nat.mod_lt _ hW
        have := hr3 (j % W) hlt (by omega)
        rw [hCof j hj] at this
        cases this
      have hleftatt : ∃ j, ChangedAt prev cur W H j ∧ j % W = left := by
        rcases lt_or_ge left (0 + (W - 1)) with hcase | hcase
        · exact hofC left (by omega) (hl3 hcase)
        · refine ⟨start, hstartch, ?_⟩
          have h1 := hleftle start hstartch
          have h2 : start % W < W := Nat.mod_lt _ hW
          omega
      have hrightatt : ∃ j, ChangedAt prev cur W H j ∧ j % W = right := by
        rcases hr2 with h0 | hcd
        · refine ⟨start, hstartch, ?_⟩
          have := hrightge start hstartch
          omega
        · exact hofC right (by omega) hcd
      have hlr : left ≤ right := by
        have h1 := hleftle start hstartch
        have h2 := hrightge start hstartch
        omega
      rw [hMA]
      simp only []
      clear_value e top bot rows left right
      refine ⟨⟨start, hstartch, htopdef.symm⟩, hrowle,
        ⟨e, hech, by rw [← hbotdef]; omega⟩,
        fun j hj => ?_, ?_, hleftle, ?_, fun j hj => ?_⟩
      · have := hrowge j hj
        omega
      · obtain ⟨j, hj, hjl⟩ := hleftatt
        exact ⟨j, hj, hjl⟩
      · obtain ⟨j, hj, hjr⟩ := hrightatt
        exact ⟨j, hj, by omega⟩
      · have := hrightge j hj
        omega

/-- Witness for `MinArea_bounding` on a 2x2 frame pair differing at one
pixel. -/
theorem MinArea_bounding_witness :
    ∃ j, ChangedAt [0, 0, 0, 0] [0, 1, 0, 0] 2 2 j ∧
      j / 2 = (MinArea [0, 0, 0, 0] [0, 1, 0, 0] ⟨0, 0, 2, 2⟩).Top :=
  ((MinArea_bounding [0, 0, 0, 0] [0, 1, 0, 0] 2 2 (by decide) (by decide)
      (by decide) (by decide)).2 1 (by decide)).1

/-- Witness for `sortclips_spec` at a concrete clip list. -/
theorem sortclips_spec_witness :
    (sortclips [(1, 5), (6, 10), (20, 25)]).Pairwise ClipGap :=
  (sortclips_spec [(1, 5), (6, 10), (20, 25)] (by decide)).1


/-- **C7.** For every frame for which a transparent substitute color was
selected (`SelectTransparentColor` succeeded on the temporary-transparency
path of `MakeFrame`), the frame's pixel data is compressed twice — once
with unchanged pixels replaced by the substitute color and once without
substitution — the smaller of the two encodings is kept (a tie keeps the
non-substituted one), and the transparency flag bit is cleared (and the
transparent color zeroed) exactly when the non-substituted encoding
wins. -/
theorem MakeFrame_double_compress (queueTotal gceFlags gceTransColor : Nat)
    (prev cur : List Nat) (imd : ImageDescriptor)
    (pitchPrev pitchCur palSize mincodesize t : Nat)
    (hq : queueTotal ≠ 0)
    (hflagHi : Nat.land gceFlags 0x1C0 ≠ 0x80)
    (hflagLo : Nat.land gceFlags 1 = 0)
    (hsel : SelectTransparentColor prev cur imd pitchPrev pitchCur palSize =
      some t) :
    makeFrameLZW queueTotal false false gceFlags gceTransColor prev cur imd
        pitchPrev pitchCur palSize mincodesize =
      if (LZWCompress prev cur imd pitchPrev pitchCur mincodesize none).length ≤
          (LZWCompress prev cur imd pitchPrev pitchCur mincodesize
            (some t)).length then
        ⟨LZWCompress prev cur imd pitchPrev pitchCur mincodesize none,
          Nat.land (Nat.lor gceFlags 1) 0xFE, 0⟩
      else
        ⟨LZWCompress prev cur imd pitchPrev pitchCur mincodesize (some t),
          Nat.lor gceFlags 1, t⟩ := by
  unfold makeFrameLZW makeFrameTransSelect
  rw [if_neg (by simp [hq, hflagHi]), if_neg (by simp [hflagLo]), hsel]
  simp only []
  split
  · rfl
  · rfl

/-- Witness for `MakeFrame_double_compress` on a 2x1 frame pair whose
only change is pixel 1 turning to color 1 (substitute color 0). -/
theorem MakeFrame_double_compress_witness :
    makeFrameLZW 1 false false 0 0 [0, 0] [0, 1] ⟨0, 0, 2, 1⟩ 2 2 4 2 =
      if (LZWCompress [0, 0] [0, 1] ⟨0, 0, 2, 1⟩ 2 2 2 none).length ≤
          (LZWCompress [0, 0] [0, 1] ⟨0, 0, 2, 1⟩ 2 2 2 (some 0)).length then
        ⟨LZWCompress [0, 0] [0, 1] ⟨0, 0, 2, 1⟩ 2 2 2 none,
          Nat.land (Nat.lor 0 1) 0xFE, 0⟩
      else
        ⟨LZWCompress [0, 0] [0, 1] ⟨0, 0, 2, 1⟩ 2 2 2 (some 0),
          Nat.lor 0 1, 0⟩ :=
  MakeFrame_double_compress 1 0 0 [0, 0] [0, 1] ⟨0, 0, 2, 1⟩ 2 2 4 2 0
    (by decide) (by decide) (by decide) (by decide)

/-! ## Bit-stream, framing and simulation lemmas for the LZW roundtrip -/

theorem natBitsLE_zero_left (v : Nat) : natBitsLE 0 v = [] := rfl

theorem natBitsLE_succ (n v : Nat) :
    natBitsLE (n + 1) v = decide (v % 2 = 1) :: natBitsLE n (v / 2) := rfl

theorem natBitsLE_length (n v : Nat) : (natBitsLE n v).length = n := by
  induction n generalizing v with
  | zero => rfl
  | succ n ih => simp [natBitsLE_succ, ih]

theorem natBitsLE_zero (n : Nat) : natBitsLE n 0 = List.replicate n false := by
  induction n with
  | zero => rfl
  | succ n ih => simp [natBitsLE_succ, ih, List.replicate_succ]

theorem natBitsLE_add (k n a c : Nat) (h : a < 2 ^ k) :
    natBitsLE (k + n) (a + c * 2 ^ k) = natBitsLE k a ++ natBitsLE n c := by
  induction k generalizing a c with
  | zero =>
    interval_cases a
    simp [natBitsLE_zero_left]
  | succ k ih =>
    have hpos : 0 < 2 ^ k := Nat.pos_pow_of_pos k (by omega)
    have hv : a + c * 2 ^ (k + 1) = a + (c * 2 ^ k) * 2 := by ring
    have h2 : a < 2 ^ k * 2 := by
      have : 2 ^ (k + 1) = 2 ^ k * 2 := by ring
      omega
    rw [show k + 1 + n = (k + n) + 1 from by omega, natBitsLE_succ, natBitsLE_succ]
    have hm : (a + c * 2 ^ (k + 1)) % 2 = a % 2 := by
      rw [hv]; omega
    have hd : (a + c * 2 ^ (k + 1)) / 2 = a / 2 + c * 2 ^ k := by
      rw [hv]; omega
    rw [hm, hd, List.cons_append]
    congr 1
    exact ih (a / 2) c (by omega)

theorem natBitsLE_split (k n v : Nat) :
    natBitsLE (k + n) v = natBitsLE k (v % 2 ^ k) ++ natBitsLE n (v / 2 ^ k) := by
  have h := natBitsLE_add k n (v % 2 ^ k) (v / 2 ^ k)
    (Nat.mod_lt v (Nat.pos_pow_of_pos k (by omega)))
  rw [Nat.mod_add_div'] at h
  exact h

theorem natBitsLE_pad (k n v : Nat) (hk : k ≤ n) (hv : v < 2 ^ k) :
    natBitsLE n v = natBitsLE k v ++ List.replicate (n - k) false := by
  have h := natBitsLE_add k (n - k) v 0 hv
  rw [Nat.zero_mul, Nat.add_zero, natBitsLE_zero] at h
  have e : k + (n - k) = n := by omega
  rw [e] at h
  exact h

theorem lor_shift_add (a c k : Nat) (h : a < 2 ^ k) :
    a ||| (c <<< k) = a + c * 2 ^ k := by
  rw [Nat.shiftLeft_eq, Nat.or_comm, Nat.mul_comm c (2 ^ k),
    ← Nat.mul_add_lt_is_or h]
  omega

theorem readBits_zero_left (bits : List Bool) : readBits 0 bits = (0, bits) := rfl

theorem readBits_succ (n : Nat) (bits : List Bool) :
    readBits (n + 1) bits =
      ((if bits.headD false then 1 else 0) + 2 * (readBits n bits.tail).1,
        (readBits n bits.tail).2) := rfl

theorem readBits_exact (n code : Nat) (rest : List Bool) (h : code < 2 ^ n) :
    readBits n (natBitsLE n code ++ rest) = (code, rest) := by
  induction n generalizing code with
  | zero =>
    interval_cases code
    simp [natBitsLE_zero_left, readBits_zero_left]
  | succ n ih =>
    rw [natBitsLE_succ, List.cons_append, readBits_succ]
    simp only [List.headD_cons, List.tail_cons]
    rw [ih (code / 2) (by omega)]
    have h2 : code % 2 = 1 ∨ code % 2 = 0 := by omega
    rcases h2 with h2 | h2 <;> simp [h2] <;> omega

theorem readBits_zeros (n z : Nat) :
    (readBits n (List.replicate z false)).1 = 0 := by
  induction n generalizing z with
  | zero => rfl
  | succ n ih =>
    rw [readBits_succ]
    cases z with
    | zero => simpa using ih 0
    | succ z =>
      simp only [List.replicate_succ, List.headD_cons, List.tail_cons]
      simp [ih z]

theorem readBits_pad (n k v z : Nat) (hk : k ≤ n) (hv : v < 2 ^ k) :
    (readBits n (natBitsLE k v ++ List.replicate z false)).1 = v := by
  induction n generalizing k v z with
  | zero =>
    have hk0 : k = 0 := by omega
    subst hk0
    interval_cases v
    rfl
  | succ n ih =>
    cases k with
    | zero =>
      interval_cases v
      rw [natBitsLE_zero_left, List.nil_append]
      exact readBits_zeros (n + 1) z
    | succ k =>
      rw [natBitsLE_succ, List.cons_append, readBits_succ]
      simp only [List.headD_cons, List.tail_cons]
      rw [ih k (v / 2) z (by omega) (by omega)]
      have h2 : v % 2 = 1 ∨ v % 2 = 0 := by omega
      rcases h2 with h2 | h2 <;> simp [h2] <;> omega

theorem deframeGo_nil (fuel : Nat) : deframeGo fuel [] = [] := by
  cases fuel <;> rfl

theorem deframeGo_fuel (f1 : Nat) : ∀ (l : List Nat) (f2 : Nat),
    l.length ≤ f1 → l.length ≤ f2 → deframeGo f1 l = deframeGo f2 l := by
  induction f1 with
  | zero =>
    intro l f2 h1 _
    have : l = [] := by
      cases l with
      | nil => rfl
      | cons a t => simp at h1
    subst this
    rw [deframeGo_nil, deframeGo_nil]
  | succ f1 ih =>
    intro l f2 h1 h2
    cases l with
    | nil => rw [deframeGo_nil, deframeGo_nil]
    | cons n rest =>
      cases f2 with
      | zero => simp at h2
      | succ f2 =>
        show (if n = 0 then [] else rest.take n ++ deframeGo f1 (rest.drop n)) =
          (if n = 0 then [] else rest.take n ++ deframeGo f2 (rest.drop n))
        by_cases hn : n = 0
        · simp [hn]
        · rw [if_neg hn, if_neg hn]
          have hlen : (rest.drop n).length ≤ rest.length := by
            simp [List.length_drop]
          simp only [List.length_cons] at h1 h2
          rw [ih (rest.drop n) f2 (by omega) (by omega)]

theorem deframe_cons_block (b : List Nat) (rest : List Nat) (hne : b ≠ []) :
    deframe (b.length :: (b ++ rest)) = b ++ deframe rest := by
  have hb : b.length ≠ 0 := by simpa using hne
  show deframeGo (b.length :: (b ++ rest)).length (b.length :: (b ++ rest)) =
    b ++ deframe rest
  have : deframeGo ((b.length :: (b ++ rest)).length) (b.length :: (b ++ rest)) =
      if b.length = 0 then [] else
        (b ++ rest).take b.length ++
          deframeGo (b.length + rest.length) ((b ++ rest).drop b.length) := by
    simp [deframeGo, List.length_append]
  rw [this, if_neg hb, List.take_left, List.drop_left]
  congr 1
  exact deframeGo_fuel _ rest _ (by omega) (le_refl _)

theorem blockJoin_nil : blockJoin [] = [] := rfl

theorem blockJoin_cons (b : List Nat) (bs : List (List Nat)) :
    blockJoin (b :: bs) = b.length :: (b ++ blockJoin bs) := by
  simp [blockJoin]

theorem blockJoin_append (bs1 bs2 : List (List Nat)) :
    blockJoin (bs1 ++ bs2) = blockJoin bs1 ++ blockJoin bs2 := by
  simp [blockJoin]

theorem deframe_blockJoin (blocks : List (List Nat)) (rest : List Nat)
    (h : ∀ b ∈ blocks, b ≠ []) :
    deframe (blockJoin blocks ++ rest) = blocks.flatten ++ deframe rest := by
  induction blocks with
  | nil => simp [blockJoin_nil]
  | cons b bs ih =>
    rw [blockJoin_cons, List.cons_append, List.append_assoc,
      deframe_cons_block b _ (h b (by simp)),
      ih (fun x hx => h x (by simp [hx]))]
    simp

theorem deframe_term : deframe [0] = [] := rfl

theorem bytesBits_nil : bytesBits [] = [] := rfl

theorem bytesBits_append (l1 l2 : List Nat) :
    bytesBits (l1 ++ l2) = bytesBits l1 ++ bytesBits l2 := by
  simp [bytesBits]

theorem bytesBits_singleton (b : Nat) : bytesBits [b] = natBitsLE 8 b := by
  simp [bytesBits]

theorem Dump_ctrl (s : CodeStream) :
    (s.Dump).ClearCode = s.ClearCode ∧ (s.Dump).EOICode = s.EOICode ∧
    (s.Dump).NextCode = s.NextCode ∧ (s.Dump).Match = s.Match ∧
    (s.Dump).CodeSize = s.CodeSize ∧ (s.Dump).MinCodeSize = s.MinCodeSize ∧
    (s.Dump).Dict = s.Dict ∧ (s.Dump).BitPos = s.BitPos ∧
    (s.Dump).Accum = s.Accum := by
  unfold CodeStream.Dump
  split <;> exact ⟨rfl, rfl, rfl, rfl, rfl, rfl, rfl, rfl, rfl⟩

theorem dumpAccumGo_succ (stop fuel : Nat) (s : CodeStream) :
    dumpAccumGo stop (fuel + 1) s =
      if stop < s.BitPos then
        dumpAccumGo stop fuel
          (if (s.Chunk ++ [s.Accum % 256]).length = 255 then
            CodeStream.Dump { s with Chunk := s.Chunk ++ [s.Accum % 256], Accum := s.Accum / 256, BitPos := s.BitPos - 8 }
          else { s with Chunk := s.Chunk ++ [s.Accum % 256], Accum := s.Accum / 256, BitPos := s.BitPos - 8 })
      else s := rfl

theorem dumpAccumGo_ctrl (stop : Nat) : ∀ (fuel : Nat) (s : CodeStream),
    (dumpAccumGo stop fuel s).ClearCode = s.ClearCode ∧
    (dumpAccumGo stop fuel s).EOICode = s.EOICode ∧
    (dumpAccumGo stop fuel s).NextCode = s.NextCode ∧
    (dumpAccumGo stop fuel s).Match = s.Match ∧
    (dumpAccumGo stop fuel s).CodeSize = s.CodeSize ∧
    (dumpAccumGo stop fuel s).MinCodeSize = s.MinCodeSize ∧
    (dumpAccumGo stop fuel s).Dict = s.Dict := by
  intro fuel
  induction fuel with
  | zero => exact fun s => ⟨rfl, rfl, rfl, rfl, rfl, rfl, rfl⟩
  | succ fuel ih =>
    intro s
    rw [dumpAccumGo_succ]
    by_cases h : stop < s.BitPos
    · rw [if_pos h]
      split
      · obtain ⟨i1, i2, i3, i4, i5, i6, i7⟩ := ih _
        obtain ⟨d1, d2, d3, d4, d5, d6, d7, _, _⟩ := Dump_ctrl _
        exact ⟨by rw [i1, d1], by rw [i2, d2], by rw [i3, d3], by rw [i4, d4],
          by rw [i5, d5], by rw [i6, d6], by rw [i7, d7]⟩
      · obtain ⟨i1, i2, i3, i4, i5, i6, i7⟩ := ih _
        exact ⟨by rw [i1], by rw [i2], by rw [i3], by rw [i4],
          by rw [i5], by rw [i6], by rw [i7]⟩
    · rw [if_neg h]
      exact ⟨rfl, rfl, rfl, rfl, rfl, rfl, rfl⟩

theorem Dump_emit (s : CodeStream) (bits : List Bool) (h : EmitInv s bits) :
    EmitInv s.Dump bits := by
  obtain ⟨hacc, blocks, hne, hcodes, hbits⟩ := h
  unfold CodeStream.Dump
  split
  · rename_i hlen
    refine ⟨hacc, blocks ++ [s.Chunk], ?_, ?_, ?_⟩
    · intro b hb
      rcases List.mem_append.mp hb with hb | hb
      · exact hne b hb
      · rcases List.mem_singleton.mp hb with rfl
        intro hnil
        rw [hnil] at hlen
        simp at hlen
    · rw [blockJoin_append, ← hcodes]
      simp [blockJoin]
    · rw [hbits]
      simp
  · exact ⟨hacc, blocks, hne, hcodes, hbits⟩

theorem dumpAccumGo7_emit : ∀ (fuel : Nat) (s : CodeStream) (bits : List Bool),
    EmitInv s bits → s.BitPos ≤ fuel + 7 →
    EmitInv (dumpAccumGo 7 fuel s) bits ∧ (dumpAccumGo 7 fuel s).BitPos ≤ 7 := by
  intro fuel
  induction fuel with
  | zero =>
    intro s bits h hle
    exact ⟨h, hle⟩
  | succ fuel ih =>
    intro s bits h hle
    rw [dumpAccumGo_succ]
    by_cases hg : 7 < s.BitPos
    · rw [if_pos hg]
      obtain ⟨hacc, blocks, hne, hcodes, hbits⟩ := h
      have hsplit : natBitsLE s.BitPos s.Accum =
          natBitsLE 8 (s.Accum % 256) ++ natBitsLE (s.BitPos - 8) (s.Accum / 256) := by
        have h8 : s.BitPos = 8 + (s.BitPos - 8) := by omega
        rw [h8, natBitsLE_split 8 (s.BitPos - 8) s.Accum]
        norm_num
      have hacc2 : s.Accum / 256 < 2 ^ (s.BitPos - 8) := by
        have he : (2 : Nat) ^ s.BitPos = 2 ^ (s.BitPos - 8) * 256 := by
          rw [show s.BitPos = (s.BitPos - 8) + 8 from by omega, pow_add]
          norm_num
        rw [he] at hacc
        omega
      have hinv2 : EmitInv { s with Chunk := s.Chunk ++ [s.Accum % 256], Accum := s.Accum / 256, BitPos := s.BitPos - 8 } bits := by
        refine ⟨hacc2, blocks, hne, hcodes, ?_⟩
        rw [hbits, hsplit]
        simp only []
        rw [← List.append_assoc, ← bytesBits_singleton, ← List.append_assoc, ← bytesBits_append]
      split
      · have hinv3 := Dump_emit _ bits hinv2
        obtain ⟨_, _, _, _, _, _, _, hbp, _⟩ := Dump_ctrl { s with Chunk := s.Chunk ++ [s.Accum % 256], Accum := s.Accum / 256, BitPos := s.BitPos - 8 }
        refine ih _ bits hinv3 ?_
        rw [hbp]
        simp only []
        omega
      · refine ih _ bits hinv2 ?_
        simp only []
        omega
    · rw [if_neg hg]
      exact ⟨h, by omega⟩

theorem dumpAccumGo0_emit : ∀ (fuel : Nat) (s : CodeStream) (bits : List Bool),
    EmitInv s bits → s.BitPos ≤ fuel →
    ∃ z, EmitInv (dumpAccumGo 0 fuel s) (bits ++ List.replicate z false) ∧
      (dumpAccumGo 0 fuel s).BitPos = 0 ∧ (dumpAccumGo 0 fuel s).Accum = 0 := by
  intro fuel
  induction fuel with
  | zero =>
    intro s bits h hle
    have hs : dumpAccumGo 0 0 s = s := rfl
    have hb0 : s.BitPos = 0 := by omega
    have ha0 : s.Accum = 0 := by
      have h1 := h.1
      rw [hb0] at h1
      simpa using h1
    refine ⟨0, by simpa [hs] using h, by rw [hs, hb0], by rw [hs, ha0]⟩
  | succ fuel ih =>
    intro s bits h hle
    rw [dumpAccumGo_succ]
    by_cases hg : 0 < s.BitPos
    · rw [if_pos hg]
      obtain ⟨hacc, blocks, hne, hcodes, hbits⟩ := h
      by_cases h8 : 8 ≤ s.BitPos
      · -- a full byte is flushed, no padding introduced
        have hsplit : natBitsLE s.BitPos s.Accum =
            natBitsLE 8 (s.Accum % 256) ++ natBitsLE (s.BitPos - 8) (s.Accum / 256) := by
          rw [show s.BitPos = 8 + (s.BitPos - 8) from by omega,
            natBitsLE_split 8 (s.BitPos - 8) s.Accum]
          norm_num
        have hacc2 : s.Accum / 256 < 2 ^ (s.BitPos - 8) := by
          have he : (2 : Nat) ^ s.BitPos = 2 ^ (s.BitPos - 8) * 256 := by
            rw [show s.BitPos = (s.BitPos - 8) + 8 from by omega, pow_add]
            norm_num
          rw [he] at hacc
          omega
        have hinv2 : EmitInv { s with Chunk := s.Chunk ++ [s.Accum % 256], Accum := s.Accum / 256, BitPos := s.BitPos - 8 } bits := by
          refine ⟨hacc2, blocks, hne, hcodes, ?_⟩
          rw [hbits, hsplit]
          simp only []
          rw [← List.append_assoc, ← bytesBits_singleton, ← List.append_assoc, ← bytesBits_append]
        split
        · have hinv3 := Dump_emit _ bits hinv2
          obtain ⟨_, _, _, _, _, _, _, hbp, _⟩ := Dump_ctrl { s with Chunk := s.Chunk ++ [s.Accum % 256], Accum := s.Accum / 256, BitPos := s.BitPos - 8 }
          refine ih _ bits hinv3 ?_
          rw [hbp]
          simp only []
          omega
        · refine ih _ bits hinv2 ?_
          simp only []
          omega
      · -- a final partial byte is flushed, padded with zero bits
        have hlt : s.Accum < 256 := by
          have : (2 : Nat) ^ s.BitPos ≤ 2 ^ 8 := Nat.pow_le_pow_right (by omega) (by omega)
          omega
        have hmod : s.Accum % 256 = s.Accum := Nat.mod_eq_of_lt hlt
        have hdiv : s.Accum / 256 = 0 := Nat.div_eq_of_lt hlt
        have hbp0 : s.BitPos - 8 = 0 := by omega
        have hpad : natBitsLE 8 s.Accum =
            natBitsLE s.BitPos s.Accum ++ List.replicate (8 - s.BitPos) false :=
          natBitsLE_pad s.BitPos 8 s.Accum (by omega) hacc
        have hinv2 : EmitInv { s with Chunk := s.Chunk ++ [s.Accum % 256], Accum := s.Accum / 256, BitPos := s.BitPos - 8 } (bits ++ List.replicate (8 - s.BitPos) false) := by
          refine ⟨by simp [hdiv, hbp0], blocks, hne, hcodes, ?_⟩
          simp only [hmod, hdiv, hbp0]
          rw [hbits]
          simp [bytesBits_append, bytesBits_singleton, natBitsLE_zero_left, hpad]
        split
        · have hinv3 := Dump_emit _ _ hinv2
          obtain ⟨_, _, _, _, _, _, _, hbp, _⟩ := Dump_ctrl { s with Chunk := s.Chunk ++ [s.Accum % 256], Accum := s.Accum / 256, BitPos := s.BitPos - 8 }
          obtain ⟨z, hz, hb0, ha0⟩ := ih _ _ hinv3 (by rw [hbp]; simp only []; omega)
          refine ⟨(8 - s.BitPos) + z, ?_, hb0, ha0⟩
          rw [List.append_assoc, ← List.replicate_add] at hz
          exact hz
        · obtain ⟨z, hz, hb0, ha0⟩ := ih _ _ hinv2 (by simp only []; omega)
          refine ⟨(8 - s.BitPos) + z, ?_, hb0, ha0⟩
          rw [List.append_assoc, ← List.replicate_add] at hz
          exact hz
    · rw [if_neg hg]
      have hb0 : s.BitPos = 0 := by omega
      refine ⟨0, by simpa using h, hb0, ?_⟩
      have := h.1
      rw [hb0] at this
      simpa using this

theorem DumpAccum_eq (s : CodeStream) (full : Bool) :
    s.DumpAccum full = dumpAccumGo (if full then 0 else 7) s.BitPos s := rfl

theorem WriteCode_eq (s : CodeStream) (c : Nat) :
    s.WriteCode c =
      (if c = (CodeStream.DumpAccum { s with Accum := s.Accum ||| (c <<< s.BitPos), BitPos := s.BitPos + s.CodeSize } false).ClearCode then
        (CodeStream.DumpAccum { s with Accum := s.Accum ||| (c <<< s.BitPos), BitPos := s.BitPos + s.CodeSize } false).ResetDict
      else
        CodeStream.DumpAccum { s with Accum := s.Accum ||| (c <<< s.BitPos), BitPos := s.BitPos + s.CodeSize } false) := rfl

theorem DumpAccum_false_ctrl (s : CodeStream) :
    ((s.DumpAccum false).ClearCode = s.ClearCode ∧
     (s.DumpAccum false).EOICode = s.EOICode ∧
     (s.DumpAccum false).NextCode = s.NextCode ∧
     (s.DumpAccum false).Match = s.Match ∧
     (s.DumpAccum false).CodeSize = s.CodeSize ∧
     (s.DumpAccum false).MinCodeSize = s.MinCodeSize ∧
     (s.DumpAccum false).Dict = s.Dict) := by
  rw [DumpAccum_eq]
  exact dumpAccumGo_ctrl _ _ _

theorem WriteCode_eq_noclear (s : CodeStream) (c : Nat) (hne : c ≠ s.ClearCode) :
    s.WriteCode c =
      CodeStream.DumpAccum { s with Accum := s.Accum ||| (c <<< s.BitPos), BitPos := s.BitPos + s.CodeSize } false := by
  rw [WriteCode_eq, if_neg]
  intro he
  exact hne (he.trans (DumpAccum_false_ctrl _).1)

theorem WriteCode_eq_clear (s : CodeStream) (c : Nat) (hc : c = s.ClearCode) :
    s.WriteCode c =
      (CodeStream.DumpAccum { s with Accum := s.Accum ||| (c <<< s.BitPos), BitPos := s.BitPos + s.CodeSize } false).ResetDict := by
  rw [WriteCode_eq, if_pos]
  have h1 := (DumpAccum_false_ctrl { s with Accum := s.Accum ||| (c <<< s.BitPos), BitPos := s.BitPos + s.CodeSize }).1
  rw [h1]
  exact hc

theorem WriteCode_ctrl (s : CodeStream) (c : Nat) (hne : c ≠ s.ClearCode) :
    (s.WriteCode c).ClearCode = s.ClearCode ∧
    (s.WriteCode c).EOICode = s.EOICode ∧
    (s.WriteCode c).NextCode = s.NextCode ∧
    (s.WriteCode c).Match = s.Match ∧
    (s.WriteCode c).CodeSize = s.CodeSize ∧
    (s.WriteCode c).MinCodeSize = s.MinCodeSize ∧
    (s.WriteCode c).Dict = s.Dict := by
  rw [WriteCode_eq_noclear s c hne]
  exact DumpAccum_false_ctrl _

theorem WriteCode_clear_ctrl (s : CodeStream) (c : Nat) (hc : c = s.ClearCode) :
    (s.WriteCode c).ClearCode = s.ClearCode ∧
    (s.WriteCode c).EOICode = s.EOICode ∧
    (s.WriteCode c).NextCode = s.EOICode + 1 ∧
    (s.WriteCode c).Match = -1 ∧
    (s.WriteCode c).CodeSize = s.MinCodeSize + 1 ∧
    (s.WriteCode c).MinCodeSize = s.MinCodeSize ∧
    (s.WriteCode c).Dict =
      (List.range (1 <<< s.MinCodeSize)).map (fun i => (i, i)) := by
  rw [WriteCode_eq_clear s c hc]
  obtain ⟨h1, h2, h3, h4, h5, h6, h7⟩ := DumpAccum_false_ctrl
    { s with Accum := s.Accum ||| (c <<< s.BitPos), BitPos := s.BitPos + s.CodeSize }
  unfold CodeStream.ResetDict
  refine ⟨h1, h2, ?_, rfl, ?_, h6, ?_⟩
  · show _ + 1 = _ + 1
    rw [h2]
  · show _ + 1 = _ + 1
    rw [h6]
  · show (List.range (1 <<< _)).map _ = _
    rw [h6]

theorem WriteCode_emit (s : CodeStream) (bits : List Bool) (c : Nat)
    (h : EmitInv s bits) (hc : c < 2 ^ s.CodeSize) :
    EmitInv (s.WriteCode c) (bits ++ natBitsLE s.CodeSize c) ∧
      (s.WriteCode c).BitPos ≤ 7 := by
  obtain ⟨hacc, blocks, hne, hcodes, hbits⟩ := h
  have hlor : s.Accum ||| (c <<< s.BitPos) = s.Accum + c * 2 ^ s.BitPos :=
    lor_shift_add s.Accum c s.BitPos hacc
  have hbound : s.Accum + c * 2 ^ s.BitPos < 2 ^ (s.BitPos + s.CodeSize) := by
    have h1 : s.Accum + c * 2 ^ s.BitPos < (c + 1) * 2 ^ s.BitPos := by
      have : 0 < 2 ^ s.BitPos := Nat.pos_pow_of_pos _ (by omega)
      calc s.Accum + c * 2 ^ s.BitPos < 2 ^ s.BitPos + c * 2 ^ s.BitPos := by omega
        _ = (c + 1) * 2 ^ s.BitPos := by ring
    have h2 : (c + 1) * 2 ^ s.BitPos ≤ 2 ^ s.CodeSize * 2 ^ s.BitPos :=
      Nat.mul_le_mul_right _ (by omega)
    have h3 : (2 : Nat) ^ s.CodeSize * 2 ^ s.BitPos = 2 ^ (s.BitPos + s.CodeSize) := by
      rw [← pow_add]
      ring_nf
    omega
  have hinv1 : EmitInv { s with Accum := s.Accum ||| (c <<< s.BitPos), BitPos := s.BitPos + s.CodeSize } (bits ++ natBitsLE s.CodeSize c) := by
    refine ⟨?_, blocks, hne, hcodes, ?_⟩
    · simp only [hlor]
      exact hbound
    · simp only [hlor]
      rw [natBitsLE_add s.BitPos s.CodeSize s.Accum c hacc, hbits]
      simp [List.append_assoc]
  have hmain := dumpAccumGo7_emit
    ({ s with Accum := s.Accum ||| (c <<< s.BitPos), BitPos := s.BitPos + s.CodeSize }).BitPos
    { s with Accum := s.Accum ||| (c <<< s.BitPos), BitPos := s.BitPos + s.CodeSize }
    (bits ++ natBitsLE s.CodeSize c) hinv1 (Nat.le_add_right _ 7)
  rw [WriteCode_eq]
  split
  · exact hmain
  · exact hmain

theorem strOfE_lit (mcs : Nat) (table : List (List Nat)) (pend : Option (List Nat))
    (c : Nat) (h : c < 2 ^ mcs) : strOfE mcs table pend c = some [c] := by
  unfold strOfE
  rw [if_pos h]

theorem strOfE_cases (mcs : Nat) (table : List (List Nat)) (pend : Option (List Nat))
    (c : Nat) (w : List Nat) (h : strOfE mcs table pend c = some w) :
    (c < 2 ^ mcs ∧ w = [c]) ∨
      (2 ^ mcs + 2 ≤ c ∧ c ≤ 2 ^ mcs + 2 + table.length) := by
  unfold strOfE at h
  split at h
  · rename_i h1
    exact Or.inl ⟨h1, by injection h with h; exact h.symm⟩
  · split at h
    · exact absurd h (by simp)
    · split at h
      · rename_i h1 h2 h3
        exact Or.inr ⟨by omega, by omega⟩
      · rename_i h1 h2 h3
        obtain ⟨hlt, _⟩ := List.get?_eq_some.mp h
        exact Or.inr ⟨by omega, by omega⟩

theorem strOfE_tbl (mcs : Nat) (table : List (List Nat)) (pend : Option (List Nat))
    (c : Nat) (h1 : 2 ^ mcs + 2 ≤ c) (h2 : c < 2 ^ mcs + 2 + table.length) :
    strOfE mcs table pend c = table.get? (c - (2 ^ mcs + 2)) := by
  unfold strOfE
  rw [if_neg (by omega), if_neg (by omega), if_neg (by omega)]

theorem strOfE_pend (mcs : Nat) (table : List (List Nat)) (pend : Option (List Nat)) :
    strOfE mcs table pend (2 ^ mcs + 2 + table.length) = pend := by
  unfold strOfE
  rw [if_neg (by omega), if_neg (by omega), if_pos rfl]

theorem strOfE_ne_nil (mcs : Nat) (table : List (List Nat)) (prev : Option (List Nat))
    (mstr : List Nat) (c : Nat) (w : List Nat)
    (htne : ∀ t ∈ table, t ≠ [])
    (h : strOfE mcs table (pendStr prev mstr) c = some w) : w ≠ [] := by
  unfold strOfE at h
  split at h
  · injection h with h
    rw [← h]
    simp
  · split at h
    · exact absurd h (by simp)
    · split at h
      · unfold pendStr at h
        cases prev with
        | none => exact absurd h (by simp)
        | some q =>
          have h2 : some (q ++ [mstr.headD 0]) = some w := h
          injection h2 with h2
          rw [← h2]
          simp
      · exact htne w (List.get?_mem h)

theorem strOfE_snoc (mcs : Nat) (table : List (List Nat)) (w : List Nat)
    (pendNew : Option (List Nat)) (c : Nat)
    (hc : c ≤ 2 ^ mcs + 2 + table.length) :
    strOfE mcs (table ++ [w]) pendNew c = strOfE mcs table (some w) c := by
  unfold strOfE
  by_cases h1 : c < 2 ^ mcs
  · rw [if_pos h1, if_pos h1]
  · rw [if_neg h1, if_neg h1]
    by_cases h2 : c < 2 ^ mcs + 2
    · rw [if_pos h2, if_pos h2]
    · rw [if_neg h2, if_neg h2]
      by_cases h3 : c = 2 ^ mcs + 2 + table.length
      · rw [if_neg (by simp; omega), if_pos h3]
        rw [List.get?_append_right (by omega)]
        have he : c - (2 ^ mcs + 2) - table.length = 0 := by omega
        rw [he]
        rfl
      · rw [if_neg (by simp; omega), if_neg h3]
        rw [List.get?_append (by omega)]

theorem strKey_eq_add (m p : Nat) (hm : m < 2 ^ 16) (hp : p < 2 ^ 8) :
    strKey m p = m + p * 2 ^ 16 + 2 ^ 24 := by
  unfold strKey
  rw [lor_shift_add m p 16 hm]
  have hb : m + p * 2 ^ 16 < 2 ^ 24 := by
    have : p * 2 ^ 16 ≤ (2 ^ 8 - 1) * 2 ^ 16 := Nat.mul_le_mul_right _ (by omega)
    norm_num at this ⊢
    omega
  rw [lor_shift_add _ 1 24 hb]
  omega

theorem strKey_inj (m1 p1 m2 p2 : Nat) (hm1 : m1 < 2 ^ 16) (hp1 : p1 < 2 ^ 8)
    (hm2 : m2 < 2 ^ 16) (hp2 : p2 < 2 ^ 8)
    (h : strKey m1 p1 = strKey m2 p2) : m1 = m2 ∧ p1 = p2 := by
  rw [strKey_eq_add m1 p1 hm1 hp1, strKey_eq_add m2 p2 hm2 hp2] at h
  norm_num at h hm1 hp1 hm2 hp2
  omega

theorem lookup_cons (k k' v : Nat) (l : List (Nat × Nat)) :
    List.lookup k ((k', v) :: l) = if k = k' then some v else List.lookup k l := by
  by_cases h : k = k'
  · rw [if_pos h]
    simp [List.lookup, h]
  · rw [if_neg h]
    have hb : (k == k') = false := by simpa using h
    simp [List.lookup, hb]

theorem lookup_selfmap_none (k : Nat) : ∀ (l : List Nat), (∀ i ∈ l, i ≠ k) →
    List.lookup k (l.map (fun i => (i, i))) = none := by
  intro l
  induction l with
  | nil => intro _; rfl
  | cons a t ih =>
    intro h
    show List.lookup k ((a, a) :: t.map (fun i => (i, i))) = none
    rw [lookup_cons, if_neg (fun he => (h a (by simp)) he.symm)]
    exact ih (fun i hi => h i (by simp [hi]))

theorem fresh_dict_lookup (n m p : Nat) (hn : n ≤ 2 ^ 24) (hm : m < 2 ^ 16)
    (hp : p < 2 ^ 8) :
    List.lookup (strKey m p) ((List.range n).map (fun i => (i, i))) = none := by
  apply lookup_selfmap_none
  intro i hi
  rw [List.mem_range] at hi
  rw [strKey_eq_add m p hm hp]
  omega

theorem dec_succ (mcs fuel : Nat) (bits : List Bool) (cs next : Nat)
    (prev : Option (List Nat)) (table : List (List Nat)) (acc : List Nat) :
    lzwDecodeGo mcs (fuel + 1) bits cs next prev table acc =
      (if (readBits cs bits).1 = 2 ^ mcs then
        lzwDecodeGo mcs fuel (readBits cs bits).2 (mcs + 1) (2 ^ mcs + 2) none [] acc
      else if (readBits cs bits).1 = 2 ^ mcs + 1 then some acc
      else if (readBits cs bits).1 < 2 ^ mcs then
        match prev with
        | none => lzwDecodeGo mcs fuel (readBits cs bits).2 cs next
            (some [(readBits cs bits).1]) table (acc ++ [(readBits cs bits).1])
        | some pstr =>
          lzwDecodeGo mcs fuel (readBits cs bits).2
            (if next + 1 = 2 ^ cs ∧ cs < 12 then cs + 1 else cs) (next + 1)
            (some [(readBits cs bits).1]) (table ++ [pstr ++ [(readBits cs bits).1]])
            (acc ++ [(readBits cs bits).1])
      else
        match prev with
        | none => none
        | some pstr =>
          if (readBits cs bits).1 < next then
            match codeStr mcs table (readBits cs bits).1 with
            | none => none
            | some w =>
              lzwDecodeGo mcs fuel (readBits cs bits).2
                (if next + 1 = 2 ^ cs ∧ cs < 12 then cs + 1 else cs) (next + 1)
                (some w) (table ++ [pstr ++ [w.headD 0]]) (acc ++ w)
          else if (readBits cs bits).1 = next then
            lzwDecodeGo mcs fuel (readBits cs bits).2
              (if next + 1 = 2 ^ cs ∧ cs < 12 then cs + 1 else cs) (next + 1)
              (some (pstr ++ [pstr.headD 0])) (table ++ [pstr ++ [pstr.headD 0]])
              (acc ++ (pstr ++ [pstr.headD 0]))
          else none) := rfl

theorem dec_step_clear (mcs fuel : Nat) (bits : List Bool) (cs next : Nat)
    (prev : Option (List Nat)) (table : List (List Nat)) (acc : List Nat)
    (rest : List Bool) (hread : readBits cs bits = (2 ^ mcs, rest)) :
    lzwDecodeGo mcs (fuel + 1) bits cs next prev table acc =
      lzwDecodeGo mcs fuel rest (mcs + 1) (2 ^ mcs + 2) none [] acc := by
  rw [dec_succ, hread]
  rw [if_pos rfl]

theorem dec_step_eoi (mcs fuel : Nat) (bits : List Bool) (cs next : Nat)
    (prev : Option (List Nat)) (table : List (List Nat)) (acc : List Nat)
    (rest : List Bool) (hread : (readBits cs bits).1 = 2 ^ mcs + 1) :
    lzwDecodeGo mcs (fuel + 1) bits cs next prev table acc = some acc := by
  rw [dec_succ, hread]
  rw [if_neg (by omega), if_pos rfl]

theorem dec_step_lit_none (mcs fuel : Nat) (bits : List Bool) (cs next : Nat)
    (table : List (List Nat)) (acc : List Nat) (v : Nat)
    (rest : List Bool) (hread : readBits cs bits = (v, rest)) (hv : v < 2 ^ mcs) :
    lzwDecodeGo mcs (fuel + 1) bits cs next none table acc =
      lzwDecodeGo mcs fuel rest cs next (some [v]) table (acc ++ [v]) := by
  rw [dec_succ, hread]
  rw [if_neg (by omega), if_neg (by omega), if_pos hv]

theorem dec_step_lit_some (mcs fuel : Nat) (bits : List Bool) (cs next : Nat)
    (pstr : List Nat) (table : List (List Nat)) (acc : List Nat) (v : Nat)
    (rest : List Bool) (hread : readBits cs bits = (v, rest)) (hv : v < 2 ^ mcs) :
    lzwDecodeGo mcs (fuel + 1) bits cs next (some pstr) table acc =
      lzwDecodeGo mcs fuel rest
        (if next + 1 = 2 ^ cs ∧ cs < 12 then cs + 1 else cs) (next + 1)
        (some [v]) (table ++ [pstr ++ [v]]) (acc ++ [v]) := by
  rw [dec_succ, hread]
  rw [if_neg (by omega), if_neg (by omega), if_pos hv]

theorem dec_step_tbl (mcs fuel : Nat) (bits : List Bool) (cs next : Nat)
    (pstr : List Nat) (table : List (List Nat)) (acc : List Nat) (v : Nat)
    (w : List Nat) (rest : List Bool) (hread : readBits cs bits = (v, rest))
    (hv1 : 2 ^ mcs + 2 ≤ v) (hv2 : v < next)
    (hw : codeStr mcs table v = some w) :
    lzwDecodeGo mcs (fuel + 1) bits cs next (some pstr) table acc =
      lzwDecodeGo mcs fuel rest
        (if next + 1 = 2 ^ cs ∧ cs < 12 then cs + 1 else cs) (next + 1)
        (some w) (table ++ [pstr ++ [w.headD 0]]) (acc ++ w) := by
  rw [dec_succ, hread]
  rw [if_neg (by omega), if_neg (by omega), if_neg (by omega)]
  show (if v < next then _ else _) = _
  rw [if_pos hv2, hw]

theorem dec_step_kwk (mcs fuel : Nat) (bits : List Bool) (cs next : Nat)
    (pstr : List Nat) (table : List (List Nat)) (acc : List Nat)
    (rest : List Bool) (hread : readBits cs bits = (next, rest))
    (hv1 : 2 ^ mcs + 2 ≤ next) :
    lzwDecodeGo mcs (fuel + 1) bits cs next (some pstr) table acc =
      lzwDecodeGo mcs fuel rest
        (if next + 1 = 2 ^ cs ∧ cs < 12 then cs + 1 else cs) (next + 1)
        (some (pstr ++ [pstr.headD 0])) (table ++ [pstr ++ [pstr.headD 0]])
        (acc ++ (pstr ++ [pstr.headD 0])) := by
  rw [dec_succ, hread]
  rw [if_neg (by omega), if_neg (by omega), if_neg (by omega)]
  show (if next < next then _ else _) = _
  rw [if_neg (by omega), if_pos rfl]

theorem codeStr_eq_strOfE (mcs : Nat) (table : List (List Nat))
    (pend : Option (List Nat)) (c : Nat)
    (hc : c < 2 ^ mcs ∨ (2 ^ mcs + 2 ≤ c ∧ c < 2 ^ mcs + 2 + table.length)) :
    codeStr mcs table c = strOfE mcs table pend c := by
  unfold codeStr strOfE
  rcases hc with hc | ⟨hc1, hc2⟩
  · rw [if_pos hc, if_pos hc]
  · rw [if_neg (by omega), if_neg (by omega), if_neg (by omega), if_neg (by omega)]

theorem AddByte_neg (s : CodeStream) (p : Nat) (h : s.Match < 0) :
    s.AddByte p = { s with Match := (p : Int) } := by
  unfold CodeStream.AddByte
  rw [if_pos h]

theorem AddByte_hit (s : CodeStream) (p c : Nat) (h : ¬s.Match < 0)
    (hl : List.lookup (strKey s.Match.toNat p) s.Dict = some c) :
    s.AddByte p = { s with Match := (c : Int) } := by
  unfold CodeStream.AddByte
  rw [if_neg h]
  show (match List.lookup (strKey s.Match.toNat p) s.Dict with
    | some code => { s with Match := (code : Int) }
    | none => _) = _
  rw [hl]

theorem AddByte_miss (s : CodeStream) (p : Nat) (h : ¬s.Match < 0)
    (hl : List.lookup (strKey s.Match.toNat p) s.Dict = none) :
    s.AddByte p =
      (let s1 := s.WriteCode s.Match.toNat
       let s2 := { s1 with
         Dict := (strKey s.Match.toNat p, s1.NextCode) :: s1.Dict,
         NextCode := s1.NextCode + 1 }
       let s3 :=
         if s2.NextCode = CODE_LIMIT then s2.WriteCode s2.ClearCode
         else if s2.NextCode = (1 <<< s2.CodeSize) + 1 then
           { s2 with CodeSize := s2.CodeSize + 1 }
         else s2
       { s3 with Match := (p : Int) }) := by
  unfold CodeStream.AddByte
  rw [if_neg h]
  show (match List.lookup (strKey s.Match.toNat p) s.Dict with
    | some code => { s with Match := (code : Int) }
    | none => _) = _
  rw [hl]

theorem finish_eq (s : CodeStream) :
    s.finish =
      (let s1 := if 0 ≤ s.Match then s.WriteCode s.Match.toNat else s
       let s2 := s1.WriteCode s1.EOICode
       { (s2.DumpAccum true).Dump with
         Codes := ((s2.DumpAccum true).Dump).Codes ++ [0] }) := rfl

theorem Dump_chunk_nil (s : CodeStream) : (s.Dump).Chunk = [] := by
  unfold CodeStream.Dump
  split
  · rfl
  · rename_i h
    have : s.Chunk.length = 0 := by omega
    exact List.length_eq_zero.mp this

theorem flush_bytes (s : CodeStream) (bits : List Bool) (h : EmitInv s bits) :
    ∃ z, bytesBits (deframe (((s.DumpAccum true).Dump).Codes ++ [0])) =
      bits ++ List.replicate z false := by
  have hda : s.DumpAccum true = dumpAccumGo 0 s.BitPos s := rfl
  obtain ⟨z, hinv, hbp, hacc⟩ := dumpAccumGo0_emit s.BitPos s bits h (le_refl _)
  rw [← hda] at hinv hbp hacc
  have hd := Dump_emit _ _ hinv
  obtain ⟨_, blocks, hbne, hbc, hbb⟩ := hd
  obtain ⟨_, _, _, _, _, _, _, hdbp, hdacc⟩ := Dump_ctrl (s.DumpAccum true)
  refine ⟨z, ?_⟩
  rw [hbc, deframe_blockJoin blocks [0] hbne, deframe_term, List.append_nil]
  rw [Dump_chunk_nil, hdbp, hbp, hdacc, hacc, List.append_nil,
    natBitsLE_zero_left, List.append_nil] at hbb
  exact hbb.symm

theorem snoc_inj {α : Type} (a b : List α) (x y : α) (h : a ++ [x] = b ++ [y]) :
    a = b ∧ x = y := by
  have h2 := congrArg List.reverse h
  simp only [List.reverse_append, List.reverse_cons, List.reverse_nil,
    List.nil_append, List.cons_append, List.singleton_append] at h2
  injection h2 with h3 h4
  refine ⟨?_, h3⟩
  have := congrArg List.reverse h4
  simpa using this

theorem sim_hmm {mcs : Nat} {s : CodeStream} {cs next : Nat}
    {prev : Option (List Nat)} {table : List (List Nat)} {mstr : List Nat}
    (hsim : Sim mcs s cs next prev table mstr) (hmge : 0 ≤ s.Match) :
    strOfE mcs table (pendStr prev mstr) s.Match.toNat = some mstr := by
  rcases hsim.hmatch with ⟨h1, _, _⟩ | ⟨_, h2⟩
  · rw [h1] at hmge
    exact absurd hmge (by norm_num)
  · exact h2

theorem sim_match_lt {mcs : Nat} {s : CodeStream} {cs next : Nat}
    {prev : Option (List Nat)} {table : List (List Nat)} {mstr : List Nat}
    (hsim : Sim mcs s cs next prev table mstr) (hmge : 0 ≤ s.Match) :
    s.Match.toNat < s.NextCode := by
  have hmm := sim_hmm hsim hmge
  have hbase := hsim.hbase
  have hlag := hsim.hlag
  rcases strOfE_cases _ _ _ _ _ hmm with ⟨h1, _⟩ | ⟨h1, h3⟩
  · have hle : next ≤ s.NextCode := by rw [hlag]; exact Nat.le_add_right _ _
    omega
  · cases prev with
    | none =>
      have ht : table = [] := hsim.hfresh rfl
      subst ht
      have hlen : List.length ([] : List (List Nat)) = 0 := rfl
      have he : s.Match.toNat = 2 ^ mcs + 2 := by omega
      rw [he] at hmm
      rw [show (2 : Nat) ^ mcs + 2 =
        2 ^ mcs + 2 + List.length ([] : List (List Nat)) from by simp] at hmm
      rw [strOfE_pend] at hmm
      exact absurd hmm (by simp [pendStr])
    | some q =>
      have hl2 : s.NextCode = next + 1 := hlag
      omega

theorem sim_match_kind {mcs : Nat} {s : CodeStream} {cs next : Nat}
    {prev : Option (List Nat)} {table : List (List Nat)} {mstr : List Nat}
    (hsim : Sim mcs s cs next prev table mstr) (hmge : 0 ≤ s.Match) :
    s.Match.toNat < 2 ^ mcs ∨ 2 ^ mcs + 2 ≤ s.Match.toNat := by
  rcases strOfE_cases _ _ _ _ _ (sim_hmm hsim hmge) with ⟨h1, _⟩ | ⟨h1, _⟩
  · exact Or.inl h1
  · exact Or.inr h1

theorem strOfE_fresh (mcs : Nat) (mstr : List Nat) (c : Nat) (w : List Nat)
    (h : strOfE mcs [] (pendStr none mstr) c = some w) :
    c < 2 ^ mcs ∧ w = [c] := by
  rcases strOfE_cases _ _ _ _ _ h with ⟨h1, h2⟩ | ⟨h1, h3⟩
  · exact ⟨h1, h2⟩
  · simp at h3
    have he : c = 2 ^ mcs + 2 := by omega
    rw [he, show (2 : Nat) ^ mcs + 2 =
      2 ^ mcs + 2 + List.length ([] : List (List Nat)) from by simp] at h
    rw [strOfE_pend] at h
    exact absurd h (by simp [pendStr])

theorem Sim_fresh (mcs : Nat) (h2 : 2 ≤ mcs) (h8 : mcs ≤ 8) (s' : CodeStream)
    (mstr : List Nat)
    (hclear' : s'.ClearCode = 2 ^ mcs) (heoi' : s'.EOICode = 2 ^ mcs + 1)
    (hmincs' : s'.MinCodeSize = mcs) (hcs' : s'.CodeSize = mcs + 1)
    (hnext' : s'.NextCode = 2 ^ mcs + 2)
    (hdict' : s'.Dict = (List.range (1 <<< mcs)).map (fun i => (i, i)))
    (hm : (s'.Match = -1 ∧ mstr = []) ∨
      (0 ≤ s'.Match ∧ s'.Match.toNat < 2 ^ mcs ∧ mstr = [s'.Match.toNat])) :
    Sim mcs s' (mcs + 1) (2 ^ mcs + 2) none [] mstr := by
  have hm8 : (2 : Nat) ^ mcs ≤ 2 ^ 8 := Nat.pow_le_pow_right (by omega) h8
  have hm256 : (2 : Nat) ^ mcs ≤ 256 := by norm_num at hm8; exact hm8
  have hpow : (2 : Nat) ^ (mcs + 1) = 2 * 2 ^ mcs := by rw [pow_succ]; ring
  have hm4 : (4 : Nat) ≤ 2 ^ mcs := by
    calc (4 : Nat) = 2 ^ 2 := by norm_num
    _ ≤ 2 ^ mcs := Nat.pow_le_pow_right (by omega) h2
  refine ⟨hclear', heoi', hmincs', hcs', le_refl _, by simp [hnext'], by simp,
    by omega, by rw [hnext', hpow]; omega,
    fun _ => rfl, fun q hq => by simp at hq, fun t ht => by simp at ht,
    ?_, ?_, ?_, ?_, ?_, ?_⟩
  · rcases hm with ⟨h1, h2m⟩ | ⟨h1, h2m, h3m⟩
    · exact Or.inl ⟨h1, h2m, rfl⟩
    · refine Or.inr ⟨h1, ?_⟩
      rw [h3m]
      exact strOfE_lit _ _ _ _ h2m
  · intro m p c hmlt hp
    rw [hdict']
    rw [fresh_dict_lookup (1 <<< mcs) m p
      (by rw [Nat.shiftLeft_eq]; norm_num; omega) (by norm_num; omega)
      (by norm_num; omega)]
    constructor
    · intro h
      exact absurd h (by simp)
    · rintro ⟨sm, _, hc, hge⟩
      have := (strOfE_fresh mcs mstr c _ hc).1
      omega
  · intro c1 c2 w1 w2 hc1 hc2 he
    obtain ⟨_, hw1⟩ := strOfE_fresh mcs mstr c1 _ hc1
    obtain ⟨_, hw2⟩ := strOfE_fresh mcs mstr c2 _ hc2
    rw [hw1, hw2] at he
    injection he with h5 h6
  · intro c w hge hc
    have := (strOfE_fresh mcs mstr c _ hc).1
    omega
  · intro c w hge hc
    have := (strOfE_fresh mcs mstr c _ hc).1
    omega
  · intro q hq
    exact absurd hq (by simp)

theorem strOfE_fresh_pend (mcs : Nat) (q mstr : List Nat) (c : Nat) (w : List Nat)
    (h : strOfE mcs [] (pendStr (some q) mstr) c = some w) :
    (c < 2 ^ mcs ∧ w = [c]) ∨
      (c = 2 ^ mcs + 2 ∧ w = q ++ [mstr.headD 0]) := by
  rcases strOfE_cases _ _ _ _ _ h with ⟨h1, h2⟩ | ⟨h1, h3⟩
  · exact Or.inl ⟨h1, h2⟩
  · simp at h3
    have he : c = 2 ^ mcs + 2 := by omega
    rw [he, show (2 : Nat) ^ mcs + 2 =
      2 ^ mcs + 2 + List.length ([] : List (List Nat)) from by simp] at h
    rw [strOfE_pend] at h
    have h4 : some (q ++ [mstr.headD 0]) = some w := h
    injection h4 with h4
    exact Or.inr ⟨he, h4.symm⟩

theorem pow_ne_base (mcs cs : Nat) (h2 : 2 ≤ mcs) (hcs : 2 ≤ cs) :
    2 ^ mcs + 2 ≠ 2 ^ cs := by
  have d1 : (4 : Nat) ∣ 2 ^ mcs := by
    have : (2 : Nat) ^ 2 ∣ 2 ^ mcs := pow_dvd_pow 2 h2
    norm_num at this
    exact this
  have d2 : (4 : Nat) ∣ 2 ^ cs := by
    have : (2 : Nat) ^ 2 ∣ 2 ^ cs := pow_dvd_pow 2 hcs
    norm_num at this
    exact this
  omega

theorem Sim_step_miss_none (mcs : Nat) (h2 : 2 ≤ mcs) (h8 : mcs ≤ 8)
    (s s' : CodeStream) (cs next : Nat) (table : List (List Nat))
    (mstr : List Nat) (p : Nat) (hp : p < 2 ^ mcs)
    (hsim : Sim mcs s cs next none table mstr)
    (hmge : 0 ≤ s.Match)
    (hdict' : s'.Dict = (strKey s.Match.toNat p, s.NextCode) :: s.Dict)
    (hnext' : s'.NextCode = s.NextCode + 1)
    (hmatch' : s'.Match = (p : Int))
    (hclear' : s'.ClearCode = s.ClearCode) (heoi' : s'.EOICode = s.EOICode)
    (hmincs' : s'.MinCodeSize = s.MinCodeSize) (hcs' : s'.CodeSize = s.CodeSize) :
    Sim mcs s' cs next (some [s.Match.toNat]) table [p] := by
  have ht : table = [] := hsim.hfresh rfl
  subst ht
  have hm8 : (2 : Nat) ^ mcs ≤ 2 ^ 8 := Nat.pow_le_pow_right (by omega) h8
  have hm256 : (2 : Nat) ^ mcs ≤ 256 := by norm_num at hm8; exact hm8
  have hm4 : (4 : Nat) ≤ 2 ^ mcs := by
    calc (4 : Nat) = 2 ^ 2 := by norm_num
    _ ≤ 2 ^ mcs := Nat.pow_le_pow_right (by omega) h2
  have hlagO : s.NextCode = next := hsim.hlag
  have hbaseO : next = 2 ^ mcs + 2 := by
    have := hsim.hbase
    simpa using this
  have hmm := sim_hmm hsim hmge
  obtain ⟨hmlit, hmstr⟩ := strOfE_fresh mcs mstr s.Match.toNat mstr hmm
  have hm16 : s.Match.toNat < 2 ^ 16 := by norm_num; omega
  have hp8 : p < 2 ^ 8 := by norm_num; omega
  have hcslo := hsim.hcslo
  have hfitO := hsim.hfit
  have hfit' : s'.NextCode ≤ 2 ^ cs := by
    have hne := pow_ne_base mcs cs h2 (by omega)
    omega
  have hpend : pendStr (some [s.Match.toNat]) [p] =
      some ([s.Match.toNat] ++ [p]) := rfl
  have hsE : strOfE mcs [] (pendStr (some [s.Match.toNat]) [p]) (2 ^ mcs + 2) =
      some ([s.Match.toNat] ++ [p]) := by
    rw [show (2 : Nat) ^ mcs + 2 =
      2 ^ mcs + 2 + List.length ([] : List (List Nat)) from by simp]
    rw [strOfE_pend]
    rfl
  refine ⟨hclear'.trans hsim.hclear, heoi'.trans hsim.heoi,
    hmincs'.trans hsim.hmincs, hcs'.trans hsim.hcs, hcslo,
    by rw [hnext', hlagO]; simp, by simpa using hbaseO,
    by omega, hfit',
    by intro h; exact absurd h (by simp), ?_, fun t ht => by simp at ht,
    ?_, ?_, ?_, ?_, ?_, ?_⟩
  · intro q hq
    injection hq with hq
    rw [← hq]
    simp
  · refine Or.inr ⟨by rw [hmatch']; exact Int.ofNat_nonneg p, ?_⟩
    have htn : s'.Match.toNat = p := by rw [hmatch']; simp
    rw [htn]
    exact strOfE_lit _ _ _ _ hp
  · -- hdict
    intro m' p' c' hm' hp'
    rw [hdict', lookup_cons]
    by_cases hkey : strKey m' p' = strKey s.Match.toNat p
    · rw [if_pos hkey]
      obtain ⟨hme, hpe⟩ := strKey_inj m' p' s.Match.toNat p
        (by norm_num; omega) (by norm_num; omega) hm16 hp8 hkey
      constructor
      · intro h
        injection h with h
        refine ⟨[m'], strOfE_lit _ _ _ _ (by rw [hme]; exact hmlit), ?_, by omega⟩
        rw [← h, hlagO, hbaseO, hme, hpe]
        exact hsE
      · rintro ⟨sm, hsm, hc', hge⟩
        rcases strOfE_fresh_pend mcs [s.Match.toNat] [p] c' _ hc' with ⟨hl, _⟩ | ⟨he, hw⟩
        · omega
        · rw [hlagO, hbaseO, he]
    · rw [if_neg hkey]
      constructor
      · intro h
        obtain ⟨sm, hsm, hc', hge⟩ := (hsim.hdict m' p' c' hm' hp').mp h
        have := (strOfE_fresh mcs mstr c' _ hc').1
        omega
      · rintro ⟨sm, hsm, hc', hge⟩
        rcases strOfE_fresh_pend mcs [s.Match.toNat] [p] c' _ hc' with ⟨hl, _⟩ | ⟨he, hw⟩
        · omega
        · have hw2 : sm ++ [p'] = [s.Match.toNat] ++ [p] := by
            rw [hw]
            simp
          obtain ⟨hsm2, hp2⟩ := snoc_inj _ _ _ _ hw2
          rcases strOfE_fresh_pend mcs [s.Match.toNat] [p] m' _ hsm with ⟨hl2, hwm⟩ | ⟨he2, hwm⟩
          · rw [hwm] at hsm2
            injection hsm2 with hme
            exact absurd (by rw [hme, hp2]) hkey
          · rw [hwm] at hsm2
            have hlen := congrArg List.length hsm2
            simp at hlen
  · -- hinj
    intro c1 c2 w1 w2 hc1 hc2 he
    rcases strOfE_fresh_pend mcs [s.Match.toNat] [p] c1 _ hc1 with ⟨hl1, hw1⟩ | ⟨he1, hw1⟩ <;>
      rcases strOfE_fresh_pend mcs [s.Match.toNat] [p] c2 _ hc2 with ⟨hl2, hw2⟩ | ⟨he2, hw2⟩
    · rw [hw1, hw2] at he
      injection he with h5 h6
    · rw [hw1, hw2] at he
      have hlen := congrArg List.length he
      simp at hlen
    · rw [hw1, hw2] at he
      have hlen := congrArg List.length he
      simp at hlen
    · omega
  · -- hlen2
    intro c w hge hc
    rcases strOfE_fresh_pend mcs [s.Match.toNat] [p] c _ hc with ⟨hl, _⟩ | ⟨he, hw⟩
    · omega
    · rw [hw]
      simp
  · -- hclosed
    intro c w hge hc
    rcases strOfE_fresh_pend mcs [s.Match.toNat] [p] c _ hc with ⟨hl, _⟩ | ⟨he, hw⟩
    · omega
    · refine ⟨s.Match.toNat, [s.Match.toNat], p, strOfE_lit _ _ _ _ hmlit, ?_⟩
      rw [hw]
      simp
  · -- hprevcode
    intro q hq
    injection hq with hq
    refine ⟨s.Match.toNat, ?_⟩
    rw [← hq]
    exact strOfE_lit _ _ _ _ hmlit

theorem Sim_step_miss_some (mcs : Nat) (h2 : 2 ≤ mcs) (h8 : mcs ≤ 8)
    (s s' : CodeStream) (cs next : Nat) (pstr : List Nat)
    (table : List (List Nat)) (mstr : List Nat) (p : Nat) (hp : p < 2 ^ mcs)
    (hsim : Sim mcs s cs next (some pstr) table mstr)
    (hmge : 0 ≤ s.Match)
    (hmiss : List.lookup (strKey s.Match.toNat p) s.Dict = none)
    (hcs' : s'.CodeSize = if next + 1 = 2 ^ cs ∧ cs < 12 then cs + 1 else cs)
    (hdict' : s'.Dict = (strKey s.Match.toNat p, s.NextCode) :: s.Dict)
    (hnext' : s'.NextCode = s.NextCode + 1)
    (hmatch' : s'.Match = (p : Int))
    (hclear' : s'.ClearCode = s.ClearCode) (heoi' : s'.EOICode = s.EOICode)
    (hmincs' : s'.MinCodeSize = s.MinCodeSize)
    (hnoclear : s.NextCode + 1 ≠ 4096) :
    Sim mcs s' (if next + 1 = 2 ^ cs ∧ cs < 12 then cs + 1 else cs) (next + 1)
      (some mstr) (table ++ [pstr ++ [mstr.headD 0]]) [p] := by
  have hmm := sim_hmm hsim hmge
  have hmne : mstr ≠ [] := strOfE_ne_nil _ _ _ _ _ _ hsim.htne hmm
  have hpsne : pstr ≠ [] := hsim.hpne pstr rfl
  have hlagO : s.NextCode = next + 1 := hsim.hlag
  have hbaseO : next = 2 ^ mcs + 2 + table.length := hsim.hbase
  have hmlt : s.Match.toNat < s.NextCode := sim_match_lt hsim hmge
  have hmle : s.Match.toNat ≤ next := by omega
  have hmaxO : s.NextCode < 4096 := hsim.hmax
  have hfitO : s.NextCode ≤ 2 ^ cs := hsim.hfit
  have hm16 : s.Match.toNat < 2 ^ 16 := by norm_num; omega
  have hm256 : (2 : Nat) ^ mcs ≤ 256 := by
    have : (2 : Nat) ^ mcs ≤ 2 ^ 8 := Nat.pow_le_pow_right (by omega) h8
    norm_num at this
    exact this
  have hp8 : p < 2 ^ 8 := by norm_num; omega
  have hcsloO : mcs + 1 ≤ cs := hsim.hcslo
  have hE1 : ∀ c, c ≤ next →
      strOfE mcs (table ++ [pstr ++ [mstr.headD 0]]) (pendStr (some mstr) [p]) c =
      strOfE mcs table (pendStr (some pstr) mstr) c := by
    intro c hc
    exact strOfE_snoc mcs table (pstr ++ [mstr.headD 0]) _ c (by omega)
  have hlenT : (table ++ [pstr ++ [mstr.headD 0]]).length = table.length + 1 := by
    simp
  have hE2 : strOfE mcs (table ++ [pstr ++ [mstr.headD 0]])
      (pendStr (some mstr) [p]) (next + 1) = some (mstr ++ [p]) := by
    have h := strOfE_pend mcs (table ++ [pstr ++ [mstr.headD 0]])
      (pendStr (some mstr) [p])
    rw [hlenT, show 2 ^ mcs + 2 + (table.length + 1) = next + 1 from by omega] at h
    exact h
  have hEC : ∀ c w, strOfE mcs (table ++ [pstr ++ [mstr.headD 0]])
      (pendStr (some mstr) [p]) c = some w →
      c ≤ next ∨ c = next + 1 := by
    intro c w hc
    rcases strOfE_cases _ _ _ _ _ hc with ⟨h1, _⟩ | ⟨h1, h3⟩
    · left
      omega
    · rw [hlenT] at h3
      omega
  have hECO : ∀ c w, strOfE mcs table (pendStr (some pstr) mstr) c = some w →
      c ≤ next := by
    intro c w hc
    rcases strOfE_cases _ _ _ _ _ hc with ⟨h1, _⟩ | ⟨h1, h3⟩
    · omega
    · omega
  have hcs'' : cs ≤ (if next + 1 = 2 ^ cs ∧ cs < 12 then cs + 1 else cs) := by
    split <;> omega
  refine ⟨hclear'.trans hsim.hclear, heoi'.trans hsim.heoi,
    hmincs'.trans hsim.hmincs, hcs', by omega, by rw [hnext', hlagO]; simp,
    by rw [hlenT]; omega, by omega, ?_,
    by intro h; exact absurd h (by simp), ?_, ?_, ?_, ?_, ?_, ?_, ?_, ?_⟩
  · -- hfit
    rw [hnext', hlagO]
    split
    · rename_i hb
      obtain ⟨hb1, _⟩ := hb
      rw [pow_succ]
      omega
    · rename_i hb
      rw [Decidable.not_and_iff_or_not] at hb
      rcases hb with hb | hb
      · omega
      · push_neg at hb
        have : (2 : Nat) ^ 12 ≤ 2 ^ cs := Nat.pow_le_pow_right (by omega) (by omega)
        norm_num at this
        omega
  · -- hpne
    intro q hq
    injection hq with hq
    rw [← hq]
    exact hmne
  · -- htne
    intro t ht
    rcases List.mem_append.mp ht with ht | ht
    · exact hsim.htne t ht
    · rcases List.mem_singleton.mp ht with rfl
      simp
  · -- hmatch
    refine Or.inr ⟨by rw [hmatch']; exact Int.ofNat_nonneg p, ?_⟩
    have htn : s'.Match.toNat = p := by rw [hmatch']; simp
    rw [htn]
    exact strOfE_lit _ _ _ _ hp
  · -- hdict
    intro m' p' c' hm' hp'
    rw [hdict', lookup_cons]
    by_cases hkey : strKey m' p' = strKey s.Match.toNat p
    · rw [if_pos hkey]
      obtain ⟨hme, hpe⟩ := strKey_inj m' p' s.Match.toNat p
        (by norm_num; omega) (by norm_num; omega) hm16 hp8 hkey
      constructor
      · intro h
        injection h with h
        refine ⟨mstr, ?_, ?_, by omega⟩
        · rw [hme, hE1 _ hmle]
          exact hmm
        · rw [← h, hlagO, hpe, hE2]
      · rintro ⟨sm, hsm, hc', hge⟩
        have hsm2 : sm = mstr := by
          rw [hme, hE1 _ hmle, hmm] at hsm
          injection hsm with hsm
          exact hsm.symm
        rw [hsm2, hpe] at hc'
        rcases hEC c' _ hc' with hcle | hceq
        · rw [hE1 _ hcle] at hc'
          have := (hsim.hdict s.Match.toNat p c' (by omega) hp).mpr
            ⟨mstr, hmm, hc', hge⟩
          rw [hmiss] at this
          exact absurd this (by simp)
        · rw [hlagO, hceq]
    · rw [if_neg hkey]
      constructor
      · intro h
        obtain ⟨sm, hsm, hc', hge⟩ := (hsim.hdict m' p' c' hm' hp').mp h
        have hcle := hECO c' _ hc'
        have hmle' := hECO m' _ hsm
        exact ⟨sm, by rw [hE1 _ hmle']; exact hsm, by rw [hE1 _ hcle]; exact hc', hge⟩
      · rintro ⟨sm, hsm, hc', hge⟩
        rcases hEC m' _ hsm with hmle' | hmeq
        · rw [hE1 _ hmle'] at hsm
          rcases hEC c' _ hc' with hcle | hceq
          · rw [hE1 _ hcle] at hc'
            exact (hsim.hdict m' p' c' hm' hp').mpr ⟨sm, hsm, hc', hge⟩
          · rw [hceq, hE2] at hc'
            have h3 : some (mstr ++ [p]) = some (sm ++ [p']) := hc'
            injection h3 with h3
            obtain ⟨hsme, hppe⟩ := snoc_inj _ _ _ _ h3
            have hm'm : m' = s.Match.toNat :=
              hsim.hinj m' s.Match.toNat sm mstr hsm hmm hsme.symm
            exact absurd (by rw [hm'm, hppe.symm]) hkey
        · rw [hmeq, hE2] at hsm
          have h3 : sm = mstr ++ [p] := by
            injection hsm with h4
            exact h4.symm
          rcases hEC c' _ hc' with hcle | hceq
          · rw [hE1 _ hcle, h3] at hc'
            obtain ⟨c0, w0, q, hc0, hdec⟩ :=
              hsim.hclosed c' _ hge hc'
            obtain ⟨hw0, hq⟩ := snoc_inj _ _ _ _ hdec
            have hc0ge : 2 ^ mcs + 2 ≤ c0 := by
              rcases strOfE_cases _ _ _ _ _ hc0 with ⟨h5, h6⟩ | ⟨h5, _⟩
              · rw [← hw0] at h6
                have hlen := congrArg List.length h6
                rw [List.length_append] at hlen
                simp only [List.length_singleton] at hlen
                have hz : mstr.length ≠ 0 := fun hz => hmne (List.length_eq_zero.mp hz)
                omega
              · exact h5
            rw [← hw0] at hc0
            have := (hsim.hdict s.Match.toNat p c0 (by omega) hp).mpr
              ⟨mstr, hmm, hc0, hc0ge⟩
            rw [hmiss] at this
            exact absurd this (by simp)
          · rw [hceq, hE2, h3] at hc'
            have h5 : mstr ++ [p] = mstr ++ [p] ++ [p'] := by
              injection hc' with h6
            have hlen := congrArg List.length h5
            simp at hlen
  · -- hinj
    intro c1 c2 w1 w2 hc1 hc2 he
    rcases hEC c1 _ hc1 with h1le | h1eq <;> rcases hEC c2 _ hc2 with h2le | h2eq
    · rw [hE1 _ h1le] at hc1
      rw [hE1 _ h2le] at hc2
      exact hsim.hinj c1 c2 w1 w2 hc1 hc2 he
    · rw [hE1 _ h1le] at hc1
      rw [h2eq, hE2] at hc2
      have hw2 : w2 = mstr ++ [p] := by injection hc2 with h4; exact h4.symm
      rw [he, hw2] at hc1
      have hc1ge : 2 ^ mcs + 2 ≤ c1 := by
        rcases strOfE_cases _ _ _ _ _ hc1 with ⟨h5, h6⟩ | ⟨h5, _⟩
        · have hlen := congrArg List.length h6
          rw [List.length_append] at hlen
          simp only [List.length_singleton] at hlen
          have hz : mstr.length ≠ 0 := fun hz => hmne (List.length_eq_zero.mp hz)
          omega
        · exact h5
      have := (hsim.hdict s.Match.toNat p c1 (by omega) hp).mpr
        ⟨mstr, hmm, hc1, hc1ge⟩
      rw [hmiss] at this
      exact absurd this (by simp)
    · rw [hE1 _ h2le] at hc2
      rw [h1eq, hE2] at hc1
      have hw1 : w1 = mstr ++ [p] := by injection hc1 with h4; exact h4.symm
      rw [← he, hw1] at hc2
      have hc2ge : 2 ^ mcs + 2 ≤ c2 := by
        rcases strOfE_cases _ _ _ _ _ hc2 with ⟨h5, h6⟩ | ⟨h5, _⟩
        · have hlen := congrArg List.length h6
          rw [List.length_append] at hlen
          simp only [List.length_singleton] at hlen
          have hz : mstr.length ≠ 0 := fun hz => hmne (List.length_eq_zero.mp hz)
          omega
        · exact h5
      have := (hsim.hdict s.Match.toNat p c2 (by omega) hp).mpr
        ⟨mstr, hmm, hc2, hc2ge⟩
      rw [hmiss] at this
      exact absurd this (by simp)
    · omega
  · -- hlen2
    intro c w hge hc
    rcases hEC c _ hc with hcle | hceq
    · rw [hE1 _ hcle] at hc
      exact hsim.hlen2 c w hge hc
    · rw [hceq, hE2] at hc
      have hw : w = mstr ++ [p] := by injection hc with h4; exact h4.symm
      rw [hw]
      have : mstr.length ≠ 0 := by
        intro hz
        exact hmne (List.length_eq_zero.mp hz)
      simp
      omega
  · -- hclosed
    intro c w hge hc
    rcases hEC c _ hc with hcle | hceq
    · rw [hE1 _ hcle] at hc
      obtain ⟨c0, w0, q, hc0, hdec⟩ := hsim.hclosed c _ hge hc
      have hc0le := hECO c0 _ hc0
      exact ⟨c0, w0, q, by rw [hE1 _ hc0le]; exact hc0, hdec⟩
    · rw [hceq, hE2] at hc
      have hw : w = mstr ++ [p] := by injection hc with h4; exact h4.symm
      exact ⟨s.Match.toNat, mstr, p, by rw [hE1 _ hmle]; exact hmm, hw⟩
  · -- hprevcode
    intro q hq
    injection hq with hq
    refine ⟨s.Match.toNat, ?_⟩
    rw [hE1 _ hmle, ← hq]
    exact hmm

theorem headD_append_ne_nil (mstr : List Nat) (p : Nat) (h : mstr ≠ []) :
    (mstr ++ [p]).headD 0 = mstr.headD 0 := by
  cases mstr with
  | nil => exact absurd rfl h
  | cons a t => rfl

theorem Sim_step_hit (mcs : Nat)
    (s : CodeStream) (cs next : Nat) (prev : Option (List Nat))
    (table : List (List Nat)) (mstr : List Nat) (p c' : Nat)
    (hp : p < 2 ^ mcs)
    (hsim : Sim mcs s cs next prev table mstr)
    (hmge : 0 ≤ s.Match)
    (hhit : List.lookup (strKey s.Match.toNat p) s.Dict = some c') :
    Sim mcs { s with Match := (c' : Int) } cs next prev table (mstr ++ [p]) := by
  have hmm := sim_hmm hsim hmge
  have hmne : mstr ≠ [] := strOfE_ne_nil _ _ _ _ _ _ hsim.htne hmm
  have hmlt : s.Match.toNat < 4096 := lt_of_lt_of_le (sim_match_lt hsim hmge)
    (le_of_lt hsim.hmax)
  obtain ⟨sm, hsm, hc', hge⟩ := (hsim.hdict s.Match.toNat p c' hmlt hp).mp hhit
  have hsme : sm = mstr := by
    rw [hmm] at hsm
    injection hsm with h4
    exact h4.symm
  rw [hsme] at hc'
  have hpendeq : pendStr prev (mstr ++ [p]) = pendStr prev mstr := by
    unfold pendStr
    cases prev with
    | none => rfl
    | some q => rw [headD_append_ne_nil mstr p hmne]
  refine ⟨hsim.hclear, hsim.heoi, hsim.hmincs, hsim.hcs, hsim.hcslo, hsim.hlag,
    hsim.hbase, hsim.hmax, hsim.hfit, hsim.hfresh, hsim.hpne, hsim.htne,
    ?_, ?_, ?_, ?_, ?_, ?_⟩
  · refine Or.inr ⟨by simp, ?_⟩
    have htn : ({ s with Match := (c' : Int) } : CodeStream).Match.toNat = c' := by
      simp
    rw [htn, hpendeq]
    exact hc'
  · intro m' p' c'' hm' hp'
    rw [hpendeq]
    exact hsim.hdict m' p' c'' hm' hp'
  · intro c1 c2 w1 w2 hc1 hc2 he
    rw [hpendeq] at hc1 hc2
    exact hsim.hinj c1 c2 w1 w2 hc1 hc2 he
  · intro c w hge2 hc
    rw [hpendeq] at hc
    exact hsim.hlen2 c w hge2 hc
  · intro c w hge2 hc
    rw [hpendeq] at hc
    obtain ⟨c0, w0, q, hc0, hdec⟩ := hsim.hclosed c w hge2 hc
    exact ⟨c0, w0, q, by rw [hpendeq]; exact hc0, hdec⟩
  · intro q hq
    obtain ⟨cq, hcq⟩ := hsim.hprevcode q hq
    exact ⟨cq, by rw [hpendeq]; exact hcq⟩

theorem Sim_step_neg (mcs : Nat) (s : CodeStream) (cs next : Nat)
    (table : List (List Nat)) (mstr : List Nat) (p : Nat) (hp : p < 2 ^ mcs)
    (hsim : Sim mcs s cs next none table mstr) :
    Sim mcs { s with Match := (p : Int) } cs next none table [p] := by
  refine ⟨hsim.hclear, hsim.heoi, hsim.hmincs, hsim.hcs, hsim.hcslo, hsim.hlag,
    hsim.hbase, hsim.hmax, hsim.hfit, hsim.hfresh, hsim.hpne, hsim.htne,
    ?_, hsim.hdict, hsim.hinj, hsim.hlen2, hsim.hclosed, hsim.hprevcode⟩
  refine Or.inr ⟨by simp, ?_⟩
  have htn : ({ s with Match := (p : Int) } : CodeStream).Match.toNat = p := by
    simp
  rw [htn]
  exact strOfE_lit _ _ _ _ hp

theorem finish_codes_proj (x : CodeStream) :
    ({ x with Codes := x.Codes ++ [0] } : CodeStream).Codes = x.Codes ++ [0] := rfl

theorem sim_match_fit {mcs : Nat} {s : CodeStream} {cs next : Nat}
    {prev : Option (List Nat)} {table : List (List Nat)} {mstr : List Nat}
    (hsim : Sim mcs s cs next prev table mstr) (hmge : 0 ≤ s.Match) :
    s.Match.toNat < 2 ^ cs := by
  have h1 := sim_match_lt hsim hmge
  have h2 := hsim.hfit
  omega

theorem dec_step_match_none (mcs fuel : Nat) (cs next : Nat)
    (table : List (List Nat)) (mstr acc : List Nat)
    (s : CodeStream) (rest : List Bool)
    (hsim : Sim mcs s cs next none table mstr) (hge : 0 ≤ s.Match) :
    lzwDecodeGo mcs (fuel + 1) (natBitsLE cs s.Match.toNat ++ rest) cs next
      none table acc =
    lzwDecodeGo mcs fuel rest cs next (some mstr) table (acc ++ mstr) := by
  have ht : table = [] := hsim.hfresh rfl
  have hmm := sim_hmm hsim hge
  rw [ht] at hmm
  obtain ⟨hmlit, hmstr⟩ := strOfE_fresh mcs mstr s.Match.toNat mstr hmm
  rw [dec_step_lit_none mcs fuel _ cs next table acc s.Match.toNat rest
    (readBits_exact cs s.Match.toNat rest (sim_match_fit hsim hge)) hmlit]
  rw [← hmstr]

theorem dec_step_match_some (mcs fuel : Nat) (cs next : Nat) (pstr : List Nat)
    (table : List (List Nat)) (mstr acc : List Nat)
    (s : CodeStream) (rest : List Bool)
    (hsim : Sim mcs s cs next (some pstr) table mstr) (hge : 0 ≤ s.Match) :
    lzwDecodeGo mcs (fuel + 1) (natBitsLE cs s.Match.toNat ++ rest) cs next
      (some pstr) table acc =
    lzwDecodeGo mcs fuel rest
      (if next + 1 = 2 ^ cs ∧ cs < 12 then cs + 1 else cs) (next + 1)
      (some mstr) (table ++ [pstr ++ [mstr.headD 0]]) (acc ++ mstr) := by
  have hmm := sim_hmm hsim hge
  have hmne : mstr ≠ [] := strOfE_ne_nil _ _ _ _ _ _ hsim.htne hmm
  have hpsne : pstr ≠ [] := hsim.hpne pstr rfl
  have hbaseO : next = 2 ^ mcs + 2 + table.length := hsim.hbase
  have hread := readBits_exact cs s.Match.toNat rest (sim_match_fit hsim hge)
  rcases strOfE_cases _ _ _ _ _ hmm with ⟨hmlit, hmstr⟩ | ⟨hmge2, hmle2⟩
  · -- a literal code
    rw [dec_step_lit_some mcs fuel _ cs next pstr table acc s.Match.toNat rest
      hread hmlit]
    simp only [hmstr, List.headD_cons]
  · by_cases hmn : s.Match.toNat = next
    · -- the pending (KwKwK) code
      have hpendix : strOfE mcs table (pendStr (some pstr) mstr) next =
          pendStr (some pstr) mstr := by
        rw [hbaseO]
        exact strOfE_pend _ _ _
      rw [hmn] at hmm
      rw [hpendix] at hmm
      have hmstr2 : mstr = pstr ++ [mstr.headD 0] := by
        have h4 : some (pstr ++ [mstr.headD 0]) = some mstr := hmm
        injection h4 with h4
        exact h4.symm
      have hheads : mstr.headD 0 = pstr.headD 0 := by
        conv_lhs => rw [hmstr2]
        exact headD_append_ne_nil pstr _ hpsne
      rw [hmn] at hread
      rw [hmn]
      rw [dec_step_kwk mcs fuel _ cs next pstr table acc rest hread (by omega)]
      rw [show pstr ++ [pstr.headD 0] = mstr from by rw [← hheads, ← hmstr2]]
      rw [← hmstr2]
    · -- an interior table code
      have hmlt : s.Match.toNat < next := by
        have := hsim.hlag
        have hlag2 : s.NextCode = next + 1 := this
        have := sim_match_lt hsim hge
        omega
      have hcode : codeStr mcs table s.Match.toNat = some mstr := by
        rw [codeStr_eq_strOfE mcs table (pendStr (some pstr) mstr) s.Match.toNat
          (Or.inr ⟨hmge2, by omega⟩)]
        exact hmm
      rw [dec_step_tbl mcs fuel _ cs next pstr table acc s.Match.toNat mstr rest
        hread hmge2 hmlt hcode]

theorem sim_main (mcs : Nat) (h2 : 2 ≤ mcs) (h8 : mcs ≤ 8) :
    ∀ (input : List Nat) (s : CodeStream) (cs next : Nat)
      (prev : Option (List Nat)) (table : List (List Nat)) (mstr : List Nat)
      (acc : List Nat) (bits0 : List Bool),
      Sim mcs s cs next prev table mstr → EmitInv s bits0 →
      (∀ b ∈ input, b < 2 ^ mcs) →
      ∃ Δ cnt,
        3 * cnt ≤ Δ.length ∧
        (∃ z, bytesBits (deframe ((input.foldl CodeStream.AddByte s).finish).Codes) =
          bits0 ++ Δ ++ List.replicate z false) ∧
        (∀ z fuel, cnt ≤ fuel →
          lzwDecodeGo mcs fuel (Δ ++ List.replicate z false) cs next prev table acc =
            some (acc ++ mstr ++ input)) := by
  intro input
  induction input with
  | nil =>
    intro s cs next prev table mstr acc bits0 hsim hemit hb
    have hcslo : mcs + 1 ≤ cs := hsim.hcslo
    have hm4 : (4 : Nat) ≤ 2 ^ mcs := by
      calc (4 : Nat) = 2 ^ 2 := by norm_num
      _ ≤ 2 ^ mcs := Nat.pow_le_pow_right (by omega) h2
    have hcspow : 2 * 2 ^ mcs ≤ 2 ^ cs := by
      have h1 : (2 : Nat) ^ (mcs + 1) ≤ 2 ^ cs :=
        Nat.pow_le_pow_right (by omega) hcslo
      rw [pow_succ] at h1
      omega
    have heoival : s.EOICode = 2 ^ mcs + 1 := hsim.heoi
    rw [show ([] : List Nat).foldl CodeStream.AddByte s = s from rfl, finish_eq]
    rcases hsim.hmatch with ⟨hm1, hm2, hm3⟩ | ⟨hge, hmm⟩
    · -- no pending match: only the EOI code is written
      rw [if_neg (by rw [hm1]; omega)]
      simp only []
      rw [heoival]
      obtain ⟨hemit2, _⟩ := WriteCode_emit s bits0 (2 ^ mcs + 1) hemit
        (by rw [hsim.hcs]; omega)
      rw [hsim.hcs] at hemit2
      obtain ⟨z, hz⟩ := flush_bytes _ _ hemit2
      refine ⟨natBitsLE cs (2 ^ mcs + 1), 1, ?_, ?_, ?_⟩
      · rw [natBitsLE_length]
        omega
      · refine ⟨z, ?_⟩
        rw [hz]
        try simp [List.append_assoc]
      · intro z' fuel hf
        obtain ⟨f, rfl⟩ : ∃ f, fuel = f + 1 := ⟨fuel - 1, by omega⟩
        rw [dec_step_eoi mcs f _ cs next prev table acc []
          (by rw [readBits_pad cs cs (2 ^ mcs + 1) z' (le_refl _) (by omega)])]
        rw [hm2]
        simp
    · -- flush the pending match, then the EOI code
      have hmfit : s.Match.toNat < 2 ^ cs := sim_match_fit hsim hge
      have hmne_clear : s.Match.toNat ≠ s.ClearCode := by
        rw [hsim.hclear]
        rcases sim_match_kind hsim hge with h | h <;> omega
      rw [if_pos hge]
      simp only []
      obtain ⟨c1, c2, c3, c4, c5, c6, c7⟩ := WriteCode_ctrl s s.Match.toNat hmne_clear
      rw [c2, heoival]
      obtain ⟨hemit1, _⟩ := WriteCode_emit s bits0 s.Match.toNat hemit
        (by rw [hsim.hcs]; omega)
      rw [hsim.hcs] at hemit1
      obtain ⟨hemit2, _⟩ := WriteCode_emit (s.WriteCode s.Match.toNat) _
        (2 ^ mcs + 1) hemit1 (by rw [c5, hsim.hcs]; omega)
      rw [c5, hsim.hcs] at hemit2
      obtain ⟨z, hz⟩ := flush_bytes _ _ hemit2
      refine ⟨natBitsLE cs s.Match.toNat ++ natBitsLE cs (2 ^ mcs + 1), 2,
        ?_, ?_, ?_⟩
      · rw [List.length_append, natBitsLE_length, natBitsLE_length]
        omega
      · refine ⟨z, ?_⟩
        rw [hz]
        try simp [List.append_assoc]
      · intro z' fuel hf
        obtain ⟨f, rfl⟩ : ∃ f, fuel = f + 1 + 1 := ⟨fuel - 2, by omega⟩
        rw [List.append_assoc]
        cases prev with
        | none =>
          rw [dec_step_match_none mcs (f + 1) cs next table mstr acc s _ hsim hge]
          rw [dec_step_eoi mcs f _ cs next (some mstr) table (acc ++ mstr) []
            (by rw [readBits_pad cs cs (2 ^ mcs + 1) z' (le_refl _) (by omega)])]
          simp
        | some pstr =>
          rw [dec_step_match_some mcs (f + 1) cs next pstr table mstr acc s _ hsim hge]
          have hbump : cs ≤ (if next + 1 = 2 ^ cs ∧ cs < 12 then cs + 1 else cs) := by
            split <;> omega
          rw [dec_step_eoi mcs f _ _ (next + 1) (some mstr) _ (acc ++ mstr) []
            (by rw [readBits_pad _ cs (2 ^ mcs + 1) z' hbump (by omega)])]
          simp
  | cons p rest ih =>
    intro s cs next prev table mstr acc bits0 hsim hemit hb
    have hp : p < 2 ^ mcs := hb p (by simp)
    have hrest : ∀ b ∈ rest, b < 2 ^ mcs := fun b hbm => hb b (by simp [hbm])
    have hcslo : mcs + 1 ≤ cs := hsim.hcslo
    have hm4 : (4 : Nat) ≤ 2 ^ mcs := by
      calc (4 : Nat) = 2 ^ 2 := by norm_num
      _ ≤ 2 ^ mcs := Nat.pow_le_pow_right (by omega) h2
    have hm256 : (2 : Nat) ^ mcs ≤ 256 := by
      have : (2 : Nat) ^ mcs ≤ 2 ^ 8 := Nat.pow_le_pow_right (by omega) h8
      norm_num at this
      exact this
    have hcspow : 2 * 2 ^ mcs ≤ 2 ^ cs := by
      have h1 : (2 : Nat) ^ (mcs + 1) ≤ 2 ^ cs :=
        Nat.pow_le_pow_right (by omega) hcslo
      rw [pow_succ] at h1
      omega
    rw [List.foldl_cons]
    by_cases hneg : s.Match < 0
    · -- no match in progress: start one, nothing is emitted
      rcases hsim.hmatch with ⟨hm1, hm2, hm3⟩ | ⟨hge, _⟩
      · subst hm3
        rw [AddByte_neg s p hneg]
        obtain ⟨Δ, cnt, hlen, hbytes, hdec⟩ := ih { s with Match := (p : Int) }
          cs next none table [p] acc bits0
          (Sim_step_neg mcs s cs next table mstr p hp hsim) hemit hrest
        refine ⟨Δ, cnt, hlen, hbytes, ?_⟩
        intro z fuel hf
        rw [hdec z fuel hf]
        rw [hm2]
        simp
      · omega
    · have hge : 0 ≤ s.Match := by omega
      have hmm := sim_hmm hsim hge
      have hmlt4096 : s.Match.toNat < 4096 :=
        lt_of_lt_of_le (sim_match_lt hsim hge) (le_of_lt hsim.hmax)
      cases hlook : List.lookup (strKey s.Match.toNat p) s.Dict with
      | some c' =>
        rw [AddByte_hit s p c' hneg hlook]
        obtain ⟨Δ, cnt, hlen, hbytes, hdec⟩ := ih { s with Match := (c' : Int) }
          cs next prev table (mstr ++ [p]) acc bits0
          (Sim_step_hit mcs s cs next prev table mstr p c' hp hsim hge hlook)
          hemit hrest
        refine ⟨Δ, cnt, hlen, hbytes, ?_⟩
        intro z fuel hf
        rw [hdec z fuel hf]
        simp
      | none =>
        rw [AddByte_miss s p hneg hlook]
        simp only []
        have hmfit : s.Match.toNat < 2 ^ cs := sim_match_fit hsim hge
        have hmne_clear : s.Match.toNat ≠ s.ClearCode := by
          rw [hsim.hclear]
          rcases sim_match_kind hsim hge with h | h <;> omega
        obtain ⟨c1, c2, c3, c4, c5, c6, c7⟩ := WriteCode_ctrl s s.Match.toNat
          hmne_clear
        obtain ⟨hemit1, _⟩ := WriteCode_emit s bits0 s.Match.toNat hemit
          (by rw [hsim.hcs]; omega)
        rw [hsim.hcs] at hemit1
        have hmaxO : s.NextCode < 4096 := hsim.hmax
        have hfitO : s.NextCode ≤ 2 ^ cs := hsim.hfit
        set s2 : CodeStream := { (s.WriteCode s.Match.toNat) with
            Dict := (strKey s.Match.toNat p, (s.WriteCode s.Match.toNat).NextCode) :: (s.WriteCode s.Match.toNat).Dict,
            NextCode := (s.WriteCode s.Match.toNat).NextCode + 1 } with hs2
        have hs2d : s2.Dict = (strKey s.Match.toNat p, s.NextCode) :: s.Dict := by
          rw [hs2]
          show (strKey s.Match.toNat p, (s.WriteCode s.Match.toNat).NextCode) ::
            (s.WriteCode s.Match.toNat).Dict = _
          rw [c3, c7]
        have hs2n : s2.NextCode = s.NextCode + 1 := by
          rw [hs2]
          show (s.WriteCode s.Match.toNat).NextCode + 1 = _
          rw [c3]
        have hs2c : s2.ClearCode = s.ClearCode := by
          rw [hs2]
          exact c1
        have hs2e : s2.EOICode = s.EOICode := by
          rw [hs2]
          exact c2
        have hs2m : s2.MinCodeSize = s.MinCodeSize := by
          rw [hs2]
          exact c6
        have hs2cs : s2.CodeSize = cs := by
          rw [hs2]
          exact c5.trans hsim.hcs
        have hemit2 : EmitInv s2 (bits0 ++ natBitsLE cs s.Match.toNat) := by
          rw [hs2]
          exact hemit1
        cases prev with
        | none =>
          have ht : table = [] := hsim.hfresh rfl
          have hlagN : s.NextCode = next := hsim.hlag
          have hbaseN : next = 2 ^ mcs + 2 := by
            have := hsim.hbase
            rw [ht] at this
            simpa using this
          have hcond1 : ¬(s2.NextCode = CODE_LIMIT) := by
            rw [hs2n, show CODE_LIMIT = 4096 from rfl]
            omega
          have hcond2 : ¬(s2.NextCode = (1 <<< s2.CodeSize) + 1) := by
            rw [hs2n, hs2cs, Nat.shiftLeft_eq, one_mul]
            have := pow_ne_base mcs cs h2 (by omega)
            omega
          rw [if_neg hcond1, if_neg hcond2]
          obtain ⟨Δr, cntr, hlenr, hbytesr, hdecr⟩ :=
            ih { s2 with Match := (p : Int) }
              cs next (some [s.Match.toNat]) table [p] (acc ++ mstr)
              (bits0 ++ natBitsLE cs s.Match.toNat)
              (Sim_step_miss_none mcs h2 h8 s _ cs next table mstr p hp hsim hge
                (by show s2.Dict = _; exact hs2d)
                (by show s2.NextCode = _; exact hs2n)
                rfl
                (by show s2.ClearCode = _; exact hs2c)
                (by show s2.EOICode = _; exact hs2e)
                (by show s2.MinCodeSize = _; exact hs2m)
                (by show s2.CodeSize = _; rw [hs2cs, hsim.hcs]))
              (by show EmitInv _ _; exact hemit2) hrest
          refine ⟨natBitsLE cs s.Match.toNat ++ Δr, cntr + 1, ?_, ?_, ?_⟩
          · rw [List.length_append, natBitsLE_length]
            omega
          · obtain ⟨z, hzr⟩ := hbytesr
            refine ⟨z, ?_⟩
            rw [hzr]
            try simp [List.append_assoc]
          · intro z fuel hf
            obtain ⟨f, rfl⟩ : ∃ f, fuel = f + 1 := ⟨fuel - 1, by omega⟩
            rw [List.append_assoc]
            rw [dec_step_match_none mcs f cs next table mstr acc s _ hsim hge]
            have hmm2 := hmm
            rw [ht] at hmm2
            obtain ⟨hmlit, hmstr⟩ := strOfE_fresh mcs mstr s.Match.toNat mstr hmm2
            rw [← hmstr] at hdecr
            rw [hdecr z f (by omega)]
            simp
        | some pstr =>
          have hlagS : s.NextCode = next + 1 := hsim.hlag
          by_cases hclr : s.NextCode + 1 = 4096
          · -- reaching the 4096-code ceiling: emit a clear code and reset
            have hcondC : s2.NextCode = CODE_LIMIT := by
              rw [hs2n, show CODE_LIMIT = 4096 from rfl]
              omega
            have hclv : s2.ClearCode = 2 ^ mcs := hs2c.trans hsim.hclear
            rw [if_pos hcondC, hclv]
            obtain ⟨hemit3, _⟩ := WriteCode_emit s2 _ (2 ^ mcs) hemit2
              (by rw [hs2cs]; omega)
            rw [hs2cs] at hemit3
            obtain ⟨d1, d2, d3, d4, d5, d6, d7⟩ :=
              WriteCode_clear_ctrl s2 (2 ^ mcs) hclv.symm
            obtain ⟨Δr, cntr, hlenr, hbytesr, hdecr⟩ :=
              ih { (s2.WriteCode (2 ^ mcs)) with Match := (p : Int) }
                (mcs + 1) (2 ^ mcs + 2) none [] [p] (acc ++ mstr)
                (bits0 ++ natBitsLE cs s.Match.toNat ++ natBitsLE cs (2 ^ mcs))
                (Sim_fresh mcs h2 h8 _ [p]
                  (by show (s2.WriteCode (2 ^ mcs)).ClearCode = _
                      rw [d1, hclv])
                  (by show (s2.WriteCode (2 ^ mcs)).EOICode = _
                      rw [d2, hs2e, hsim.heoi])
                  (by show (s2.WriteCode (2 ^ mcs)).MinCodeSize = _
                      rw [d6, hs2m, hsim.hmincs])
                  (by show (s2.WriteCode (2 ^ mcs)).CodeSize = _
                      rw [d5, hs2m, hsim.hmincs])
                  (by show (s2.WriteCode (2 ^ mcs)).NextCode = _
                      rw [d3, hs2e, hsim.heoi])
                  (by show (s2.WriteCode (2 ^ mcs)).Dict = _
                      rw [d7, hs2m, hsim.hmincs])
                  (Or.inr ⟨by simp, by simp [hp]⟩))
                (by show EmitInv _ _; exact hemit3) hrest
            refine ⟨natBitsLE cs s.Match.toNat ++ (natBitsLE cs (2 ^ mcs) ++ Δr),
              cntr + 2, ?_, ?_, ?_⟩
            · rw [List.length_append, List.length_append, natBitsLE_length,
                natBitsLE_length]
              omega
            · obtain ⟨z, hzr⟩ := hbytesr
              refine ⟨z, ?_⟩
              rw [hzr]
              try simp [List.append_assoc]
            · intro z fuel hf
              obtain ⟨f, rfl⟩ : ∃ f, fuel = f + 1 + 1 := ⟨fuel - 2, by omega⟩
              rw [List.append_assoc]
              rw [dec_step_match_some mcs (f + 1) cs next pstr table mstr acc s _
                hsim hge]
              have hnobump : ¬(next + 1 = 2 ^ cs ∧ cs < 12) := by
                rintro ⟨ha, _⟩
                have hdv : (2 : Nat) ∣ 2 ^ cs := dvd_pow_self 2 (by omega)
                omega
              rw [if_neg hnobump]
              rw [List.append_assoc]
              rw [dec_step_clear mcs f _ cs (next + 1) (some mstr) _ (acc ++ mstr)
                _ (readBits_exact cs (2 ^ mcs) _ (by omega))]
              rw [hdecr z f (by omega)]
              simp
          · have hcondC : ¬(s2.NextCode = CODE_LIMIT) := by
              rw [hs2n, show CODE_LIMIT = 4096 from rfl]
              omega
            rw [if_neg hcondC]
            by_cases hbmp : s.NextCode + 1 = 2 ^ cs + 1
            · -- code-size boundary: the encoder widens, the decoder follows
              have hcondB : s2.NextCode = (1 <<< s2.CodeSize) + 1 := by
                rw [hs2n, hs2cs, Nat.shiftLeft_eq, one_mul]
                omega
              rw [if_pos hcondB]
              have hcndT : next + 1 = 2 ^ cs ∧ cs < 12 := by
                constructor
                · omega
                · have hlt : (2 : Nat) ^ cs < 2 ^ 12 := by norm_num; omega
                  exact (Nat.pow_lt_pow_iff_right (by omega)).mp hlt
              obtain ⟨Δr, cntr, hlenr, hbytesr, hdecr⟩ :=
                ih { { s2 with CodeSize := s2.CodeSize + 1 } with Match := (p : Int) }
                  (if next + 1 = 2 ^ cs ∧ cs < 12 then cs + 1 else cs) (next + 1)
                  (some mstr) (table ++ [pstr ++ [mstr.headD 0]]) [p] (acc ++ mstr)
                  (bits0 ++ natBitsLE cs s.Match.toNat)
                  (Sim_step_miss_some mcs h2 h8 s _ cs next pstr table mstr p hp
                    hsim hge hlook
                    (by show s2.CodeSize + 1 = _
                        rw [hs2cs, if_pos hcndT])
                    (by show s2.Dict = _; exact hs2d)
                    (by show s2.NextCode = _; exact hs2n)
                    rfl
                    (by show s2.ClearCode = _; exact hs2c)
                    (by show s2.EOICode = _; exact hs2e)
                    (by show s2.MinCodeSize = _; exact hs2m)
                    (by omega))
                  (by show EmitInv _ _; exact hemit2) hrest
              refine ⟨natBitsLE cs s.Match.toNat ++ Δr, cntr + 1, ?_, ?_, ?_⟩
              · rw [List.length_append, natBitsLE_length]
                omega
              · obtain ⟨z, hzr⟩ := hbytesr
                refine ⟨z, ?_⟩
                rw [hzr]
                try simp [List.append_assoc]
              · intro z fuel hf
                obtain ⟨f, rfl⟩ : ∃ f, fuel = f + 1 := ⟨fuel - 1, by omega⟩
                rw [List.append_assoc]
                rw [dec_step_match_some mcs f cs next pstr table mstr acc s _
                  hsim hge]
                rw [hdecr z f (by omega)]
                simp
            · -- interior insertion: no size change on either side
              have hcondB : ¬(s2.NextCode = (1 <<< s2.CodeSize) + 1) := by
                rw [hs2n, hs2cs, Nat.shiftLeft_eq, one_mul]
                omega
              rw [if_neg hcondB]
              have hcndF : ¬(next + 1 = 2 ^ cs ∧ cs < 12) := by
                rintro ⟨ha, _⟩
                omega
              obtain ⟨Δr, cntr, hlenr, hbytesr, hdecr⟩ :=
                ih { s2 with Match := (p : Int) }
                  (if next + 1 = 2 ^ cs ∧ cs < 12 then cs + 1 else cs) (next + 1)
                  (some mstr) (table ++ [pstr ++ [mstr.headD 0]]) [p] (acc ++ mstr)
                  (bits0 ++ natBitsLE cs s.Match.toNat)
                  (Sim_step_miss_some mcs h2 h8 s _ cs next pstr table mstr p hp
                    hsim hge hlook
                    (by show s2.CodeSize = _
                        rw [hs2cs, if_neg hcndF])
                    (by show s2.Dict = _; exact hs2d)
                    (by show s2.NextCode = _; exact hs2n)
                    rfl
                    (by show s2.ClearCode = _; exact hs2c)
                    (by show s2.EOICode = _; exact hs2e)
                    (by show s2.MinCodeSize = _; exact hs2m)
                    (by omega))
                  (by show EmitInv _ _; exact hemit2) hrest
              refine ⟨natBitsLE cs s.Match.toNat ++ Δr, cntr + 1, ?_, ?_, ?_⟩
              · rw [List.length_append, natBitsLE_length]
                omega
              · obtain ⟨z, hzr⟩ := hbytesr
                refine ⟨z, ?_⟩
                rw [hzr]
                try simp [List.append_assoc]
              · intro z fuel hf
                obtain ⟨f, rfl⟩ : ∃ f, fuel = f + 1 := ⟨fuel - 1, by omega⟩
                rw [List.append_assoc]
                rw [dec_step_match_some mcs f cs next pstr table mstr acc s _
                  hsim hge]
                rw [hdecr z f (by omega)]
                simp

theorem EmitInv_start (mcs cc ec : Nat) :
    EmitInv (⟨[], 0, cc, ec, 0, 0, mcs + 1, mcs, 0, [], []⟩ : CodeStream) [] := by
  refine ⟨by norm_num, [], by simp, rfl, ?_⟩
  show ([] : List Bool) = bytesBits ([].flatten ++ []) ++ natBitsLE 0 0
  simp [bytesBits, natBitsLE_zero_left]

/-- **C1.** For every input byte sequence whose bytes are all below
`2 ^ mincodesize` (with `2 ≤ mincodesize ≤ 8`), the bit-packed output
produced by the entropy encoder (`lzwCompress` driving
`CodeStream.AddByte`, including its 255-byte sub-block framing and the
final zero-length terminator), when run through the conformant GIF-LZW
reference decompressor `lzwDecode` for the same minimum code size,
reproduces the original byte sequence exactly; the statement covers all
inputs, including those that assign fewer than 4096 dictionary codes and
those long enough to reach the 4096-code ceiling and force mid-stream
clear-code resets. -/
theorem lzw_roundtrip (mcs : Nat) (bytes : List Nat) (h2 : 2 ≤ mcs)
    (h8 : mcs ≤ 8) (hb : ∀ b ∈ bytes, b < 2 ^ mcs) :
    lzwDecode mcs ((lzwCompress mcs bytes).drop 1) = some bytes := by
  have hm4 : (4 : Nat) ≤ 2 ^ mcs := by
    calc (4 : Nat) = 2 ^ 2 := by norm_num
    _ ≤ 2 ^ mcs := Nat.pow_le_pow_right (by omega) h2
  have hshift : (1 : Nat) <<< mcs = 2 ^ mcs := by
    rw [Nat.shiftLeft_eq, one_mul]
  have hpow1 : (2 : Nat) ^ (mcs + 1) = 2 * 2 ^ mcs := by rw [pow_succ]; ring
  unfold lzwCompress
  rw [if_neg (by omega)]
  simp only [List.drop_succ_cons, List.drop_zero]
  have hinit : CodeStream.init mcs = CodeStream.WriteCode (⟨[], 0, 1 <<< mcs, (1 <<< mcs) + 1, 0, 0, mcs + 1, mcs, 0, [], []⟩ : CodeStream) (1 <<< mcs) := rfl
  rw [hshift] at hinit
  obtain ⟨d1, d2, d3, d4, d5, d6, d7⟩ := WriteCode_clear_ctrl
    (⟨[], 0, 2 ^ mcs, 2 ^ mcs + 1, 0, 0, mcs + 1, mcs, 0, [], []⟩ : CodeStream)
    (2 ^ mcs) rfl
  obtain ⟨hemitI, _⟩ := WriteCode_emit
    (⟨[], 0, 2 ^ mcs, 2 ^ mcs + 1, 0, 0, mcs + 1, mcs, 0, [], []⟩ : CodeStream)
    [] (2 ^ mcs) (EmitInv_start mcs (2 ^ mcs) (2 ^ mcs + 1))
    (by show (2 : Nat) ^ mcs < 2 ^ (mcs + 1); rw [hpow1]; omega)
  rw [← hinit] at hemitI
  rw [show natBitsLE ((⟨[], 0, 2 ^ mcs, 2 ^ mcs + 1, 0, 0, mcs + 1, mcs, 0, [], []⟩ : CodeStream)).CodeSize (2 ^ mcs) = natBitsLE (mcs + 1) (2 ^ mcs) from rfl, List.nil_append] at hemitI
  have hsimI : Sim mcs (CodeStream.init mcs) (mcs + 1) (2 ^ mcs + 2) none [] [] := by
    refine Sim_fresh mcs h2 h8 _ [] ?_ ?_ ?_ ?_ ?_ ?_ (Or.inl ⟨?_, rfl⟩)
    · rw [hinit, d1]
    · rw [hinit, d2]
    · rw [hinit, d6]
    · rw [hinit, d5]
    · rw [hinit, d3]
    · rw [hinit, d7]
    · rw [hinit, d4]
  obtain ⟨Δ, cnt, hlen, ⟨z, hbytes⟩, hdec⟩ := sim_main mcs h2 h8 bytes
    (CodeStream.init mcs) (mcs + 1) (2 ^ mcs + 2) none [] [] []
    (natBitsLE (mcs + 1) (2 ^ mcs)) hsimI hemitI hb
  unfold lzwDecode
  simp only []
  rw [hbytes]
  rw [List.append_assoc]
  have hfuel : (natBitsLE (mcs + 1) (2 ^ mcs) ++ (Δ ++ List.replicate z false)).length =
      (mcs + 1) + (Δ.length + z) := by
    rw [List.length_append, List.length_append, natBitsLE_length,
      List.length_replicate]
  rw [hfuel]
  have hstep := dec_step_clear mcs ((mcs + 1) + (Δ.length + z))
    (natBitsLE (mcs + 1) (2 ^ mcs) ++ (Δ ++ List.replicate z false))
    (mcs + 1) (2 ^ mcs + 2) none [] []
    (Δ ++ List.replicate z false)
    (readBits_exact (mcs + 1) (2 ^ mcs) _ (by rw [hpow1]; omega))
  rw [hstep]
  rw [hdec z ((mcs + 1) + (Δ.length + z)) (by omega)]
  simp

/-- Witness for `lzw_roundtrip` on a concrete byte sequence at minimum
code size 2. -/
theorem lzw_roundtrip_witness :
    2 ≤ 2 ∧ lzwDecode 2 ((lzwCompress 2 [0, 1, 1, 0, 2]).drop 1) =
      some [0, 1, 1, 0, 2] :=
  ⟨by decide, lzw_roundtrip 2 [0, 1, 1, 0, 2] (by decide) (by decide)
    (by decide)⟩

end Iff2Gif
